import Mathlib

/-!
Verification of the `calcite` interlocking task executor.

The development shallowly embeds the three core components of the
repository and proves (or refutes) the specification's claims about them:

* `CountCell` (src/interlock/cell.rs): the single-word atomic state
  machine.  The word is a 64-bit unsigned integer modelled as a `Nat`
  together with explicit `% 2^64` arithmetic; panics are modelled as
  `none` / a `crashed` flag.
* the graph compiler (src/interlock/builder.rs): `buildTasks` translates
  declared tasks into compiled records with `lock`, `unlock` and
  `initial` fields.  The `HashSet` of resource locks is modelled as a
  duplicate-free list, the `MultiMap` as an insertion list of pairs.
* the runtime executor (src/interlock/context.rs): a small-step
  interleaving semantics.  Each pending closure of the fork/join pool is
  an `Item`; a scheduler picks an item and performs its next atomic
  action.  This lets us quantify over every interleaving that rayon's
  work-stealing pool could produce.
-/

namespace Calcite

/-! ## The state cell (src/interlock/cell.rs) -/

/-- Word size of the atomic `usize` on a 64-bit machine. -/
def WORD : Nat := 2 ^ 64

/-- `LOCK_BIT = !(usize::MAX >> 1)`: the highest bit, "exclusively taken". -/
def LOCK_BIT : Nat := 2 ^ 63

/-- `COMP_BIT = !(usize::MAX >> 2) & !LOCK_BIT`: the second-highest bit, "completed". -/
def COMP_BIT : Nat := 2 ^ 62

/-- `CNT_MASK = !(LOCK_BIT | COMP_BIT)`: the low 62 counter bits. -/
def CNT_MASK : Nat := COMP_BIT - 1

/-- `CountCell::new` starts the word at `COMP_BIT`. -/
def cellNew : Nat := COMP_BIT

/-- `CountCell::reset`: compare-and-swap from `COMP_BIT` to `value`;
any other observed word panics (`none`). -/
def cellReset (w value : Nat) : Option Nat :=
  if w = COMP_BIT then some value else none

/-- `CountCell::lock`: `fetch_add(1)`; if the new value equals `COMP_BIT`
the increment is rolled back and the worker panics (`none`). -/
def cellLock (w : Nat) : Option Nat :=
  let n := (w + 1) % WORD
  if n = COMP_BIT then none else some n

/-- `CountCell::unlock`: `fetch_sub(1)`; if the old value had a zero
counter field the decrement is rolled back and the worker panics
(`none`); otherwise returns the new word and whether the old word was
exactly 1 (the task became fully ready). -/
def cellUnlock (w : Nat) : Option (Nat × Bool) :=
  if w &&& CNT_MASK = 0 then none else some (w - 1, w == 1)

/-- `CountCell::take`: compare-and-swap from `0` to `LOCK_BIT`; on failure
the word is left unchanged and no handle is produced. -/
def cellTake (w : Nat) : Option Nat :=
  if w = 0 then some LOCK_BIT else none

/-- `Drop for CountRef`: `fetch_xor(LOCK_BIT | COMP_BIT)`. -/
def cellRelease (w : Nat) : Nat :=
  w ^^^ (LOCK_BIT ||| COMP_BIT)

/-! ### Single-cell trace semantics, for the cell claims taken "in isolation".

A `CellOp` is one sequential call on a single cell.  `CellSt` tracks the
word together with the number of outstanding scoped handles and the
number of successful `take` calls.  `release` models the drop of a
`CountRef`, which in Rust can only happen while a handle exists. -/

inductive CellOp where
  | reset (k : Nat)
  | lock
  | unlock
  | take
  | release
  deriving DecidableEq, Repr

structure CellSt where
  word : Nat
  handles : Nat
  takes : Nat
  deriving DecidableEq, Repr

/-- One sequential operation on an isolated cell; `none` is a panic
(or, for `release`, an operation that the Rust ownership discipline
makes impossible without an outstanding handle). -/
def cellStep (s : CellSt) : CellOp → Option CellSt
  | .reset k =>
      match cellReset s.word k with
      | some w => some { s with word := w }
      | none => none
  | .lock =>
      match cellLock s.word with
      | some w => some { s with word := w }
      | none => none
  | .unlock =>
      match cellUnlock s.word with
      | some (w, _) => some { s with word := w }
      | none => none
  | .take =>
      match cellTake s.word with
      | some w => some { word := w, handles := s.handles + 1, takes := s.takes + 1 }
      | none => some s
  | .release =>
      if s.handles = 0 then none
      else some { word := cellRelease s.word, handles := s.handles - 1, takes := s.takes }

/-- Run a sequence of operations on an isolated cell. -/
def cellRun (s : CellSt) : List CellOp → Option CellSt
  | [] => some s
  | op :: ops =>
      match cellStep s op with
      | some s' => cellRun s' ops
      | none => none

/-! ### Basic word lemmas -/

theorem land_cntMask_eq_mod (w : Nat) : w &&& CNT_MASK = w % (2 ^ 62) := by
  have : CNT_MASK = 2 ^ 62 - 1 := rfl
  rw [this, Nat.and_pow_two_sub_one_eq_mod]

theorem land_cntMask_of_le (w : Nat) (h : w ≤ CNT_MASK) : w &&& CNT_MASK = w := by
  rw [land_cntMask_eq_mod]
  exact Nat.mod_eq_of_lt (by unfold CNT_MASK COMP_BIT at h; omega)

/-- Claim C7: `reset(k)` succeeds exactly when the cell word is `COMP_BIT`
(the Completed state), in which case the word becomes `k` (Counting(k));
in any other state it panics; and a freshly constructed cell starts at
`COMP_BIT`, so the first reset always succeeds. -/
theorem reset_succeeds_iff_completed (w k : Nat) :
    (cellReset w k = some k ↔ w = COMP_BIT) ∧
    (w ≠ COMP_BIT → cellReset w k = none) ∧
    cellNew = COMP_BIT ∧ cellReset cellNew k = some k := by
  refine ⟨⟨fun h => ?_, fun h => ?_⟩, fun h => ?_, rfl, ?_⟩
  · by_contra hne
    simp [cellReset, hne] at h
  · simp [cellReset, h]
  · simp [cellReset, h]
  · simp [cellReset, cellNew]

/-- Witness for C7 at the concrete words 5 (not Completed) and `cellNew`. -/
theorem reset_succeeds_iff_completed_witness :
    cellReset 5 3 = none ∧ cellReset cellNew 3 = some 3 :=
  ⟨(reset_succeeds_iff_completed 5 3).2.1 (by decide),
   (reset_succeeds_iff_completed 5 3).2.2.2⟩

/-- Claim C8: on a cell in Counting with counter `1 ≤ w ≤ CNT_MASK`,
`unlock()` decrements the word and returns true exactly when the
decrement lands on zero; when the counter field is already 0 it panics
(underflow). -/
theorem unlock_decrements_and_underflows (w : Nat) :
    (1 ≤ w → w ≤ CNT_MASK → cellUnlock w = some (w - 1, decide (w - 1 = 0))) ∧
    (w &&& CNT_MASK = 0 → cellUnlock w = none) := by
  constructor
  · intro h1 h2
    have hw : w &&& CNT_MASK = w := land_cntMask_of_le w h2
    have hne : ¬ (w &&& CNT_MASK = 0) := by omega
    have hbeq : (w == 1) = decide (w - 1 = 0) := by
      rcases Nat.eq_or_lt_of_le h1 with h | h
      · subst h; rfl
      · have : (w == 1) = false := by simp; omega
        have h2' : decide (w - 1 = 0) = false := by simp; omega
        rw [this, h2']
    simp only [cellUnlock, if_neg hne, hbeq]
  · intro h
    simp [cellUnlock, h]

/-- Witness for C8 at the concrete words 5 and `COMP_BIT`. -/
theorem unlock_decrements_and_underflows_witness :
    cellUnlock 5 = some (5 - 1, decide (5 - 1 = 0)) ∧ cellUnlock COMP_BIT = none :=
  ⟨(unlock_decrements_and_underflows 5).1 (by decide) (by decide),
   (unlock_decrements_and_underflows COMP_BIT).2 (by decide)⟩

/-! ### Isolated-cell invariant for the `take` claim (C6) -/

/-- Bit regions of the word: `2 ^ 62 * b + c` with `c < 2 ^ 62` splits the
word into the two control bits `b` and the 62-bit counter `c`.  XOR with a
pure control-bit word flips the control bits and leaves the counter. -/
theorem mkWord_xor (b b' c : Nat) (hc : c < 2 ^ 62) :
    (2 ^ 62 * b + c) ^^^ (2 ^ 62 * b') = 2 ^ 62 * (b ^^^ b') + c := by
  apply Nat.eq_of_testBit_eq
  intro j
  rw [Nat.testBit_xor, Nat.testBit_mul_pow_two_add _ hc,
      Nat.testBit_mul_pow_two_add _ hc, Nat.testBit_mul_pow_two, Nat.testBit_xor]
  by_cases hj : j < 62
  · simp [hj, Nat.not_le_of_lt hj]
  · simp [hj, Nat.le_of_not_lt hj]

/-- Releasing the unique handle (`fetch_xor(LOCK_BIT | COMP_BIT)`) sends
a Running word `LOCK_BIT + c` to a Completed word `COMP_BIT + c`. -/
theorem cellRelease_running (c : Nat) (hc : c < 2 ^ 62) :
    cellRelease (LOCK_BIT + c) = COMP_BIT + c := by
  have hor : LOCK_BIT ||| COMP_BIT = 2 ^ 62 * 3 := by decide
  have h2c : LOCK_BIT + c = 2 ^ 62 * 2 + c := by unfold LOCK_BIT; omega
  have hxor : (2 : Nat) ^^^ 3 = 1 := by decide
  unfold cellRelease
  rw [hor, h2c, mkWord_xor 2 3 c hc, hxor]
  unfold COMP_BIT
  omega

/-- States reachable from Counting(0) by lock/unlock/take/release, with
`used` an upper bound on the number of operations performed so far:
either not yet taken (counter word only), or taken with the unique
handle outstanding (`LOCK_BIT` plus residual locks), or completed
(`COMP_BIT` plus residual locks). -/
def CellInv (s : CellSt) (used : Nat) : Prop :=
  (s.takes = 0 ∧ s.handles = 0 ∧ s.word ≤ used) ∨
  (s.takes = 1 ∧ s.handles = 1 ∧ ∃ c ≤ used, s.word = LOCK_BIT + c) ∨
  (s.takes = 1 ∧ s.handles = 0 ∧ ∃ c ≤ used, s.word = COMP_BIT + c)

theorem cellInv_mono {s : CellSt} {u u' : Nat} (h : CellInv s u) (hle : u ≤ u') :
    CellInv s u' := by
  rcases h with ⟨h1, h2, h3⟩ | ⟨h1, h2, c, hc, h3⟩ | ⟨h1, h2, c, hc, h3⟩
  · exact Or.inl ⟨h1, h2, le_trans h3 hle⟩
  · exact Or.inr (Or.inl ⟨h1, h2, c, le_trans hc hle, h3⟩)
  · exact Or.inr (Or.inr ⟨h1, h2, c, le_trans hc hle, h3⟩)

theorem cellStep_preserves_inv {s s' : CellSt} {op : CellOp} {used : Nat}
    (hinv : CellInv s used) (hop : ∀ k, op ≠ .reset k)
    (hbound : used + 1 < CNT_MASK) (hstep : cellStep s op = some s') :
    CellInv s' (used + 1) := by
  have hL : LOCK_BIT = 2 ^ 63 := rfl
  have hC : COMP_BIT = 2 ^ 62 := rfl
  have hM : CNT_MASK = 2 ^ 62 - 1 := rfl
  cases op with
  | reset k => exact absurd rfl (hop k)
  | lock =>
    simp only [cellStep, cellLock] at hstep
    rcases hinv with ⟨h1, h2, h3⟩ | ⟨h1, h2, c, hc, h3⟩ | ⟨h1, h2, c, hc, h3⟩
    · have hlt : s.word + 1 < WORD := by unfold WORD; omega
      rw [Nat.mod_eq_of_lt hlt] at hstep
      have hne : s.word + 1 ≠ COMP_BIT := by omega
      rw [if_neg hne] at hstep
      cases hstep
      exact Or.inl ⟨h1, h2, by simp; omega⟩
    · have hlt : s.word + 1 < WORD := by unfold WORD; omega
      rw [Nat.mod_eq_of_lt hlt] at hstep
      have hne : s.word + 1 ≠ COMP_BIT := by omega
      rw [if_neg hne] at hstep
      cases hstep
      exact Or.inr (Or.inl ⟨h1, h2, c + 1, by omega, by simp; omega⟩)
    · have hlt : s.word + 1 < WORD := by unfold WORD; omega
      rw [Nat.mod_eq_of_lt hlt] at hstep
      have hne : s.word + 1 ≠ COMP_BIT := by omega
      rw [if_neg hne] at hstep
      cases hstep
      exact Or.inr (Or.inr ⟨h1, h2, c + 1, by omega, by simp; omega⟩)
  | unlock =>
    simp only [cellStep, cellUnlock] at hstep
    by_cases hz : s.word &&& CNT_MASK = 0
    · rw [if_pos hz] at hstep; cases hstep
    · rw [if_neg hz] at hstep
      cases hstep
      have hzmod := land_cntMask_eq_mod s.word
      rcases hinv with ⟨h1, h2, h3⟩ | ⟨h1, h2, c, hc, h3⟩ | ⟨h1, h2, c, hc, h3⟩
      · exact Or.inl ⟨h1, h2, by simp; omega⟩
      · refine Or.inr (Or.inl ⟨h1, h2, c - 1, by omega, ?_⟩)
        have hcz : c ≠ 0 := by
          intro h0
          rw [h3, h0, land_cntMask_eq_mod] at hz
          exact hz (by decide)
        simp; omega
      · refine Or.inr (Or.inr ⟨h1, h2, c - 1, by omega, ?_⟩)
        have hcz : c ≠ 0 := by
          intro h0
          rw [h3, h0, land_cntMask_eq_mod] at hz
          exact hz (by decide)
        simp; omega
  | take =>
    simp only [cellStep, cellTake] at hstep
    by_cases hz : s.word = 0
    · rw [if_pos hz] at hstep
      cases hstep
      rcases hinv with ⟨h1, h2, _⟩ | ⟨_, _, c, _, h3⟩ | ⟨_, _, c, _, h3⟩
      · exact Or.inr (Or.inl ⟨by simp [h1], by simp [h2], 0, by omega, by simp⟩)
      · rw [hz] at h3; omega
      · rw [hz] at h3; omega
    · rw [if_neg hz] at hstep
      cases hstep
      exact cellInv_mono (by simpa using hinv) (by omega)
  | release =>
    simp only [cellStep] at hstep
    by_cases hh : s.handles = 0
    · rw [if_pos hh] at hstep; cases hstep
    · rw [if_neg hh] at hstep
      cases hstep
      rcases hinv with ⟨h1, h2, h3⟩ | ⟨h1, h2, c, hc, h3⟩ | ⟨h1, h2, c, hc, h3⟩
      · omega
      · refine Or.inr (Or.inr ⟨by simp [h1], by simp [h2], c, by omega, ?_⟩)
        simp only [h3, cellRelease_running c (by omega)]
      · omega

theorem cellRun_inv {ops : List CellOp} {s s' : CellSt} {used : Nat}
    (hinv : CellInv s used)
    (hnr : ∀ k, CellOp.reset k ∉ ops)
    (hbound : used + ops.length < CNT_MASK)
    (hrun : cellRun s ops = some s') :
    CellInv s' (used + ops.length) := by
  induction ops generalizing s used with
  | nil =>
    simp only [cellRun] at hrun
    cases hrun
    simpa using hinv
  | cons op rest ih =>
    simp only [cellRun] at hrun
    cases hstep : cellStep s op with
    | none => rw [hstep] at hrun; cases hrun
    | some s1 =>
      rw [hstep] at hrun
      have hop : ∀ k, op ≠ CellOp.reset k := by
        intro k he
        exact hnr k (he ▸ List.mem_cons_self op rest)
      have hlen : used + 1 < CNT_MASK := by
        simp only [List.length_cons] at hbound; omega
      have h1 : CellInv s1 (used + 1) := cellStep_preserves_inv hinv hop hlen hstep
      have h2 := ih h1 (fun k hk => hnr k (List.mem_cons_of_mem _ hk))
        (by simp only [List.length_cons] at hbound; omega) hrun
      have : used + 1 + rest.length = used + (op :: rest).length := by
        simp only [List.length_cons]; omega
      rw [this] at h2
      exact h2

/-- Claim C6: `take()` returns a handle exactly when the word is 0
(Counting(0)), atomically moving it to `LOCK_BIT` (Running); otherwise it
returns no handle and leaves the word unchanged.  Consequently, starting
from a word of 0 — the state left by `reset(0)` or by the final `unlock`
that returned true — any panic-free, reset-free operation sequence of
fewer than `CNT_MASK` operations performs at most one successful take,
keeps at most one handle outstanding at a time, and has performed
exactly one take (with no handle left) whenever the word is back at
`COMP_BIT`, the only state from which the next `reset` can succeed. -/
theorem take_succeeds_iff_ready :
    (∀ w : Nat, (cellTake w = some LOCK_BIT ↔ w = 0) ∧ (w ≠ 0 → cellTake w = none)) ∧
    (∀ (ops : List CellOp) (s' : CellSt),
      (∀ k, CellOp.reset k ∉ ops) →
      ops.length < CNT_MASK →
      cellRun ⟨0, 0, 0⟩ ops = some s' →
      s'.takes ≤ 1 ∧ s'.handles ≤ 1 ∧ (s'.word = COMP_BIT → s'.takes = 1 ∧ s'.handles = 0)) := by
  constructor
  · intro w
    constructor
    · constructor
      · intro h
        by_contra hne
        simp [cellTake, hne] at h
      · intro h
        simp [cellTake, h]
    · intro h
      simp [cellTake, h]
  · intro ops s' hnr hlen hrun
    have h0 : CellInv ⟨0, 0, 0⟩ 0 := Or.inl ⟨rfl, rfl, Nat.le_refl 0⟩
    have hinv := cellRun_inv h0 hnr (by omega) hrun
    have hL : LOCK_BIT = 2 ^ 63 := rfl
    have hC : COMP_BIT = 2 ^ 62 := rfl
    have hM : CNT_MASK = 2 ^ 62 - 1 := rfl
    rcases hinv with ⟨h1, h2, h3⟩ | ⟨h1, h2, c, hc, h3⟩ | ⟨h1, h2, c, hc, h3⟩
    · exact ⟨by omega, by omega, fun hw => by rw [hw] at h3; omega⟩
    · exact ⟨by omega, by omega, fun hw => by rw [hw] at h3; omega⟩
    · exact ⟨by omega, by omega, fun hw => ⟨h1, h2⟩⟩

/-- Witness for C6: a failing take at word 5, and the full cycle
take/lock/unlock/release from word 0, which ends Completed with exactly
one successful take. -/
theorem take_succeeds_iff_ready_witness :
    cellTake 5 = none ∧
    ((⟨COMP_BIT, 0, 1⟩ : CellSt).takes ≤ 1 ∧ (⟨COMP_BIT, 0, 1⟩ : CellSt).handles ≤ 1 ∧
      ((⟨COMP_BIT, 0, 1⟩ : CellSt).word = COMP_BIT →
        (⟨COMP_BIT, 0, 1⟩ : CellSt).takes = 1 ∧ (⟨COMP_BIT, 0, 1⟩ : CellSt).handles = 0)) :=
  ⟨(take_succeeds_iff_ready.1 5).2 (by decide),
   take_succeeds_iff_ready.2 [.take, .lock, .unlock, .release] ⟨COMP_BIT, 0, 1⟩
     (by intro k h; simp at h) (by decide) (by decide)⟩

/-! ## The graph compiler (src/interlock/builder.rs) -/

/-- A declared task: its resource reads/writes and explicit predecessor
TaskIds.  Resources are numbers; TaskIds are the dense indices of
declaration order.  The closure payload is irrelevant to the compiled
control data and is omitted. -/
structure DeclTask where
  reads : List Nat
  writes : List Nat
  deps : List Nat
  deriving DecidableEq, Repr, Inhabited

/-- The builder's intermediate per-task record (the local `struct Task`
inside `InterlockBuilder::build`).  `resource_locks` models the
`HashSet<TaskId>` as a duplicate-free list in insertion order. -/
structure BTask where
  dependants : List Nat
  resource_locks : List Nat
  initial : Nat
  deriving DecidableEq, Repr, Inhabited

def BTask.new (initial : Nat) : BTask := ⟨[], [], initial⟩

def BTask.add_resource_lock (b : BTask) (id : Nat) : BTask :=
  if id ∈ b.resource_locks then b
  else { b with resource_locks := b.resource_locks ++ [id] }

def BTask.add_dependant (b : BTask) (id : Nat) : BTask :=
  { b with dependants := b.dependants ++ [id] }

/-- The compiled task record (`super::Task`), as produced by `Task::build`. -/
structure CTask where
  lock : List Nat
  unlock : List Nat
  initial : Nat
  deriving DecidableEq, Repr, Inhabited

/-- `Task::build`: `lock` is the iterated resource-lock set and `unlock`
is the dependants vector extended with that same set. -/
def BTask.build (b : BTask) : CTask :=
  ⟨b.resource_locks, b.dependants ++ b.resource_locks, b.initial⟩

/-- `multimap::MultiMap` modelled as the list of inserted (key, value)
pairs in insertion order. -/
def mmInsert (m : List (Nat × Nat)) (r id : Nat) : List (Nat × Nat) := m ++ [(r, id)]

/-- `get_vec`: all values inserted for key `r`, in insertion order (an
absent key gives the empty list, matching the `None`/skip branches). -/
def mmGet (m : List (Nat × Nat)) (r : Nat) : List Nat :=
  (m.filter (fun p => p.1 == r)).map (fun p => p.2)

/-- `iter_all` visits each present key exactly once. -/
def mmKeys (m : List (Nat × Nat)) : List Nat := (m.map (fun p => p.1)).dedup

/-- In-place update of one index of a vector (`tasks[i] = …` on the
builder's `Vec<Task>`); out-of-range indices are untouched. -/
def modAt {α : Type} : List α → Nat → (α → α) → List α
  | [], _, _ => []
  | a :: l, 0, f => f a :: l
  | a :: l, n + 1, f => a :: modAt l n f

/-- State of the first loop of `InterlockBuilder::build`: the records
built so far and the two resource maps. -/
structure BuildSt where
  tasks : List BTask
  read_map : List (Nat × Nat)
  write_map : List (Nat × Nat)
  deriving Repr

/-- One iteration of the first loop: push the fresh record with
`initial = |dependencies|`, insert the reads and writes, and register
this task as a dependant of each of its explicit predecessors. -/
def addTaskStep (st : BuildSt) (id : Nat) (t : DeclTask) : BuildSt :=
  let tasks := st.tasks ++ [BTask.new t.deps.length]
  let read_map := t.reads.foldl (fun m r => mmInsert m r id) st.read_map
  let write_map := t.writes.foldl (fun m r => mmInsert m r id) st.write_map
  let tasks := t.deps.foldl (fun l dep => modAt l dep (fun b => b.add_dependant id)) tasks
  ⟨tasks, read_map, write_map⟩

def firstLoop : List DeclTask → Nat → BuildSt → BuildSt
  | [], _, st => st
  | t :: rest, id, st => firstLoop rest (id + 1) (addTaskStep st id t)

def addLock (ts : List BTask) (next current : Nat) : List BTask :=
  modAt ts next (fun b => b.add_resource_lock current)

/-- Inner loop `for next in …: if current != next { tasks[next].add_resource_lock(current) }`. -/
def lockEachNe (ts : List BTask) (current : Nat) (nexts : List Nat) : List BTask :=
  nexts.foldl (fun acc next => if current ≠ next then addLock acc next current else acc) ts

/-- One resource of the write pass: every write locks every other write
and every read. -/
def writePassRes (ts : List BTask) (ws rs : List Nat) : List BTask :=
  ws.foldl (fun acc current => lockEachNe (lockEachNe acc current ws) current rs) ts

def writePass (st : BuildSt) : List BTask :=
  (mmKeys st.write_map).foldl
    (fun acc r => writePassRes acc (mmGet st.write_map r) (mmGet st.read_map r)) st.tasks

/-- One resource of the read pass: every read locks every write. -/
def readPassRes (ts : List BTask) (rs ws : List Nat) : List BTask :=
  rs.foldl (fun acc current => lockEachNe acc current ws) ts

def readPass (st : BuildSt) (ts : List BTask) : List BTask :=
  (mmKeys st.read_map).foldl
    (fun acc r => readPassRes acc (mmGet st.read_map r) (mmGet st.write_map r)) ts

/-- `InterlockBuilder::build`: run the first loop, the write pass and the
read pass, then compile every record with `Task::build`. -/
def buildTasks (decls : List DeclTask) : List CTask :=
  let st := firstLoop decls 0 ⟨[], [], []⟩
  let ts := readPass st (writePass st)
  ts.map BTask.build

/-- Declaration well-formedness guaranteed by the `add`/`add_box` API:
every declared predecessor is a TaskId previously returned, hence
strictly below the task's own id. -/
def WFdeps (decls : List DeclTask) : Prop :=
  ∀ (j : Nat) (t : DeclTask), decls[j]? = some t → ∀ d ∈ t.deps, d < j

/-- Computable check for `WFdeps`, used to discharge hypotheses on
concrete declaration lists. -/
def wfDepsB (decls : List DeclTask) : Bool :=
  decls.enum.all (fun p => p.2.deps.all (fun d => d < p.1))

theorem wfDeps_of_b {decls : List DeclTask} (h : wfDepsB decls = true) : WFdeps decls := by
  intro j t hjt d hd
  have hj : j < decls.length := by
    by_contra hge
    rw [List.getElem?_eq_none (by omega)] at hjt
    cases hjt
  have hmem : (j, t) ∈ decls.enum := by
    rw [List.mem_enum_iff_getElem?]
    exact hjt
  have := List.all_eq_true.mp h (j, t) hmem
  have := List.all_eq_true.mp this d hd
  simpa using this

/-! ### Characterizing the compiler output -/

theorem modAt_length {α : Type} (l : List α) (n : Nat) (f : α → α) :
    (modAt l n f).length = l.length := by
  induction l generalizing n with
  | nil => rfl
  | cons a t ih =>
    cases n with
    | zero => rfl
    | succ m => simp [modAt, ih]

theorem modAt_getElem?_self {α : Type} (l : List α) (n : Nat) (f : α → α) :
    (modAt l n f)[n]? = (l[n]?).map f := by
  induction l generalizing n with
  | nil => simp [modAt]
  | cons a t ih =>
    cases n with
    | zero => simp [modAt]
    | succ m => simpa [modAt] using ih m

theorem modAt_getElem?_ne {α : Type} (l : List α) (n i : Nat) (f : α → α) (h : i ≠ n) :
    (modAt l n f)[i]? = l[i]? := by
  induction l generalizing n i with
  | nil => simp [modAt]
  | cons a t ih =>
    cases n with
    | zero =>
      cases i with
      | zero => omega
      | succ j => simp [modAt]
    | succ m =>
      cases i with
      | zero => simp [modAt]
      | succ j => simpa [modAt] using ih m j (by omega)

theorem mmGet_append (m₁ m₂ : List (Nat × Nat)) (r : Nat) :
    mmGet (m₁ ++ m₂) r = mmGet m₁ r ++ mmGet m₂ r := by
  simp [mmGet, List.filter_append]

theorem mem_mmKeys_of_mem_mmGet {m : List (Nat × Nat)} {r x : Nat}
    (h : x ∈ mmGet m r) : r ∈ mmKeys m := by
  simp only [mmGet, List.mem_map, List.mem_filter] at h
  obtain ⟨p, ⟨hp, hr⟩, _⟩ := h
  have : p.1 = r := by simpa using hr
  subst this
  simp only [mmKeys, List.mem_dedup, List.mem_map]
  exact ⟨p, hp, rfl⟩

/-- The read-map pairs inserted by the first loop from `id` on. -/
def rdPairs : List DeclTask → Nat → List (Nat × Nat)
  | [], _ => []
  | t :: rest, id => t.reads.map (fun r => (r, id)) ++ rdPairs rest (id + 1)

/-- The write-map pairs inserted by the first loop from `id` on. -/
def wrPairs : List DeclTask → Nat → List (Nat × Nat)
  | [], _ => []
  | t :: rest, id => t.writes.map (fun r => (r, id)) ++ wrPairs rest (id + 1)

theorem foldl_mmInsert (rs : List Nat) (id : Nat) (m : List (Nat × Nat)) :
    rs.foldl (fun m r => mmInsert m r id) m = m ++ rs.map (fun r => (r, id)) := by
  induction rs generalizing m with
  | nil => simp
  | cons a t ih =>
    rw [List.foldl_cons, ih]
    simp [mmInsert, List.append_assoc]

theorem firstLoop_read_map (decls : List DeclTask) (id : Nat) (st : BuildSt) :
    (firstLoop decls id st).read_map = st.read_map ++ rdPairs decls id := by
  induction decls generalizing id st with
  | nil => simp [firstLoop, rdPairs]
  | cons t rest ih =>
    simp [firstLoop, rdPairs, ih, addTaskStep, foldl_mmInsert, List.append_assoc]

theorem firstLoop_write_map (decls : List DeclTask) (id : Nat) (st : BuildSt) :
    (firstLoop decls id st).write_map = st.write_map ++ wrPairs decls id := by
  induction decls generalizing id st with
  | nil => simp [firstLoop, wrPairs]
  | cons t rest ih =>
    simp [firstLoop, wrPairs, ih, addTaskStep, foldl_mmInsert, List.append_assoc]

theorem mem_mmGet_map_pairs (rs : List Nat) (id r x : Nat) :
    x ∈ mmGet (rs.map (fun r' => (r', id))) r ↔ x = id ∧ r ∈ rs := by
  simp only [mmGet, List.mem_map, List.mem_filter]
  constructor
  · rintro ⟨p, ⟨hp, hr⟩, hx⟩
    obtain ⟨r', hr', rfl⟩ := hp
    have : r' = r := by simpa using hr
    subst this
    exact ⟨hx.symm, hr'⟩
  · rintro ⟨rfl, hr⟩
    exact ⟨(r, x), ⟨⟨r, hr, rfl⟩, by simp⟩, rfl⟩

theorem mem_mmGet_rdPairs (decls : List DeclTask) (id0 r x : Nat) :
    x ∈ mmGet (rdPairs decls id0) r ↔
      ∃ j t, decls[j]? = some t ∧ x = id0 + j ∧ r ∈ t.reads := by
  induction decls generalizing id0 with
  | nil => simp [rdPairs, mmGet]
  | cons t rest ih =>
    simp only [rdPairs, mmGet_append, List.mem_append, mem_mmGet_map_pairs, ih]
    constructor
    · rintro (⟨rfl, hr⟩ | ⟨j, t', hj, rfl, hr⟩)
      · exact ⟨0, t, by simp, by omega, hr⟩
      · exact ⟨j + 1, t', by simpa using hj, by omega, hr⟩
    · rintro ⟨j, t', hj, rfl, hr⟩
      cases j with
      | zero =>
        simp only [List.getElem?_cons_zero, Option.some_inj] at hj
        subst hj
        exact Or.inl ⟨by omega, hr⟩
      | succ j' =>
        simp only [List.getElem?_cons_succ] at hj
        exact Or.inr ⟨j', t', hj, by omega, hr⟩

theorem mem_mmGet_wrPairs (decls : List DeclTask) (id0 r x : Nat) :
    x ∈ mmGet (wrPairs decls id0) r ↔
      ∃ j t, decls[j]? = some t ∧ x = id0 + j ∧ r ∈ t.writes := by
  induction decls generalizing id0 with
  | nil => simp [wrPairs, mmGet]
  | cons t rest ih =>
    simp only [wrPairs, mmGet_append, List.mem_append, mem_mmGet_map_pairs, ih]
    constructor
    · rintro (⟨rfl, hr⟩ | ⟨j, t', hj, rfl, hr⟩)
      · exact ⟨0, t, by simp, by omega, hr⟩
      · exact ⟨j + 1, t', by simpa using hj, by omega, hr⟩
    · rintro ⟨j, t', hj, rfl, hr⟩
      cases j with
      | zero =>
        simp only [List.getElem?_cons_zero, Option.some_inj] at hj
        subst hj
        exact Or.inl ⟨by omega, hr⟩
      | succ j' =>
        simp only [List.getElem?_cons_succ] at hj
        exact Or.inr ⟨j', t', hj, by omega, hr⟩

/-- Task `a` declares that it reads resource `r`. -/
def readsRes (decls : List DeclTask) (a r : Nat) : Prop :=
  ∃ t, decls[a]? = some t ∧ r ∈ t.reads

/-- Task `a` declares that it writes resource `r`. -/
def writesRes (decls : List DeclTask) (a r : Nat) : Prop :=
  ∃ t, decls[a]? = some t ∧ r ∈ t.writes

/-- The specification's resource conflict relation: write/write,
write/read or read/write on some shared resource. -/
def conflicts (decls : List DeclTask) (a b : Nat) : Prop :=
  ∃ r, (writesRes decls a r ∧ writesRes decls b r) ∨
       (writesRes decls a r ∧ readsRes decls b r) ∨
       (readsRes decls a r ∧ writesRes decls b r)

theorem mem_mmGet_read_map (decls : List DeclTask) (r x : Nat) :
    x ∈ mmGet ((firstLoop decls 0 ⟨[], [], []⟩).read_map) r ↔ readsRes decls x r := by
  have hnil : (⟨[], [], []⟩ : BuildSt).read_map = [] := rfl
  rw [firstLoop_read_map, hnil, List.nil_append, mem_mmGet_rdPairs]
  constructor
  · rintro ⟨j, t, hj, rfl, hr⟩
    exact ⟨t, by simpa using hj, hr⟩
  · rintro ⟨t, hj, hr⟩
    exact ⟨x, t, hj, by omega, hr⟩

theorem mem_mmGet_write_map (decls : List DeclTask) (r x : Nat) :
    x ∈ mmGet ((firstLoop decls 0 ⟨[], [], []⟩).write_map) r ↔ writesRes decls x r := by
  have hnil : (⟨[], [], []⟩ : BuildSt).write_map = [] := rfl
  rw [firstLoop_write_map, hnil, List.nil_append, mem_mmGet_wrPairs]
  constructor
  · rintro ⟨j, t, hj, rfl, hr⟩
    exact ⟨t, by simpa using hj, hr⟩
  · rintro ⟨t, hj, hr⟩
    exact ⟨x, t, hj, by omega, hr⟩

/-- The resource-lock set of the record at index `i` (empty out of range). -/
def locksAt (ts : List BTask) (i : Nat) : List Nat :=
  ((ts[i]?).map (fun b => b.resource_locks)).getD []

theorem mem_add_resource_lock (b : BTask) (id x : Nat) :
    x ∈ (b.add_resource_lock id).resource_locks ↔ x ∈ b.resource_locks ∨ x = id := by
  unfold BTask.add_resource_lock
  by_cases h : id ∈ b.resource_locks
  · rw [if_pos h]
    constructor
    · exact Or.inl
    · rintro (hx | rfl)
      · exact hx
      · exact h
  · rw [if_neg h]
    simp

theorem addLock_length (ts : List BTask) (n c : Nat) :
    (addLock ts n c).length = ts.length := modAt_length ..

theorem lt_length_of_getElem?_some {α : Type} {l : List α} {i : Nat} {a : α}
    (h : l[i]? = some a) : i < l.length := by
  by_contra hge
  rw [List.getElem?_eq_none (by omega)] at h
  cases h

theorem mem_locksAt_addLock (ts : List BTask) (n c i x : Nat) :
    x ∈ locksAt (addLock ts n c) i ↔
      x ∈ locksAt ts i ∨ (i = n ∧ i < ts.length ∧ x = c) := by
  unfold addLock locksAt
  by_cases h : i = n
  · subst h
    rw [modAt_getElem?_self]
    cases hts : ts[i]? with
    | none =>
      have hlen : ts.length ≤ i := List.getElem?_eq_none_iff.mp hts
      simp
      omega
    | some b =>
      have hlen : i < ts.length := lt_length_of_getElem?_some hts
      simp [mem_add_resource_lock, hlen]
  · rw [modAt_getElem?_ne _ _ _ _ h]
    simp [h]

theorem lockEachNe_length (ts : List BTask) (c : Nat) (ns : List Nat) :
    (lockEachNe ts c ns).length = ts.length := by
  induction ns generalizing ts with
  | nil => rfl
  | cons n rest ih =>
    unfold lockEachNe at *
    rw [List.foldl_cons]
    by_cases hcn : c ≠ n
    · rw [if_pos hcn, ih, addLock_length]
    · rw [if_neg hcn, ih]

theorem mem_locksAt_lockEachNe (ns : List Nat) (ts : List BTask) (c i x : Nat) :
    x ∈ locksAt (lockEachNe ts c ns) i ↔
      x ∈ locksAt ts i ∨ (i ∈ ns ∧ i < ts.length ∧ x = c ∧ x ≠ i) := by
  induction ns generalizing ts with
  | nil => simp [lockEachNe]
  | cons n rest ih =>
    unfold lockEachNe at *
    rw [List.foldl_cons]
    by_cases hcn : c ≠ n
    · rw [if_pos hcn, ih, mem_locksAt_addLock, addLock_length]
      constructor
      · rintro ((h | ⟨hin, hlen, hxc⟩) | ⟨hir, hlen, hxc, hne⟩)
        · exact Or.inl h
        · exact Or.inr ⟨hin ▸ List.mem_cons_self _ _, hlen, hxc, by omega⟩
        · exact Or.inr ⟨List.mem_cons_of_mem _ hir, hlen, hxc, hne⟩
      · rintro (h | ⟨hin, hlen, hxc, hne⟩)
        · exact Or.inl (Or.inl h)
        · rcases List.mem_cons.mp hin with he | hir
          · exact Or.inl (Or.inr ⟨he, hlen, hxc⟩)
          · exact Or.inr ⟨hir, hlen, hxc, hne⟩
    · rw [if_neg hcn, ih]
      constructor
      · rintro (h | ⟨hir, hlen, hxc, hne⟩)
        · exact Or.inl h
        · exact Or.inr ⟨List.mem_cons_of_mem _ hir, hlen, hxc, hne⟩
      · rintro (h | ⟨hin, hlen, hxc, hne⟩)
        · exact Or.inl h
        · rcases List.mem_cons.mp hin with he | hir
          · omega
          · exact Or.inr ⟨hir, hlen, hxc, hne⟩

theorem wpr_fold_length (l ws rs : List Nat) (ts : List BTask) :
    (l.foldl (fun acc current => lockEachNe (lockEachNe acc current ws) current rs) ts).length
      = ts.length := by
  induction l generalizing ts with
  | nil => rfl
  | cons c rest ih =>
    rw [List.foldl_cons, ih, lockEachNe_length, lockEachNe_length]

theorem writePassRes_length (ts : List BTask) (ws rs : List Nat) :
    (writePassRes ts ws rs).length = ts.length := by
  unfold writePassRes
  exact wpr_fold_length ws ws rs ts

theorem mem_locksAt_wpr_fold (l ws rs : List Nat) (ts : List BTask) (i x : Nat) :
    x ∈ locksAt (l.foldl (fun acc current => lockEachNe (lockEachNe acc current ws) current rs) ts) i ↔
      x ∈ locksAt ts i ∨ (x ∈ l ∧ (i ∈ ws ∨ i ∈ rs) ∧ i < ts.length ∧ x ≠ i) := by
  induction l generalizing ts with
  | nil => simp
  | cons c rest ih =>
    rw [List.foldl_cons, ih, mem_locksAt_lockEachNe, mem_locksAt_lockEachNe,
        lockEachNe_length, lockEachNe_length, lockEachNe_length]
    constructor
    · rintro (((h | ⟨hiw, hlen, hxc, hne⟩) | ⟨hir, hlen, hxc, hne⟩) | ⟨hxr, hio, hlen, hne⟩)
      · exact Or.inl h
      · exact Or.inr ⟨hxc ▸ List.mem_cons_self _ _, Or.inl hiw, hlen, hne⟩
      · exact Or.inr ⟨hxc ▸ List.mem_cons_self _ _, Or.inr hir, hlen, hne⟩
      · exact Or.inr ⟨List.mem_cons_of_mem _ hxr, hio, hlen, hne⟩
    · rintro (h | ⟨hx, hio, hlen, hne⟩)
      · exact Or.inl (Or.inl (Or.inl h))
      · rcases List.mem_cons.mp hx with he | hxr
        · rcases hio with hiw | hir
          · exact Or.inl (Or.inl (Or.inr ⟨hiw, hlen, he, hne⟩))
          · exact Or.inl (Or.inr ⟨hir, hlen, he, hne⟩)
        · exact Or.inr ⟨hxr, hio, hlen, hne⟩

theorem mem_locksAt_writePassRes (ts : List BTask) (ws rs : List Nat) (i x : Nat) :
    x ∈ locksAt (writePassRes ts ws rs) i ↔
      x ∈ locksAt ts i ∨ (x ∈ ws ∧ (i ∈ ws ∨ i ∈ rs) ∧ i < ts.length ∧ x ≠ i) := by
  unfold writePassRes
  exact mem_locksAt_wpr_fold ws ws rs ts i x

theorem rpr_fold_length (l ws : List Nat) (ts : List BTask) :
    (l.foldl (fun acc current => lockEachNe acc current ws) ts).length = ts.length := by
  induction l generalizing ts with
  | nil => rfl
  | cons c rest ih =>
    rw [List.foldl_cons, ih, lockEachNe_length]

theorem readPassRes_length (ts : List BTask) (rs ws : List Nat) :
    (readPassRes ts rs ws).length = ts.length := by
  unfold readPassRes
  exact rpr_fold_length rs ws ts

theorem mem_locksAt_rpr_fold (l ws : List Nat) (ts : List BTask) (i x : Nat) :
    x ∈ locksAt (l.foldl (fun acc current => lockEachNe acc current ws) ts) i ↔
      x ∈ locksAt ts i ∨ (x ∈ l ∧ i ∈ ws ∧ i < ts.length ∧ x ≠ i) := by
  induction l generalizing ts with
  | nil => simp
  | cons c rest ih =>
    rw [List.foldl_cons, ih, mem_locksAt_lockEachNe, lockEachNe_length]
    constructor
    · rintro ((h | ⟨hiw, hlen, hxc, hne⟩) | ⟨hxr, hiw, hlen, hne⟩)
      · exact Or.inl h
      · exact Or.inr ⟨hxc ▸ List.mem_cons_self _ _, hiw, hlen, hne⟩
      · exact Or.inr ⟨List.mem_cons_of_mem _ hxr, hiw, hlen, hne⟩
    · rintro (h | ⟨hx, hiw, hlen, hne⟩)
      · exact Or.inl (Or.inl h)
      · rcases List.mem_cons.mp hx with he | hxr
        · exact Or.inl (Or.inr ⟨hiw, hlen, he, hne⟩)
        · exact Or.inr ⟨hxr, hiw, hlen, hne⟩

theorem mem_locksAt_readPassRes (ts : List BTask) (rs ws : List Nat) (i x : Nat) :
    x ∈ locksAt (readPassRes ts rs ws) i ↔
      x ∈ locksAt ts i ∨ (x ∈ rs ∧ i ∈ ws ∧ i < ts.length ∧ x ≠ i) := by
  unfold readPassRes
  exact mem_locksAt_rpr_fold rs ws ts i x

theorem mem_locksAt_keyfold_write (keys : List Nat) (wm rm : List (Nat × Nat))
    (ts : List BTask) (i x : Nat) :
    x ∈ locksAt (keys.foldl (fun acc r => writePassRes acc (mmGet wm r) (mmGet rm r)) ts) i ↔
      x ∈ locksAt ts i ∨
      ∃ r ∈ keys, x ∈ mmGet wm r ∧ (i ∈ mmGet wm r ∨ i ∈ mmGet rm r) ∧
        i < ts.length ∧ x ≠ i := by
  induction keys generalizing ts with
  | nil => simp
  | cons k rest ih =>
    rw [List.foldl_cons, ih, mem_locksAt_writePassRes, writePassRes_length]
    constructor
    · rintro ((h | ⟨hxw, hio, hlen, hne⟩) | ⟨r, hr, hxw, hio, hlen, hne⟩)
      · exact Or.inl h
      · exact Or.inr ⟨k, List.mem_cons_self _ _, hxw, hio, hlen, hne⟩
      · exact Or.inr ⟨r, List.mem_cons_of_mem _ hr, hxw, hio, hlen, hne⟩
    · rintro (h | ⟨r, hr, hxw, hio, hlen, hne⟩)
      · exact Or.inl (Or.inl h)
      · rcases List.mem_cons.mp hr with he | hr'
        · subst he
          exact Or.inl (Or.inr ⟨hxw, hio, hlen, hne⟩)
        · exact Or.inr ⟨r, hr', hxw, hio, hlen, hne⟩

theorem mem_locksAt_writePass (st : BuildSt) (i x : Nat) :
    x ∈ locksAt (writePass st) i ↔
      x ∈ locksAt st.tasks i ∨
      ∃ r, x ∈ mmGet st.write_map r ∧ (i ∈ mmGet st.write_map r ∨ i ∈ mmGet st.read_map r) ∧
        i < st.tasks.length ∧ x ≠ i := by
  unfold writePass
  rw [mem_locksAt_keyfold_write]
  constructor
  · rintro (h | ⟨r, _, hxw, hio, hlen, hne⟩)
    · exact Or.inl h
    · exact Or.inr ⟨r, hxw, hio, hlen, hne⟩
  · rintro (h | ⟨r, hxw, hio, hlen, hne⟩)
    · exact Or.inl h
    · exact Or.inr ⟨r, mem_mmKeys_of_mem_mmGet hxw, hxw, hio, hlen, hne⟩

theorem keyfold_write_length (keys : List Nat) (wm rm : List (Nat × Nat)) (ts : List BTask) :
    (keys.foldl (fun acc r => writePassRes acc (mmGet wm r) (mmGet rm r)) ts).length
      = ts.length := by
  induction keys generalizing ts with
  | nil => rfl
  | cons k rest ih => rw [List.foldl_cons, ih, writePassRes_length]

theorem writePass_length (st : BuildSt) : (writePass st).length = st.tasks.length := by
  unfold writePass
  exact keyfold_write_length ..

theorem keyfold_read_length (keys : List Nat) (rm wm : List (Nat × Nat)) (ts : List BTask) :
    (keys.foldl (fun acc r => readPassRes acc (mmGet rm r) (mmGet wm r)) ts).length
      = ts.length := by
  induction keys generalizing ts with
  | nil => rfl
  | cons k rest ih => rw [List.foldl_cons, ih, readPassRes_length]

theorem readPass_length (st : BuildSt) (ts : List BTask) :
    (readPass st ts).length = ts.length := by
  unfold readPass
  exact keyfold_read_length ..

theorem mem_locksAt_keyfold_read (keys : List Nat) (rm wm : List (Nat × Nat))
    (ts : List BTask) (i x : Nat) :
    x ∈ locksAt (keys.foldl (fun acc r => readPassRes acc (mmGet rm r) (mmGet wm r)) ts) i ↔
      x ∈ locksAt ts i ∨
      ∃ r ∈ keys, x ∈ mmGet rm r ∧ i ∈ mmGet wm r ∧ i < ts.length ∧ x ≠ i := by
  induction keys generalizing ts with
  | nil => simp
  | cons k rest ih =>
    rw [List.foldl_cons, ih, mem_locksAt_readPassRes, readPassRes_length]
    constructor
    · rintro ((h | ⟨hxr, hiw, hlen, hne⟩) | ⟨r, hr, hxr, hiw, hlen, hne⟩)
      · exact Or.inl h
      · exact Or.inr ⟨k, List.mem_cons_self _ _, hxr, hiw, hlen, hne⟩
      · exact Or.inr ⟨r, List.mem_cons_of_mem _ hr, hxr, hiw, hlen, hne⟩
    · rintro (h | ⟨r, hr, hxr, hiw, hlen, hne⟩)
      · exact Or.inl (Or.inl h)
      · rcases List.mem_cons.mp hr with he | hr'
        · subst he
          exact Or.inl (Or.inr ⟨hxr, hiw, hlen, hne⟩)
        · exact Or.inr ⟨r, hr', hxr, hiw, hlen, hne⟩

theorem mem_locksAt_readPass (st : BuildSt) (ts : List BTask) (i x : Nat) :
    x ∈ locksAt (readPass st ts) i ↔
      x ∈ locksAt ts i ∨
      ∃ r, x ∈ mmGet st.read_map r ∧ i ∈ mmGet st.write_map r ∧
        i < ts.length ∧ x ≠ i := by
  unfold readPass
  rw [mem_locksAt_keyfold_read]
  constructor
  · rintro (h | ⟨r, _, hxr, hiw, hlen, hne⟩)
    · exact Or.inl h
    · exact Or.inr ⟨r, hxr, hiw, hlen, hne⟩
  · rintro (h | ⟨r, hxr, hiw, hlen, hne⟩)
    · exact Or.inl h
    · exact Or.inr ⟨r, mem_mmKeys_of_mem_mmGet hxr, hxr, hiw, hlen, hne⟩

/-- The dependants list and initial count of the record at index `i`;
the two passes leave both untouched. -/
def skelAt (ts : List BTask) (i : Nat) : Option (List Nat × Nat) :=
  (ts[i]?).map (fun b => (b.dependants, b.initial))

theorem add_resource_lock_skel (b : BTask) (c : Nat) :
    (b.add_resource_lock c).dependants = b.dependants ∧
    (b.add_resource_lock c).initial = b.initial := by
  unfold BTask.add_resource_lock
  split <;> exact ⟨rfl, rfl⟩

theorem skelAt_addLock (ts : List BTask) (n c i : Nat) :
    skelAt (addLock ts n c) i = skelAt ts i := by
  unfold addLock skelAt
  by_cases h : i = n
  · subst h
    rw [modAt_getElem?_self]
    cases ts[i]? with
    | none => rfl
    | some b =>
      simp only [Option.map_some']
      rw [(add_resource_lock_skel b c).1, (add_resource_lock_skel b c).2]
  · rw [modAt_getElem?_ne _ _ _ _ h]

theorem skelAt_lockEachNe (ns : List Nat) (ts : List BTask) (c i : Nat) :
    skelAt (lockEachNe ts c ns) i = skelAt ts i := by
  induction ns generalizing ts with
  | nil => rfl
  | cons n rest ih =>
    unfold lockEachNe at *
    rw [List.foldl_cons]
    by_cases hcn : c ≠ n
    · rw [if_pos hcn, ih, skelAt_addLock]
    · rw [if_neg hcn, ih]

theorem skelAt_wpr_fold (l ws rs : List Nat) (ts : List BTask) (i : Nat) :
    skelAt (l.foldl (fun acc current => lockEachNe (lockEachNe acc current ws) current rs) ts) i
      = skelAt ts i := by
  induction l generalizing ts with
  | nil => rfl
  | cons c rest ih => rw [List.foldl_cons, ih, skelAt_lockEachNe, skelAt_lockEachNe]

theorem skelAt_writePassRes (ts : List BTask) (ws rs : List Nat) (i : Nat) :
    skelAt (writePassRes ts ws rs) i = skelAt ts i := by
  unfold writePassRes
  exact skelAt_wpr_fold ws ws rs ts i

theorem skelAt_keyfold_write (keys : List Nat) (wm rm : List (Nat × Nat))
    (ts : List BTask) (i : Nat) :
    skelAt (keys.foldl (fun acc r => writePassRes acc (mmGet wm r) (mmGet rm r)) ts) i
      = skelAt ts i := by
  induction keys generalizing ts with
  | nil => rfl
  | cons k rest ih => rw [List.foldl_cons, ih, skelAt_writePassRes]

theorem skelAt_writePass (st : BuildSt) (i : Nat) :
    skelAt (writePass st) i = skelAt st.tasks i := by
  unfold writePass
  exact skelAt_keyfold_write ..

theorem skelAt_rpr_fold (l ws : List Nat) (ts : List BTask) (i : Nat) :
    skelAt (l.foldl (fun acc current => lockEachNe acc current ws) ts) i = skelAt ts i := by
  induction l generalizing ts with
  | nil => rfl
  | cons c rest ih => rw [List.foldl_cons, ih, skelAt_lockEachNe]

theorem skelAt_readPassRes (ts : List BTask) (rs ws : List Nat) (i : Nat) :
    skelAt (readPassRes ts rs ws) i = skelAt ts i := by
  unfold readPassRes
  exact skelAt_rpr_fold rs ws ts i

theorem skelAt_keyfold_read (keys : List Nat) (rm wm : List (Nat × Nat))
    (ts : List BTask) (i : Nat) :
    skelAt (keys.foldl (fun acc r => readPassRes acc (mmGet rm r) (mmGet wm r)) ts) i
      = skelAt ts i := by
  induction keys generalizing ts with
  | nil => rfl
  | cons k rest ih => rw [List.foldl_cons, ih, skelAt_readPassRes]

theorem skelAt_readPass (st : BuildSt) (ts : List BTask) (i : Nat) :
    skelAt (readPass st ts) i = skelAt ts i := by
  unfold readPass
  exact skelAt_keyfold_read ..

/-- Dependant entries contributed to task `i` by the declarations from
absolute id `id` on: one entry per occurrence of `i` in a later task's
predecessor list, in declaration order. -/
def depAdds : List DeclTask → Nat → Nat → List Nat
  | [], _, _ => []
  | t :: rest, id, i =>
      (t.deps.filter (fun d => d == i)).map (fun _ => id) ++ depAdds rest (id + 1) i

/-- The explicit dependants of task `i`: every task that lists `i` among
its predecessors, once per listing, in declaration order. -/
def explicitDependants (decls : List DeclTask) (i : Nat) : List Nat := depAdds decls 0 i

theorem skelAt_modAt_dep (ts : List BTask) (n id i : Nat) :
    skelAt (modAt ts n (fun b => b.add_dependant id)) i =
      if i = n then (skelAt ts i).map (fun p => (p.1 ++ [id], p.2)) else skelAt ts i := by
  unfold skelAt
  by_cases h : i = n
  · subst h
    rw [if_pos rfl, modAt_getElem?_self]
    cases ts[i]? <;> simp [BTask.add_dependant]
  · rw [if_neg h, modAt_getElem?_ne _ _ _ _ h]

theorem skelAt_depfold (deps : List Nat) (id : Nat) (ts : List BTask) (i : Nat) :
    skelAt (deps.foldl (fun l dep => modAt l dep (fun b => b.add_dependant id)) ts) i =
      (skelAt ts i).map
        (fun p => (p.1 ++ (deps.filter (fun d => d == i)).map (fun _ => id), p.2)) := by
  induction deps generalizing ts with
  | nil => cases h : skelAt ts i <;> simp [h]
  | cons d rest ih =>
    rw [List.foldl_cons, ih, skelAt_modAt_dep]
    by_cases h : i = d
    · rw [if_pos h]
      have hb : (d == i) = true := by simp [h.symm]
      cases skelAt ts i <;> simp [hb, List.filter_cons, List.append_assoc]
    · rw [if_neg h]
      have hb : (d == i) = false := by simp; omega
      cases skelAt ts i <;> simp [hb, List.filter_cons]

theorem depfold_length (deps : List Nat) (id : Nat) (ts : List BTask) :
    (deps.foldl (fun l dep => modAt l dep (fun b => b.add_dependant id)) ts).length
      = ts.length := by
  induction deps generalizing ts with
  | nil => rfl
  | cons d rest ih => rw [List.foldl_cons, ih, modAt_length]

theorem addTaskStep_length (st : BuildSt) (id : Nat) (t : DeclTask) :
    (addTaskStep st id t).tasks.length = st.tasks.length + 1 := by
  unfold addTaskStep
  simp only []
  rw [depfold_length]
  simp

theorem firstLoop_tasks_length (decls : List DeclTask) (id : Nat) (st : BuildSt) :
    (firstLoop decls id st).tasks.length = st.tasks.length + decls.length := by
  induction decls generalizing id st with
  | nil => simp [firstLoop]
  | cons t rest ih =>
    show (firstLoop rest (id + 1) (addTaskStep st id t)).tasks.length = _
    rw [ih, addTaskStep_length]
    simp
    omega

theorem skelAt_append_new (ts : List BTask) (d : Nat) (i : Nat) :
    skelAt (ts ++ [BTask.new d]) i = if i = ts.length then some ([], d) else skelAt ts i := by
  unfold skelAt
  rw [List.getElem?_append]
  by_cases h : i < ts.length
  · rw [if_pos h, if_neg (by omega)]
  · rw [if_neg h]
    by_cases he : i = ts.length
    · subst he
      rw [if_pos rfl]
      simp [BTask.new]
    · rw [if_neg he]
      have h1 : ts[i]? = none := List.getElem?_eq_none (by omega)
      rw [h1]
      cases hk : i - ts.length with
      | zero => omega
      | succ k => simp

theorem skelAt_addTaskStep (st : BuildSt) (id : Nat) (t : DeclTask) (i : Nat) :
    skelAt (addTaskStep st id t).tasks i =
      ((if i = st.tasks.length then some (([] : List Nat), t.deps.length)
        else skelAt st.tasks i).map
        (fun p => (p.1 ++ (t.deps.filter (fun d => d == i)).map (fun _ => id), p.2))) := by
  unfold addTaskStep
  simp only []
  rw [skelAt_depfold, skelAt_append_new]

theorem skelAt_firstLoop_lt (decls : List DeclTask) (id : Nat) (st : BuildSt)
    (hlen : st.tasks.length = id)
    (hwf : ∀ (j : Nat) (t : DeclTask), decls[j]? = some t → ∀ d ∈ t.deps, d < id + j)
    (i : Nat) (hi : i < id) :
    skelAt (firstLoop decls id st).tasks i =
      (skelAt st.tasks i).map (fun p => (p.1 ++ depAdds decls id i, p.2)) := by
  induction decls generalizing id st with
  | nil =>
    have hfl : firstLoop [] id st = st := rfl
    rw [hfl]
    cases h : skelAt st.tasks i <;> simp [h, depAdds]
  | cons t rest ih =>
    show skelAt (firstLoop rest (id + 1) (addTaskStep st id t)).tasks i = _
    have hlen1 : (addTaskStep st id t).tasks.length = id + 1 := by
      rw [addTaskStep_length, hlen]
    have hwf1 : ∀ (j : Nat) (t' : DeclTask), rest[j]? = some t' → ∀ d ∈ t'.deps,
        d < (id + 1) + j := by
      intro j t' hj d hd
      have := hwf (j + 1) t' (by simpa using hj) d hd
      omega
    rw [ih (id + 1) _ hlen1 hwf1 (by omega), skelAt_addTaskStep, if_neg (by omega)]
    cases h : skelAt st.tasks i <;> simp [h, depAdds, List.append_assoc]

theorem skelAt_firstLoop_at (decls : List DeclTask) (id : Nat) (st : BuildSt)
    (hlen : st.tasks.length = id)
    (hwf : ∀ (j : Nat) (t : DeclTask), decls[j]? = some t → ∀ d ∈ t.deps, d < id + j)
    (j : Nat) (t : DeclTask) (hj : decls[j]? = some t) :
    skelAt (firstLoop decls id st).tasks (id + j) =
      some (depAdds (decls.drop (j + 1)) (id + j + 1) (id + j), t.deps.length) := by
  induction decls generalizing id st j with
  | nil => cases hj
  | cons t0 rest ih =>
    have hlen1 : (addTaskStep st id t0).tasks.length = id + 1 := by
      rw [addTaskStep_length, hlen]
    have hwf1 : ∀ (j' : Nat) (t' : DeclTask), rest[j']? = some t' → ∀ d ∈ t'.deps,
        d < (id + 1) + j' := by
      intro j' t' hj' d hd
      have := hwf (j' + 1) t' (by simpa using hj') d hd
      omega
    cases j with
    | zero =>
      have ht : t0 = t := by simpa using hj
      subst ht
      simp only [Nat.add_zero]
      have hfl : firstLoop (t0 :: rest) id st = firstLoop rest (id + 1) (addTaskStep st id t0) := rfl
      have hfilt : t0.deps.filter (fun d => d == id) = [] := by
        rw [List.filter_eq_nil_iff]
        intro d hd
        have := hwf 0 t0 (by simp) d hd
        simp
        omega
      have hstep : skelAt (addTaskStep st id t0).tasks id = some ([], t0.deps.length) := by
        rw [skelAt_addTaskStep, hlen, if_pos rfl]
        simp [hfilt]
      rw [hfl, skelAt_firstLoop_lt rest (id + 1) (addTaskStep st id t0) hlen1 hwf1 id (by omega),
          hstep]
      simp [List.drop]
    | succ j' =>
      simp only [List.getElem?_cons_succ] at hj
      show skelAt (firstLoop rest (id + 1) (addTaskStep st id t0)).tasks (id + (j' + 1)) = _
      have hrec := ih (id + 1) (addTaskStep st id t0) hlen1 hwf1 j' hj
      have e1 : id + (j' + 1) = id + 1 + j' := by omega
      rw [List.drop_succ_cons, e1]
      exact hrec

/-- The builder state after the first loop of `build`. -/
def buildSt (decls : List DeclTask) : BuildSt := firstLoop decls 0 ⟨[], [], []⟩

/-- The record array after both passes, just before `Task::build`. -/
def finalTasks (decls : List DeclTask) : List BTask :=
  readPass (buildSt decls) (writePass (buildSt decls))

theorem buildTasks_eq (decls : List DeclTask) :
    buildTasks decls = (finalTasks decls).map BTask.build := rfl

theorem skelAt_finalTasks (decls : List DeclTask) (i : Nat) :
    skelAt (finalTasks decls) i = skelAt (buildSt decls).tasks i := by
  unfold finalTasks
  rw [skelAt_readPass, skelAt_writePass]

theorem buildSt_tasks_length (decls : List DeclTask) :
    (buildSt decls).tasks.length = decls.length := by
  unfold buildSt
  rw [firstLoop_tasks_length]
  simp

theorem finalTasks_length (decls : List DeclTask) :
    (finalTasks decls).length = decls.length := by
  unfold finalTasks
  rw [readPass_length, writePass_length, buildSt_tasks_length]

theorem buildTasks_length (decls : List DeclTask) :
    (buildTasks decls).length = decls.length := by
  rw [buildTasks_eq, List.length_map, finalTasks_length]

theorem locksAt_modAt_dep (ts : List BTask) (n id i : Nat) :
    locksAt (modAt ts n (fun b => b.add_dependant id)) i = locksAt ts i := by
  unfold locksAt
  by_cases h : i = n
  · subst h
    rw [modAt_getElem?_self]
    cases ts[i]? <;> simp [BTask.add_dependant]
  · rw [modAt_getElem?_ne _ _ _ _ h]

theorem locksAt_depfold (deps : List Nat) (id : Nat) (ts : List BTask) (i : Nat) :
    locksAt (deps.foldl (fun l dep => modAt l dep (fun b => b.add_dependant id)) ts) i
      = locksAt ts i := by
  induction deps generalizing ts with
  | nil => rfl
  | cons d rest ih => rw [List.foldl_cons, ih, locksAt_modAt_dep]

theorem locksAt_append_new (ts : List BTask) (d : Nat) (i : Nat) :
    locksAt (ts ++ [BTask.new d]) i = locksAt ts i := by
  unfold locksAt
  rw [List.getElem?_append]
  by_cases h : i < ts.length
  · rw [if_pos h]
  · rw [if_neg h]
    have h1 : ts[i]? = none := List.getElem?_eq_none (by omega)
    rw [h1]
    cases hk : i - ts.length with
    | zero => simp [BTask.new]
    | succ k => simp

theorem locksAt_firstLoop (decls : List DeclTask) (id : Nat) (st : BuildSt) (i : Nat) :
    locksAt (firstLoop decls id st).tasks i = locksAt st.tasks i := by
  induction decls generalizing id st with
  | nil => rfl
  | cons t rest ih =>
    show locksAt (firstLoop rest (id + 1) (addTaskStep st id t)).tasks i = _
    rw [ih]
    unfold addTaskStep
    simp only []
    rw [locksAt_depfold, locksAt_append_new]

theorem locksAt_buildSt (decls : List DeclTask) (i : Nat) :
    locksAt (buildSt decls).tasks i = [] := by
  unfold buildSt
  rw [locksAt_firstLoop]
  rfl

/-- Membership in the final lock set, stated over the declarations. -/
theorem mem_locksAt_finalTasks (decls : List DeclTask) (i x : Nat) :
    x ∈ locksAt (finalTasks decls) i ↔
      ((∃ r, writesRes decls x r ∧ (writesRes decls i r ∨ readsRes decls i r)) ∨
       (∃ r, readsRes decls x r ∧ writesRes decls i r)) ∧
      i < decls.length ∧ x ≠ i := by
  unfold finalTasks
  rw [mem_locksAt_readPass, mem_locksAt_writePass, locksAt_buildSt]
  have hwm := mem_mmGet_write_map decls
  have hrm := mem_mmGet_read_map decls
  have hlen1 : (buildSt decls).tasks.length = decls.length := buildSt_tasks_length decls
  have hlen2 : (writePass (buildSt decls)).length = decls.length := by
    rw [writePass_length, hlen1]
  constructor
  · rintro ((h | ⟨r, hxw, hio, hlen, hne⟩) | ⟨r, hxr, hiw, hlen, hne⟩)
    · cases h
    · refine ⟨Or.inl ⟨r, (hwm r x).mp hxw, ?_⟩, by omega, hne⟩
      rcases hio with hiw | hir
      · exact Or.inl ((hwm r i).mp hiw)
      · exact Or.inr ((hrm r i).mp hir)
    · exact ⟨Or.inr ⟨r, (hrm r x).mp hxr, (hwm r i).mp hiw⟩, by omega, hne⟩
  · rintro ⟨h | h, hlen, hne⟩
    · obtain ⟨r, hxw, hio⟩ := h
      refine Or.inl (Or.inr ⟨r, (hwm r x).mpr hxw, ?_, by omega, hne⟩)
      rcases hio with hiw | hir
      · exact Or.inl ((hwm r i).mpr hiw)
      · exact Or.inr ((hrm r i).mpr hir)
    · obtain ⟨r, hxr, hiw⟩ := h
      exact Or.inr ⟨r, (hrm r x).mpr hxr, (hwm r i).mpr hiw, by omega, hne⟩

theorem depAdds_congr_drop (m : Nat) (decls : List DeclTask) (id j : Nat)
    (h : ∀ (k : Nat) (t : DeclTask), k < m → decls[k]? = some t → j ∉ t.deps) :
    depAdds decls id j = depAdds (decls.drop m) (id + m) j := by
  induction m generalizing decls id with
  | zero => simp
  | succ m' ih =>
    cases decls with
    | nil => simp [depAdds]
    | cons t rest =>
      have hjd : j ∉ t.deps := h 0 t (by omega) (by simp)
      have hfilt : t.deps.filter (fun d => d == j) = [] := by
        rw [List.filter_eq_nil_iff]
        intro d hd
        simp only [beq_iff_eq]
        intro he
        exact hjd (he ▸ hd)
      show (t.deps.filter _).map _ ++ depAdds rest (id + 1) j = _
      rw [hfilt]
      simp only [List.map_nil, List.nil_append, List.drop_succ_cons]
      rw [ih rest (id + 1) (fun k t' hk ht' => h (k + 1) t' (by omega) (by simpa using ht'))]
      congr 1
      omega

theorem skelAt_buildSt_at (decls : List DeclTask) (hwf : WFdeps decls)
    (j : Nat) (d : DeclTask) (hd : decls[j]? = some d) :
    skelAt (buildSt decls).tasks j = some (explicitDependants decls j, d.deps.length) := by
  unfold buildSt
  have hwf' : ∀ (j' : Nat) (t : DeclTask), decls[j']? = some t → ∀ x ∈ t.deps, x < 0 + j' := by
    intro j' t hj' x hx
    have := hwf j' t hj' x hx
    omega
  have h0 := skelAt_firstLoop_at decls 0 ⟨[], [], []⟩ rfl hwf' j d hd
  simp only [Nat.zero_add] at h0
  rw [h0]
  have hdrop := depAdds_congr_drop (j + 1) decls 0 j
    (fun k t hk ht hmem => by
      have := hwf k t ht j hmem
      omega)
  simp only [Nat.zero_add] at hdrop
  unfold explicitDependants
  rw [hdrop]

theorem exists_decl {decls : List DeclTask} {j : Nat} (h : j < decls.length) :
    ∃ d, decls[j]? = some d :=
  ⟨decls[j], List.getElem?_eq_getElem h⟩

theorem buildTasks_unpack {decls : List DeclTask} {j : Nat} {ct : CTask}
    (hj : (buildTasks decls)[j]? = some ct) :
    ∃ b, (finalTasks decls)[j]? = some b ∧ ct = b.build ∧ j < decls.length := by
  rw [buildTasks_eq, List.getElem?_map] at hj
  cases hb : (finalTasks decls)[j]? with
  | none => rw [hb] at hj; cases hj
  | some b =>
    rw [hb] at hj
    simp only [Option.map_some', Option.some_inj] at hj
    refine ⟨b, rfl, hj.symm, ?_⟩
    have := lt_length_of_getElem?_some hb
    rwa [finalTasks_length] at this

theorem final_skel {decls : List DeclTask} {j : Nat} {b : BTask} {d : DeclTask}
    (hwf : WFdeps decls) (hb : (finalTasks decls)[j]? = some b)
    (hd : decls[j]? = some d) :
    b.dependants = explicitDependants decls j ∧ b.initial = d.deps.length := by
  have h1 := skelAt_finalTasks decls j
  rw [skelAt_buildSt_at decls hwf j d hd] at h1
  unfold skelAt at h1
  rw [hb] at h1
  simp only [Option.map_some', Option.some_inj, Prod.mk.injEq] at h1
  exact h1

theorem mem_build_lock {decls : List DeclTask} {j : Nat} {b : BTask}
    (hb : (finalTasks decls)[j]? = some b) (x : Nat) :
    x ∈ b.build.lock ↔ x ∈ locksAt (finalTasks decls) j := by
  unfold locksAt BTask.build
  rw [hb]
  simp

/-- Claim C1 is false on the code: `build` sets `initial` to the number
of explicit predecessors only and never adds the resource-lock
contribution.  With two tasks both writing resource 0, the claim's
formula gives 1 for task 0 (no explicit predecessors, one other task
listing it in its lock set), but the compiled `initial` is 0. -/
def lockersOf (cts : List CTask) (t : Nat) : Nat :=
  ((List.range cts.length).filter
    (fun u => decide (u ≠ t) && (((cts[u]?).map (fun c => c.lock)).getD []).contains t)).length

/-- The value claim C1 says `initial[t]` should have: explicit
predecessors plus the number of other tasks whose lock set contains `t`. -/
def claimedInitial (decls : List DeclTask) (t : Nat) : Nat :=
  ((decls[t]?).map (fun d => d.deps.length)).getD 0 + lockersOf (buildTasks decls) t

/-- Counterexample to claim C1: two tasks both writing resource 0.  Task
0 is in task 1's lock set, so the claim's formula yields 1, but the
compiled `initial` of task 0 is 0 (its explicit predecessor count). -/
theorem initial_formula_counterexample :
    ((buildTasks [⟨[], [0], []⟩, ⟨[], [0], []⟩])[0]?).map (fun ct => ct.initial) = some 0 ∧
    claimedInitial [⟨[], [0], []⟩, ⟨[], [0], []⟩] 0 = 1 := by decide

/-- Claim C1 (amended): for every declared task of a built executor, the
compiled `initial` equals the number of its explicit predecessors; the
resource-lock contribution stated by the specification is not added
(conflicts are instead accounted dynamically by the lock/unlock pairs at
run time). -/
theorem initial_eq_explicit_preds (decls : List DeclTask) (hwf : WFdeps decls)
    (j : Nat) (ct : CTask) (hj : (buildTasks decls)[j]? = some ct) :
    ∃ d, decls[j]? = some d ∧ ct.initial = d.deps.length := by
  obtain ⟨b, hb, rfl, hlen⟩ := buildTasks_unpack hj
  obtain ⟨d, hd⟩ := exists_decl hlen
  exact ⟨d, hd, (final_skel hwf hb hd).2⟩

/-- Witness for the amended C1 on the two-task chain 0 ← 1. -/
theorem initial_eq_explicit_preds_witness :
    ∃ d, ([⟨[], [], []⟩, ⟨[], [], [0]⟩] : List DeclTask)[1]? = some d ∧
      (⟨[], [], 1⟩ : CTask).initial = d.deps.length :=
  initial_eq_explicit_preds [⟨[], [], []⟩, ⟨[], [], [0]⟩] (wfDeps_of_b (by decide)) 1
    ⟨[], [], 1⟩ (by decide)

/-- Claim C5: every compiled task's unlock sequence is exactly its
explicit dependants followed by its lock set, so each member of the lock
set also occurs in the unlock sequence. -/
theorem unlock_eq_dependants_append_lock (decls : List DeclTask) (hwf : WFdeps decls)
    (j : Nat) (ct : CTask) (hj : (buildTasks decls)[j]? = some ct) :
    ct.unlock = explicitDependants decls j ++ ct.lock ∧ ∀ x ∈ ct.lock, x ∈ ct.unlock := by
  obtain ⟨b, hb, rfl, hlen⟩ := buildTasks_unpack hj
  obtain ⟨d, hd⟩ := exists_decl hlen
  have hskel := (final_skel hwf hb hd).1
  constructor
  · show b.dependants ++ b.resource_locks = _ ++ b.resource_locks
    rw [hskel]
  · intro x hx
    exact List.mem_append_right _ hx

/-- Witness for C5: task 0 writes resource 0, task 1 writes it too and
explicitly depends on task 0. -/
theorem unlock_eq_dependants_append_lock_witness :
    (⟨[1], [1, 1], 0⟩ : CTask).unlock
        = explicitDependants [⟨[], [0], []⟩, ⟨[], [0], [0]⟩] 0 ++ (⟨[1], [1, 1], 0⟩ : CTask).lock ∧
    ∀ x ∈ (⟨[1], [1, 1], 0⟩ : CTask).lock, x ∈ (⟨[1], [1, 1], 0⟩ : CTask).unlock :=
  unlock_eq_dependants_append_lock [⟨[], [0], []⟩, ⟨[], [0], [0]⟩] (wfDeps_of_b (by decide)) 0
    ⟨[1], [1, 1], 0⟩ (by decide)

/-- Claim C4: for distinct tasks `a` and `b` of a built executor, `a` is
in `b`'s lock set exactly when the two conflict on some resource — both
write it, or one writes it and the other reads it.  Two tasks that only
read shared resources therefore never appear in each other's lock sets. -/
theorem lock_set_iff_conflict (decls : List DeclTask) (a b : Nat) (ct : CTask)
    (hb : (buildTasks decls)[b]? = some ct) (hab : a ≠ b) :
    a ∈ ct.lock ↔ conflicts decls a b := by
  obtain ⟨bt, hbt, rfl, hlen⟩ := buildTasks_unpack hb
  rw [mem_build_lock hbt, mem_locksAt_finalTasks]
  unfold conflicts
  constructor
  · rintro ⟨h | h, _, _⟩
    · obtain ⟨r, hw, hio⟩ := h
      rcases hio with hw' | hr'
      · exact ⟨r, Or.inl ⟨hw, hw'⟩⟩
      · exact ⟨r, Or.inr (Or.inl ⟨hw, hr'⟩)⟩
    · obtain ⟨r, hr, hw⟩ := h
      exact ⟨r, Or.inr (Or.inr ⟨hr, hw⟩)⟩
  · rintro ⟨r, h⟩
    refine ⟨?_, hlen, hab⟩
    rcases h with ⟨hw, hw'⟩ | ⟨hw, hr'⟩ | ⟨hr, hw⟩
    · exact Or.inl ⟨r, hw, Or.inl hw'⟩
    · exact Or.inl ⟨r, hw, Or.inr hr'⟩
    · exact Or.inr ⟨r, hr, hw⟩

/-- Witness for C4: task 0 writes resource 0 and task 1 reads it. -/
theorem lock_set_iff_conflict_witness :
    0 ∈ (⟨[0], [0], 0⟩ : CTask).lock ↔ conflicts [⟨[], [0], []⟩, ⟨[0], [], []⟩] 0 1 :=
  lock_set_iff_conflict [⟨[], [0], []⟩, ⟨[0], [], []⟩] 0 1 ⟨[0], [0], 0⟩ (by decide)
    (by decide)

/-- Claim C10: a task is never a member of its own lock set, even when it
reads and writes the same resource or declares a resource repeatedly. -/
theorem self_not_in_own_lock_set (decls : List DeclTask) (b : Nat) (ct : CTask)
    (hb : (buildTasks decls)[b]? = some ct) : b ∉ ct.lock := by
  obtain ⟨bt, hbt, rfl, hlen⟩ := buildTasks_unpack hb
  rw [mem_build_lock hbt, mem_locksAt_finalTasks]
  rintro ⟨_, _, hne⟩
  exact hne rfl

/-- Witness for C10: a single task that reads and writes resource 0 and
declares the write twice. -/
theorem self_not_in_own_lock_set_witness :
    0 ∉ (⟨[], [], 0⟩ : CTask).lock :=
  self_not_in_own_lock_set [⟨[0], [0, 0], []⟩] 0 ⟨[], [], 0⟩ (by decide)

/-! ## The runtime executor (src/interlock/context.rs)

`run` drives a recursion of `rayon::join` calls.  At any instant the
pool holds a set of pending continuations; a work-stealing scheduler may
run any of them next.  We model each continuation as an `Item` whose
next atomic action (one CAS or RMW on one cell, or one closure call, or
one fork) is performed when a scheduler picks it.  Quantifying over all
pick sequences covers every interleaving the pool can produce. -/

/-- A suspended lazy iterator: either `take_unlocked`'s seed iterator
positioned at task `i`, or the unlock iterator of task `t` positioned at
entry `j` of `t.unlock`. -/
inductive Cont where
  | seedK (i : Nat)
  | unlK (t : Nat) (j : Nat)
  deriving DecidableEq, Repr

/-- One pending continuation and its next atomic action:

* `pullSeed i`: the seed iterator about to CAS (`take`) task `i`;
* `lockPh t j k`: the lock phase of freshly taken task `t`, about to
  `lock()` entry `j` of `t.lock`; when exhausted, `join` forks the
  execute branch and resumes the suspended iterator `k`;
* `exec t`: about to invoke `t`'s closure;
* `release t`: about to drop the scoped handle (XOR of both bits);
* `pullUnl t j`: `t`'s unlock iterator about to `unlock()` entry `j` of
  `t.unlock`;
* `takeUnl t j`: the same iterator after entry `j`'s `unlock()` returned
  true, about to CAS (`take`) that entry's cell. -/
inductive Item where
  | pullSeed (i : Nat)
  | lockPh (t : Nat) (j : Nat) (k : Cont)
  | exec (t : Nat)
  | release (t : Nat)
  | pullUnl (t : Nat) (j : Nat)
  | takeUnl (t : Nat) (j : Nat)
  deriving DecidableEq, Repr

/-- Runtime state: the cell words, the pending continuations, the list
of executed closures in invocation order, the list of successful `take`
CAS transitions in order, and whether a worker panicked. -/
structure RState where
  cells : List Nat
  items : List Item
  log : List Nat
  takes : List Nat
  crashed : Bool
  deriving DecidableEq, Repr

def contItem : Cont → Item
  | .seedK i => .pullSeed i
  | .unlK t j => .pullUnl t j

def getCTask (G : List CTask) (t : Nat) : CTask := (G[t]?).getD ⟨[], [], 0⟩

def getCell (cells : List Nat) (u : Nat) : Nat := (cells[u]?).getD 0

/-- Perform the next atomic action of pending continuation `it` (no-op
when `it` is not pending; a panic sets `crashed` and stops the run).
The scheduler picks continuations by value: the pool is an unordered bag
of closures, so this quantifies over exactly the interleavings a
work-stealing pool can produce. -/
def doStep (G : List CTask) (s : RState) (it : Item) : RState :=
  if s.crashed then s else
  if it ∈ s.items then
    let rest := s.items.erase it
    match it with
    | .pullSeed i =>
      if i < G.length then
        if getCell s.cells i = 0 then
          { s with cells := s.cells.set i LOCK_BIT,
                   takes := s.takes ++ [i],
                   items := .lockPh i 0 (.seedK (i + 1)) :: rest }
        else { s with items := .pullSeed (i + 1) :: rest }
      else { s with items := rest }
    | .lockPh t j k =>
      match (getCTask G t).lock[j]? with
      | some u =>
        let w := (getCell s.cells u + 1) % WORD
        if w = COMP_BIT then { s with crashed := true }
        else { s with cells := s.cells.set u w, items := .lockPh t (j + 1) k :: rest }
      | none =>
        { s with items := .exec t :: contItem k :: rest }
    | .exec t =>
      { s with log := s.log ++ [t], items := .release t :: rest }
    | .release t =>
      { s with cells := s.cells.set t (cellRelease (getCell s.cells t)),
               items := .pullUnl t 0 :: rest }
    | .pullUnl t j =>
      match (getCTask G t).unlock[j]? with
      | none => { s with items := rest }
      | some u =>
        let w := getCell s.cells u
        if w &&& CNT_MASK = 0 then { s with crashed := true }
        else
          if w = 1 then
            { s with cells := s.cells.set u (w - 1), items := .takeUnl t j :: rest }
          else
            { s with cells := s.cells.set u (w - 1), items := .pullUnl t (j + 1) :: rest }
    | .takeUnl t j =>
      let u := ((getCTask G t).unlock[j]?).getD 0
      if getCell s.cells u = 0 then
        { s with cells := s.cells.set u LOCK_BIT,
                 takes := s.takes ++ [u],
                 items := .lockPh u 0 (.unlK t (j + 1)) :: rest }
      else { s with items := .pullUnl t (j + 1) :: rest }
  else s

/-- `Context::new`: reset every cell to its task's initial count; a
reset outside the Completed state panics (`none`). -/
def resetAll : List CTask → List Nat → Option (List Nat)
  | [], [] => some []
  | g :: G', w :: ws =>
      match cellReset w g.initial, resetAll G' ws with
      | some w', some ws' => some (w' :: ws')
      | _, _ => none
  | _, _ => none

/-- The cell words of a freshly built executor (`CountCell::new`). -/
def freshCells (G : List CTask) : List Nat := G.map (fun _ => cellNew)

/-- The state at the start of `run_iterator(take_unlocked())`. -/
def startState (cells : List Nat) : RState :=
  { cells := cells, items := [.pullSeed 0], log := [], takes := [], crashed := false }

/-- Drive the run by a scheduler's sequence of picks. -/
def runSched (G : List CTask) (s : RState) : List Item → RState
  | [] => s
  | it :: its => runSched G (doStep G s it) its

/-- `run` has returned exactly when no pending continuation remains. -/
def finished (s : RState) : Prop := s.items = [] ∧ s.crashed = false

/-- The Running configuration of a cell: `LOCK_BIT` set, `COMP_BIT`
clear — a worker holds the unique handle to the payload. -/
def runningWord (w : Nat) : Prop := w &&& LOCK_BIT ≠ 0 ∧ w &&& COMP_BIT = 0

/-- The four declarations of the mutual-exclusion counterexample: two
independent root tasks, and two tasks that both write resource 0, one
depending on each root. -/
def cexDecls : List DeclTask :=
  [⟨[], [], []⟩, ⟨[], [], []⟩, ⟨[], [0], [0]⟩, ⟨[], [0], [1]⟩]

/-- The interleaving that breaks mutual exclusion: both roots are taken
and executed; their unlock phases each decrement one writer's counter to
zero and `take()` it, before either lock phase has run. -/
def cexSched : List Item :=
  [.pullSeed 0, .lockPh 0 0 (.seedK 1), .pullSeed 1, .lockPh 1 0 (.seedK 2),
   .pullSeed 2, .pullSeed 3, .pullSeed 4,
   .exec 0, .release 0, .exec 1, .release 1,
   .pullUnl 0 0, .pullUnl 1 0, .takeUnl 0 0, .takeUnl 1 0]

/-- Counterexample to claim C2: in the executor built from `cexDecls`,
tasks 2 and 3 conflict (both write resource 0), yet the interleaving
`cexSched` — reachable from a normal `run` start, with no panic — puts
both their cells in the Running state at the same instant.  The race:
`run_iterator` pulls a handle (the `take` CAS) before the lock phase
runs, so two unlock iterators in parallel `join` branches can each take
one of two conflicting tasks before either increments the other's
counter. -/
theorem mutual_exclusion_counterexample :
    resetAll (buildTasks cexDecls) (freshCells (buildTasks cexDecls)) = some [0, 0, 1, 1] ∧
    conflicts cexDecls 2 3 ∧
    (runSched (buildTasks cexDecls) (startState [0, 0, 1, 1]) cexSched).crashed = false ∧
    runningWord (getCell (runSched (buildTasks cexDecls) (startState [0, 0, 1, 1]) cexSched).cells 2) ∧
    runningWord (getCell (runSched (buildTasks cexDecls) (startState [0, 0, 1, 1]) cexSched).cells 3) := by
  refine ⟨by decide, ⟨0, Or.inl ⟨⟨⟨[], [0], [0]⟩, by decide, by decide⟩,
    ⟨⟨[], [0], [1]⟩, by decide, by decide⟩⟩⟩, by decide,
    by unfold runningWord; decide, by unfold runningWord; decide⟩

/-! ## Well-formedness of a built executor, for the runtime proofs -/

theorem nodup_add_resource_lock (b : BTask) (c : Nat)
    (h : b.resource_locks.Nodup) : (b.add_resource_lock c).resource_locks.Nodup := by
  unfold BTask.add_resource_lock
  split
  · exact h
  · next hc =>
    rw [List.nodup_append]
    refine ⟨h, by simp, ?_⟩
    intro x hx hxc
    rw [List.mem_singleton] at hxc
    exact hc (hxc ▸ hx)

/-- All resource-lock sets in a record array are duplicate-free. -/
def NodupLocks (ts : List BTask) : Prop := ∀ i, (locksAt ts i).Nodup

theorem nodupLocks_addLock {ts : List BTask} (n c : Nat) (h : NodupLocks ts) :
    NodupLocks (addLock ts n c) := by
  intro i
  unfold addLock locksAt
  by_cases hin : i = n
  · subst hin
    rw [modAt_getElem?_self]
    cases hts : ts[i]? with
    | none => simp
    | some b =>
      have := h i
      unfold locksAt at this
      rw [hts] at this
      simpa using nodup_add_resource_lock b c (by simpa using this)
  · rw [modAt_getElem?_ne _ _ _ _ hin]
    have := h i
    unfold locksAt at this
    exact this

theorem nodupLocks_lockEachNe {ts : List BTask} (c : Nat) (ns : List Nat)
    (h : NodupLocks ts) : NodupLocks (lockEachNe ts c ns) := by
  induction ns generalizing ts with
  | nil => exact h
  | cons n rest ih =>
    unfold lockEachNe at *
    rw [List.foldl_cons]
    by_cases hcn : c ≠ n
    · rw [if_pos hcn]
      exact ih (nodupLocks_addLock n c h)
    · rw [if_neg hcn]
      exact ih h

theorem nodupLocks_wpr_fold {ts : List BTask} (l ws rs : List Nat) (h : NodupLocks ts) :
    NodupLocks
      (l.foldl (fun acc current => lockEachNe (lockEachNe acc current ws) current rs) ts) := by
  induction l generalizing ts with
  | nil => exact h
  | cons c rest ih =>
    rw [List.foldl_cons]
    exact ih (nodupLocks_lockEachNe c rs (nodupLocks_lockEachNe c ws h))

theorem nodupLocks_rpr_fold {ts : List BTask} (l ws : List Nat) (h : NodupLocks ts) :
    NodupLocks (l.foldl (fun acc current => lockEachNe acc current ws) ts) := by
  induction l generalizing ts with
  | nil => exact h
  | cons c rest ih =>
    rw [List.foldl_cons]
    exact ih (nodupLocks_lockEachNe c ws h)

theorem nodupLocks_keyfold_write {ts : List BTask} (keys : List Nat)
    (wm rm : List (Nat × Nat)) (h : NodupLocks ts) :
    NodupLocks (keys.foldl (fun acc r => writePassRes acc (mmGet wm r) (mmGet rm r)) ts) := by
  induction keys generalizing ts with
  | nil => exact h
  | cons k rest ih =>
    rw [List.foldl_cons]
    exact ih (nodupLocks_wpr_fold _ _ _ h)

theorem nodupLocks_keyfold_read {ts : List BTask} (keys : List Nat)
    (rm wm : List (Nat × Nat)) (h : NodupLocks ts) :
    NodupLocks (keys.foldl (fun acc r => readPassRes acc (mmGet rm r) (mmGet wm r)) ts) := by
  induction keys generalizing ts with
  | nil => exact h
  | cons k rest ih =>
    rw [List.foldl_cons]
    exact ih (nodupLocks_rpr_fold _ _ h)

theorem nodupLocks_finalTasks (decls : List DeclTask) : NodupLocks (finalTasks decls) := by
  unfold finalTasks readPass writePass
  apply nodupLocks_keyfold_read
  apply nodupLocks_keyfold_write
  intro i
  rw [locksAt_buildSt]
  exact List.nodup_nil

theorem mem_depAdds (decls : List DeclTask) (id i x : Nat) :
    x ∈ depAdds decls id i ↔ ∃ j t, decls[j]? = some t ∧ x = id + j ∧ i ∈ t.deps := by
  induction decls generalizing id with
  | nil => simp [depAdds]
  | cons t rest ih =>
    simp only [depAdds, List.mem_append, List.mem_map, List.mem_filter, ih]
    constructor
    · rintro (⟨d, ⟨hd, hdi⟩, rfl⟩ | ⟨j, t', hj, rfl, hi⟩)
      · have hdi' : d = i := by simpa using hdi
        exact ⟨0, t, by simp, by omega, hdi' ▸ hd⟩
      · exact ⟨j + 1, t', by simpa using hj, by omega, hi⟩
    · rintro ⟨j, t', hj, rfl, hi⟩
      cases j with
      | zero =>
        simp only [List.getElem?_cons_zero, Option.some_inj] at hj
        subst hj
        exact Or.inl ⟨i, ⟨hi, by simp⟩, by omega⟩
      | succ j' =>
        simp only [List.getElem?_cons_succ] at hj
        exact Or.inr ⟨j', t', hj, by omega, hi⟩

theorem count_const_map {α : Type} (l : List α) (id u : Nat) :
    (l.map (fun _ => id)).count u = if u = id then l.length else 0 := by
  induction l with
  | nil => simp
  | cons a rest ih =>
    simp only [List.map_cons, List.count_cons, ih]
    by_cases h : u = id
    · subst h
      simp
    · simp [h]
      omega

theorem count_depAdds (decls : List DeclTask) (id i u : Nat) :
    (depAdds decls id i).count u =
      if id ≤ u then ((decls[u - id]?).map (fun d => d.deps.count i)).getD 0 else 0 := by
  induction decls generalizing id with
  | nil => simp [depAdds]
  | cons t rest ih =>
    have hd : depAdds (t :: rest) id i
        = (t.deps.filter (fun d => d == i)).map (fun _ => id) ++ depAdds rest (id + 1) i := rfl
    have hflen : (t.deps.filter (fun d => d == i)).length = t.deps.count i := by
      rw [List.count]
      exact (List.countP_eq_length_filter _ _).symm
    rw [hd, List.count_append, count_const_map, ih]
    rcases Nat.lt_trichotomy u id with h | h | h
    · rw [if_neg (by omega : ¬ u = id), if_neg (by omega : ¬ id + 1 ≤ u),
          if_neg (by omega : ¬ id ≤ u)]
    · subst h
      rw [if_pos (rfl : u = u), if_neg (by omega : ¬ u + 1 ≤ u), if_pos (by omega : u ≤ u)]
      have h0 : u - u = 0 := by omega
      rw [h0, List.getElem?_cons_zero, hflen]
      simp
    · rw [if_neg (by omega : ¬ u = id), if_pos (by omega : id + 1 ≤ u),
          if_pos (by omega : id ≤ u)]
      have he : u - id = (u - (id + 1)) + 1 := by omega
      rw [he, List.getElem?_cons_succ]
      omega

theorem sum_count_eq_length {l : List Nat} {N : Nat} (h : ∀ x ∈ l, x < N) :
    ∑ t ∈ Finset.range N, l.count t = l.length := by
  induction l with
  | nil => simp
  | cons a rest ih =>
    have ha : a < N := h a (List.mem_cons_self _ _)
    have hr : ∀ x ∈ rest, x < N := fun x hx => h x (List.mem_cons_of_mem _ hx)
    have hcc : ∀ t : Nat, (a :: rest).count t = rest.count t + if t = a then 1 else 0 := by
      intro t
      rw [List.count_cons]
      by_cases h : t = a
      · simp [h]
      · simp [h]
        omega
    simp only [hcc]
    rw [Finset.sum_add_distrib, ih hr, Finset.sum_ite_eq' (Finset.range N) a (fun _ => 1),
        if_pos (Finset.mem_range.mpr ha)]
    simp

/-- The shape of a compiled graph that the runtime proofs rely on; the
builder's output satisfies it (`buildTasks_goodGraph`).  `DEP t` is the
explicit-dependants prefix of `t`'s unlock sequence. -/
structure GoodGraph (G : List CTask) (DEP : Nat → List Nat) : Prop where
  lockNodup : ∀ t, t < G.length → (getCTask G t).lock.Nodup
  lockMem : ∀ t, t < G.length → ∀ u ∈ (getCTask G t).lock, u < G.length ∧ u ≠ t
  unlockEq : ∀ t, t < G.length → (getCTask G t).unlock = DEP t ++ (getCTask G t).lock
  depMem : ∀ t, t < G.length → ∀ u ∈ DEP t, u < G.length ∧ t < u
  initialEq : ∀ u, u < G.length →
    (getCTask G u).initial = ∑ t ∈ Finset.range G.length, (DEP t).count u
  sizeOK : ∀ u, u < G.length →
    (getCTask G u).initial
      + (∑ t ∈ Finset.range G.length, (getCTask G t).lock.count u) + 2 < CNT_MASK

theorem getCTask_of_getElem? {G : List CTask} {t : Nat} {ct : CTask}
    (h : G[t]? = some ct) : getCTask G t = ct := by
  unfold getCTask
  rw [h]
  rfl

theorem locksAt_of_getElem? {ts : List BTask} {j : Nat} {b : BTask}
    (h : ts[j]? = some b) : locksAt ts j = b.resource_locks := by
  unfold locksAt
  rw [h]
  rfl

/-- Size hypothesis matching the spec's "legitimately sized graphs". -/
def SmallDecls (decls : List DeclTask) : Prop :=
  decls.length < 2 ^ 60 ∧ ∀ d ∈ decls, d.deps.length < 2 ^ 60

theorem buildTasks_goodGraph (decls : List DeclTask) (hwf : WFdeps decls)
    (hsz : SmallDecls decls) :
    GoodGraph (buildTasks decls) (explicitDependants decls) := by
  have hN : (buildTasks decls).length = decls.length := buildTasks_length decls
  have hget : ∀ t, t < decls.length →
      ∃ b, (finalTasks decls)[t]? = some b ∧ getCTask (buildTasks decls) t = b.build := by
    intro t ht
    have hlt : t < (finalTasks decls).length := by rw [finalTasks_length]; exact ht
    refine ⟨(finalTasks decls)[t], List.getElem?_eq_getElem hlt, ?_⟩
    apply getCTask_of_getElem?
    rw [buildTasks_eq, List.getElem?_map, List.getElem?_eq_getElem hlt]
    rfl
  constructor
  · -- lockNodup
    intro t ht
    rw [hN] at ht
    obtain ⟨b, hb, hbt⟩ := hget t ht
    rw [hbt]
    show b.resource_locks.Nodup
    have := nodupLocks_finalTasks decls t
    rwa [locksAt_of_getElem? hb] at this
  · -- lockMem
    intro t ht u hu
    rw [hN] at ht
    obtain ⟨b, hb, hbt⟩ := hget t ht
    rw [hbt] at hu
    rw [mem_build_lock hb, mem_locksAt_finalTasks] at hu
    obtain ⟨hcase, _, hne⟩ := hu
    rw [hN]
    refine ⟨?_, hne⟩
    rcases hcase with ⟨r, ⟨d, hd, _⟩, _⟩ | ⟨r, ⟨d, hd, _⟩, _⟩ <;>
      exact lt_length_of_getElem?_some hd
  · -- unlockEq
    intro t ht
    rw [hN] at ht
    obtain ⟨b, hb, hbt⟩ := hget t ht
    obtain ⟨d, hd⟩ := exists_decl ht
    rw [hbt]
    show b.dependants ++ b.resource_locks = _ ++ b.resource_locks
    rw [(final_skel hwf hb hd).1]
  · -- depMem
    intro t ht u hu
    rw [hN] at ht
    unfold explicitDependants at hu
    rw [mem_depAdds] at hu
    obtain ⟨j, t', hj, hu', hmem⟩ := hu
    have hlt := hwf j t' hj t hmem
    have hjlen := lt_length_of_getElem?_some hj
    rw [hN]
    omega
  · -- initialEq
    intro u hu
    rw [hN] at hu
    obtain ⟨b, hb, hbt⟩ := hget u hu
    obtain ⟨d, hd⟩ := exists_decl hu
    rw [hbt]
    show b.initial = _
    rw [(final_skel hwf hb hd).2, hN]
    have hcount : ∀ t : Nat, (explicitDependants decls t).count u = d.deps.count t := by
      intro t
      unfold explicitDependants
      rw [count_depAdds, if_pos (Nat.zero_le u)]
      have : u - 0 = u := by omega
      rw [this, hd]
      rfl
    rw [Finset.sum_congr rfl (fun t _ => hcount t)]
    rw [sum_count_eq_length]
    intro x hx
    have := hwf u d hd x hx
    omega
  · -- sizeOK
    intro u hu
    rw [hN] at hu
    obtain ⟨b, hb, hbt⟩ := hget u hu
    obtain ⟨d, hd⟩ := exists_decl hu
    rw [hbt]
    show b.initial + _ + 2 < CNT_MASK
    rw [(final_skel hwf hb hd).2]
    have h1 : d.deps.length < 2 ^ 60 := hsz.2 d (by
      have := List.getElem?_mem hd
      exact this)
    have h2 : (∑ t ∈ Finset.range (buildTasks decls).length,
        (getCTask (buildTasks decls) t).lock.count u) ≤ decls.length := by
      rw [hN]
      calc (∑ t ∈ Finset.range decls.length, (getCTask (buildTasks decls) t).lock.count u)
          ≤ ∑ _t ∈ Finset.range decls.length, 1 := by
            apply Finset.sum_le_sum
            intro t ht'
            have ht'' : t < decls.length := Finset.mem_range.mp ht'
            obtain ⟨bt, hbt', hbteq⟩ := hget t ht''
            rw [hbteq]
            have hnd : (bt.build).lock.Nodup := by
              show bt.resource_locks.Nodup
              have := nodupLocks_finalTasks decls t
              rwa [locksAt_of_getElem? hbt'] at this
            exact List.nodup_iff_count_le_one.mp hnd u
        _ = decls.length := by simp
    have h0 : decls.length < 2 ^ 60 := hsz.1
    have h3 : (2 : Nat) ^ 60 = 1152921504606846976 := by norm_num
    have h4 : CNT_MASK = 4611686018427387903 := by
      unfold CNT_MASK COMP_BIT
      norm_num
    omega

/-! ### The run invariant

Ghost state: each task is assigned a lifecycle `Stage`, and the seed
iterator a `SeedSt`.  The invariant ties the pending items, the cell
words, the execution log and the take log to this ghost assignment; it
is preserved by every scheduler step and pins down the final state when
no pending item remains. -/

/-- One task's position in its lifecycle.  Stages `locking`, `running`,
`releasing`, `unlocking` and `taking` own exactly one pending item;
`suspended j` means the task's unlock iterator is embedded (as the
continuation `unlK t j`) in the lock phase of the task it just took. -/
inductive Stage where
  | idle
  | locking (j : Nat) (k : Cont)
  | running
  | releasing
  | unlocking (j : Nat)
  | taking (j : Nat)
  | suspended (j : Nat)
  | done
  deriving DecidableEq, Repr

/-- The pending items a task in the given stage owns. -/
def stageItems (t : Nat) : Stage → List Item
  | .idle => []
  | .locking j k => [.lockPh t j k]
  | .running => [.exec t]
  | .releasing => [.release t]
  | .unlocking j => [.pullUnl t j]
  | .taking j => [.takeUnl t j]
  | .suspended _ => []
  | .done => []

/-- How many lock-phase increments the task has performed. -/
def lockj (G : List CTask) (t : Nat) : Stage → Nat
  | .idle => 0
  | .locking j _ => j
  | _ => (getCTask G t).lock.length

/-- How many unlock-phase decrements the task has performed (in stage
`taking j`, entry `j` itself has already been decremented). -/
def unlj (G : List CTask) (t : Nat) : Stage → Nat
  | .idle => 0
  | .locking _ _ => 0
  | .running => 0
  | .releasing => 0
  | .unlocking j => j
  | .taking j => j + 1
  | .suspended j => j
  | .done => (getCTask G t).unlock.length

/-- The control bits of the task's word in the given stage. -/
def bitsOf : Stage → Nat
  | .idle => 0
  | .locking _ _ => LOCK_BIT
  | .running => LOCK_BIT
  | .releasing => LOCK_BIT
  | _ => COMP_BIT

/-- Closure invocations the task has performed. -/
def execsOf : Stage → Nat
  | .idle => 0
  | .locking _ _ => 0
  | .running => 0
  | _ => 1

/-- Successful `take` transitions the task has undergone. -/
def takesOf : Stage → Nat
  | .idle => 0
  | _ => 1

/-- Total lock increments performed on cell `u` so far. -/
def lockedCnt (G : List CTask) (st : Nat → Stage) (u : Nat) : Nat :=
  ∑ t ∈ Finset.range G.length, ((getCTask G t).lock.take (lockj G t (st t))).count u

/-- Total unlock decrements performed on cell `u` so far. -/
def unlockedCnt (G : List CTask) (st : Nat → Stage) (u : Nat) : Nat :=
  ∑ t ∈ Finset.range G.length, ((getCTask G t).unlock.take (unlj G t (st t))).count u

/-- The seed iterator: a free `pullSeed` item at `i`, embedded as the
continuation `seedK i` in some lock phase, or exhausted. -/
inductive SeedSt where
  | free (i : Nat)
  | emb (i : Nat)
  | dead
  deriving DecidableEq, Repr

def seedItems : SeedSt → List Item
  | .free i => [.pullSeed i]
  | _ => []

def isSubjOf (t : Nat) : Item → Bool
  | .pullSeed _ => false
  | .lockPh t' _ _ => t' == t
  | .exec t' => t' == t
  | .release t' => t' == t
  | .pullUnl t' _ => t' == t
  | .takeUnl t' _ => t' == t

def isPullSeed : Item → Bool
  | .pullSeed _ => true
  | _ => false

/-- Per-stage index bounds. -/
def StageWF (G : List CTask) (t : Nat) : Stage → Prop
  | .locking j _ => j ≤ (getCTask G t).lock.length
  | .unlocking j => j ≤ (getCTask G t).unlock.length
  | .taking j => j < (getCTask G t).unlock.length
  | .suspended j => j ≤ (getCTask G t).unlock.length
  | _ => True

/-- The run invariant, relative to the ghost assignment `st`, `sd`. -/
structure Inv (G : List CTask) (s : RState) (st : Nat → Stage) (sd : SeedSt) : Prop where
  notCrashed : s.crashed = false
  cellsLen : s.cells.length = G.length
  subjItems : ∀ t, t < G.length → s.items.filter (isSubjOf t) = stageItems t (st t)
  seedFilter : s.items.filter isPullSeed = seedItems sd
  itemsCover : ∀ it ∈ s.items, isPullSeed it = true ∨ ∃ t, t < G.length ∧ isSubjOf t it = true
  logCount : ∀ t, t < G.length → s.log.count t = execsOf (st t)
  logMem : ∀ x ∈ s.log, x < G.length
  takeCount : ∀ t, t < G.length → s.takes.count t = takesOf (st t)
  takeMem : ∀ x ∈ s.takes, x < G.length
  stageWF : ∀ t, t < G.length → StageWF G t (st t)
  unlLe : ∀ u, u < G.length →
    unlockedCnt G st u ≤ (getCTask G u).initial + lockedCnt G st u
  wordEq : ∀ u, u < G.length →
    getCell s.cells u =
      bitsOf (st u) + ((getCTask G u).initial + lockedCnt G st u - unlockedCnt G st u)
  embUnl : ∀ u, u < G.length → ∀ ju t j, st u = .locking ju (.unlK t j) →
    t < G.length ∧ st t = .suspended j ∧ u ≠ t
  suspEx : ∀ t, t < G.length → ∀ j, st t = .suspended j →
    ∃ u, u < G.length ∧ ∃ ju, st u = .locking ju (.unlK t j)
  suspUnique : ∀ t j u u', u < G.length → u' < G.length →
    (∃ ju, st u = .locking ju (.unlK t j)) → (∃ ju', st u' = .locking ju' (.unlK t j)) →
    u = u'
  seedEmb : ∀ u, u < G.length → ∀ ju i, st u = .locking ju (.seedK i) → sd = .emb i
  seedEmbEx : ∀ i, sd = .emb i → ∃ u, u < G.length ∧ ∃ ju, st u = .locking ju (.seedK i)
  seedUnique : ∀ u u' ju ju' i i', u < G.length → u' < G.length →
    st u = .locking ju (.seedK i) → st u' = .locking ju' (.seedK i') → u = u'
  ready : ∀ u, u < G.length → st u = .idle →
    unlockedCnt G st u = (getCTask G u).initial + lockedCnt G st u →
    (∃ i, i ≤ u ∧ (sd = .free i ∨ sd = .emb i)) ∨
    (∃ t j, t < G.length ∧ st t = .taking j ∧ (getCTask G t).unlock[j]? = some u)

/-! ### Helper lemmas for the preservation proof -/

theorem filter_erase {α : Type} [DecidableEq α] (p : α → Bool) (a : α) (l : List α)
    (hmem : a ∈ l) :
    (l.erase a).filter p = if p a then (l.filter p).erase a else l.filter p := by
  induction l with
  | nil => cases hmem
  | cons b rest ih =>
    by_cases hba : b = a
    · subst hba
      rw [List.erase_cons_head]
      by_cases hp : p b
      · rw [if_pos hp, List.filter_cons_of_pos hp, List.erase_cons_head]
      · rw [if_neg (by simp [hp]), List.filter_cons_of_neg (by simp [hp])]
    · have hmem' : a ∈ rest := by
        rcases List.mem_cons.mp hmem with he | h
        · exact absurd he.symm hba
        · exact h
      have hbne : ¬ (b == a) := by simpa using hba
      rw [List.erase_cons_tail hbne]
      by_cases hp : p b
      · rw [List.filter_cons_of_pos hp, List.filter_cons_of_pos hp, ih hmem']
        by_cases hpa : p a
        · rw [if_pos hpa, if_pos hpa, List.erase_cons_tail hbne]
        · rw [if_neg (by simp [hpa]), if_neg (by simp [hpa])]
      · rw [List.filter_cons_of_neg (by simp [hp]), List.filter_cons_of_neg (by simp [hp]),
            ih hmem']

theorem getCell_set (cells : List Nat) (u w v : Nat) (hu : u < cells.length) :
    getCell (cells.set u w) v = if v = u then w else getCell cells v := by
  unfold getCell
  by_cases h : v = u
  · subst h
    rw [if_pos rfl, List.getElem?_set_self hu]
    rfl
  · rw [if_neg h, List.getElem?_set_ne (fun he => h he.symm)]

theorem sum_update_swap {N : Nat} (f g : Nat → Nat) (t0 : Nat) (ht0 : t0 < N)
    (h : ∀ t, t < N → t ≠ t0 → f t = g t) :
    (∑ t ∈ Finset.range N, f t) + g t0 = (∑ t ∈ Finset.range N, g t) + f t0 := by
  rw [← Finset.sum_erase_add _ f (Finset.mem_range.mpr ht0),
      ← Finset.sum_erase_add _ g (Finset.mem_range.mpr ht0)]
  have he : ∑ t ∈ (Finset.range N).erase t0, f t = ∑ t ∈ (Finset.range N).erase t0, g t := by
    apply Finset.sum_congr rfl
    intro t ht
    have h1 := Finset.mem_erase.mp ht
    exact h t (Finset.mem_range.mp h1.2) h1.1
  omega

/-- The single-index update device for `lockedCnt`. -/
theorem lockedCnt_update (G : List CTask) (st : Nat → Stage) (t0 : Nat) (stg : Stage)
    (ht0 : t0 < G.length) (u : Nat) :
    lockedCnt G st u + ((getCTask G t0).lock.take (lockj G t0 stg)).count u
      = lockedCnt G (Function.update st t0 stg) u
        + ((getCTask G t0).lock.take (lockj G t0 (st t0))).count u := by
  unfold lockedCnt
  have := sum_update_swap
    (fun t => ((getCTask G t).lock.take (lockj G t (st t))).count u)
    (fun t => ((getCTask G t).lock.take (lockj G t (Function.update st t0 stg t))).count u)
    t0 ht0
    (fun t _ ht => by simp only [Function.update_noteq ht])
  simp only [Function.update_same] at this
  exact this

/-- The single-index update device for `unlockedCnt`. -/
theorem unlockedCnt_update (G : List CTask) (st : Nat → Stage) (t0 : Nat) (stg : Stage)
    (ht0 : t0 < G.length) (u : Nat) :
    unlockedCnt G st u + ((getCTask G t0).unlock.take (unlj G t0 stg)).count u
      = unlockedCnt G (Function.update st t0 stg) u
        + ((getCTask G t0).unlock.take (unlj G t0 (st t0))).count u := by
  unfold unlockedCnt
  have := sum_update_swap
    (fun t => ((getCTask G t).unlock.take (unlj G t (st t))).count u)
    (fun t => ((getCTask G t).unlock.take (unlj G t (Function.update st t0 stg t))).count u)
    t0 ht0
    (fun t _ ht => by simp only [Function.update_noteq ht])
  simp only [Function.update_same] at this
  exact this

theorem count_take_succ {l : List Nat} {j u : Nat} {x : Nat} (hx : l[j]? = some x) :
    (l.take (j + 1)).count u = (l.take j).count u + if x = u then 1 else 0 := by
  rw [List.take_succ, hx]
  simp only [Option.toList_some, List.count_append]
  by_cases h : x = u
  · subst h
    simp
  · rw [if_neg h]
    have hc : List.count u [x] = 0 := by
      rw [List.count_eq_zero]
      simp
      omega
    omega

theorem count_take_le (l : List Nat) (n u : Nat) : (l.take n).count u ≤ l.count u :=
  (List.take_sublist n l).count_le u

theorem count_take_full (l : List Nat) (u : Nat) : (l.take l.length).count u = l.count u := by
  rw [List.take_length]

theorem stage_of_mem_subj {G : List CTask} {s : RState} {st : Nat → Stage} {sd : SeedSt}
    (h : Inv G s st sd) {it : Item} {t0 : Nat}
    (ht0 : t0 < G.length) (hmem : it ∈ s.items) (hsubj : isSubjOf t0 it = true) :
    it ∈ stageItems t0 (st t0) := by
  rw [← h.subjItems t0 ht0]
  exact List.mem_filter.mpr ⟨hmem, hsubj⟩

theorem seed_of_mem {G : List CTask} {s : RState} {st : Nat → Stage} {sd : SeedSt}
    (h : Inv G s st sd) {i : Nat} (hmem : Item.pullSeed i ∈ s.items) :
    sd = .free i := by
  have : Item.pullSeed i ∈ s.items.filter isPullSeed :=
    List.mem_filter.mpr ⟨hmem, rfl⟩
  rw [h.seedFilter] at this
  cases sd with
  | free i' =>
    simp only [seedItems, List.mem_singleton] at this
    cases this
    rfl
  | emb i' => simp [seedItems] at this
  | dead => simp [seedItems] at this

/-- In any stage past the lock phase, the lock progress is complete. -/
theorem lockj_full_of_unlj_pos (G : List CTask) (t : Nat) (stg : Stage)
    (h : unlj G t stg ≠ 0) :
    (getCTask G t).lock.take (lockj G t stg) = (getCTask G t).lock := by
  cases stg <;> first
    | (exfalso; exact h rfl)
    | (show (getCTask G t).lock.take (getCTask G t).lock.length = _
       exact List.take_length _)

/-- Per-task cap: the unlock decrements a task has performed on `u`
never exceed its dependant multiplicity of `u` plus the lock increments
it has performed on `u`. -/
theorem unl_term_le (G : List CTask) (DEP : Nat → List Nat) (hG : GoodGraph G DEP)
    (st : Nat → Stage) (t u : Nat) (ht : t < G.length) :
    ((getCTask G t).unlock.take (unlj G t (st t))).count u
      ≤ (DEP t).count u + ((getCTask G t).lock.take (lockj G t (st t))).count u := by
  by_cases h0 : unlj G t (st t) = 0
  · rw [h0]
    simp
  · rw [lockj_full_of_unlj_pos G t (st t) h0]
    calc ((getCTask G t).unlock.take (unlj G t (st t))).count u
        ≤ (getCTask G t).unlock.count u := count_take_le _ _ _
      _ = (DEP t).count u + (getCTask G t).lock.count u := by
          rw [hG.unlockEq t ht, List.count_append]

/-- Enabling an unlock: when a task in stage `unlocking j` is about to
decrement entry `j` (the cell `u`), `u`'s counter is at least 1. -/
theorem unlocked_lt (G : List CTask) (DEP : Nat → List Nat) (hG : GoodGraph G DEP)
    (st : Nat → Stage) {t0 j u : Nat} (ht0 : t0 < G.length)
    (hu : u < G.length) (hst : st t0 = .unlocking j)
    (hentry : (getCTask G t0).unlock[j]? = some u) :
    unlockedCnt G st u < (getCTask G u).initial + lockedCnt G st u := by
  have hcap : ∀ t ∈ Finset.range G.length,
      ((getCTask G t).unlock.take (unlj G t (st t))).count u
        ≤ (DEP t).count u + ((getCTask G t).lock.take (lockj G t (st t))).count u :=
    fun t ht => unl_term_le G DEP hG st t u (Finset.mem_range.mp ht)
  have hstrict : ((getCTask G t0).unlock.take (unlj G t0 (st t0))).count u
      < (DEP t0).count u + ((getCTask G t0).lock.take (lockj G t0 (st t0))).count u := by
    rw [hst]
    show ((getCTask G t0).unlock.take j).count u < _
    have h1 := count_take_succ (u := u) hentry
    rw [if_pos rfl] at h1
    have h2 : ((getCTask G t0).unlock.take (j + 1)).count u
        ≤ (getCTask G t0).unlock.count u := count_take_le _ _ _
    have h3 : (getCTask G t0).unlock.count u
        = (DEP t0).count u + (getCTask G t0).lock.count u := by
      rw [hG.unlockEq t0 ht0, List.count_append]
    have h4 : (getCTask G t0).lock.take (lockj G t0 (Stage.unlocking j))
        = (getCTask G t0).lock := List.take_length _
    rw [h4]
    omega
  have hsum : unlockedCnt G st u
      < ∑ t ∈ Finset.range G.length,
          ((DEP t).count u + ((getCTask G t).lock.take (lockj G t (st t))).count u) := by
    unfold unlockedCnt
    exact Finset.sum_lt_sum hcap ⟨t0, Finset.mem_range.mpr ht0, hstrict⟩
  rw [Finset.sum_add_distrib] at hsum
  rw [← hG.initialEq u hu] at hsum
  exact hsum

/-- The counter field never exceeds the static bound from `sizeOK`. -/
theorem cnt_bound (G : List CTask) (DEP : Nat → List Nat) (hG : GoodGraph G DEP)
    (st : Nat → Stage) (u : Nat) (hu : u < G.length) :
    (getCTask G u).initial + lockedCnt G st u + 2 < CNT_MASK := by
  have h1 : lockedCnt G st u ≤ ∑ t ∈ Finset.range G.length, (getCTask G t).lock.count u := by
    unfold lockedCnt
    exact Finset.sum_le_sum (fun t _ => count_take_le _ _ _)
  have := hG.sizeOK u hu
  omega

theorem stage_eq_of_lockPh_mem {t0 j : Nat} {k : Cont} {stg : Stage}
    (h : Item.lockPh t0 j k ∈ stageItems t0 stg) : stg = .locking j k := by
  cases stg <;> simp_all [stageItems]

theorem stage_eq_of_exec_mem {t0 : Nat} {stg : Stage}
    (h : Item.exec t0 ∈ stageItems t0 stg) : stg = .running := by
  cases stg <;> simp_all [stageItems]

theorem stage_eq_of_release_mem {t0 : Nat} {stg : Stage}
    (h : Item.release t0 ∈ stageItems t0 stg) : stg = .releasing := by
  cases stg <;> simp_all [stageItems]

theorem stage_eq_of_pullUnl_mem {t0 j : Nat} {stg : Stage}
    (h : Item.pullUnl t0 j ∈ stageItems t0 stg) : stg = .unlocking j := by
  cases stg <;> simp_all [stageItems]

theorem stage_eq_of_takeUnl_mem {t0 j : Nat} {stg : Stage}
    (h : Item.takeUnl t0 j ∈ stageItems t0 stg) : stg = .taking j := by
  cases stg <;> simp_all [stageItems]

theorem subj_lt_of_mem {G : List CTask} {s : RState} {st : Nat → Stage} {sd : SeedSt}
    (h : Inv G s st sd) {it : Item} {t0 : Nat}
    (hmem : it ∈ s.items) (hnps : isPullSeed it = false)
    (hsubj : ∀ t : Nat, isSubjOf t it = true → t0 = t) :
    t0 < G.length := by
  rcases h.itemsCover _ hmem with hps | ⟨t, htN, hsub⟩
  · rw [hnps] at hps
    cases hps
  · have he : t0 = t := hsubj t hsub
    subst he
    exact htN

theorem update_eq_cases {st : Nat → Stage} {t0 : Nat} {stg : Stage} {x : Nat} {v : Stage}
    (h : Function.update st t0 stg x = v) : (x = t0 ∧ stg = v) ∨ (x ≠ t0 ∧ st x = v) := by
  by_cases hx : x = t0
  · subst hx
    rw [Function.update_same] at h
    exact Or.inl ⟨rfl, h⟩
  · rw [Function.update_noteq hx] at h
    exact Or.inr ⟨hx, h⟩

theorem inv_step_exec {G : List CTask} {DEP : Nat → List Nat} (hG : GoodGraph G DEP)
    {s : RState} {st : Nat → Stage} {sd : SeedSt} (h : Inv G s st sd)
    (t0 : Nat) (hmem : Item.exec t0 ∈ s.items) :
    Inv G (doStep G s (.exec t0)) (Function.update st t0 .releasing) sd := by
  have ht0 : t0 < G.length := subj_lt_of_mem h hmem rfl
      (fun t ht => by simpa [isSubjOf] using ht)
  have hrun : st t0 = .running :=
    stage_eq_of_exec_mem (stage_of_mem_subj h ht0 hmem (by simp [isSubjOf]))
  have hstep : doStep G s (.exec t0)
      = { s with log := s.log ++ [t0], items := .release t0 :: s.items.erase (.exec t0) } := by
    unfold doStep
    rw [h.notCrashed]
    simp [hmem]
  rw [hstep]
  set st' := Function.update st t0 Stage.releasing with hst'
  have hst'0 : st' t0 = .releasing := Function.update_same ..
  have hst'ne : ∀ t, t ≠ t0 → st' t = st t := fun t ht => Function.update_noteq ht ..
  have hLeq : ∀ t, lockj G t (st' t) = lockj G t (st t) := by
    intro t
    by_cases ht : t = t0
    · subst ht
      rw [hst'0, hrun]
      rfl
    · rw [hst'ne t ht]
  have hUeq : ∀ t, unlj G t (st' t) = unlj G t (st t) := by
    intro t
    by_cases ht : t = t0
    · subst ht
      rw [hst'0, hrun]
      rfl
    · rw [hst'ne t ht]
  have hBeq : ∀ t, bitsOf (st' t) = bitsOf (st t) := by
    intro t
    by_cases ht : t = t0
    · subst ht
      rw [hst'0, hrun]
      rfl
    · rw [hst'ne t ht]
  have hlocked : ∀ u, lockedCnt G st' u = lockedCnt G st u := by
    intro u
    unfold lockedCnt
    exact Finset.sum_congr rfl (fun t _ => by rw [hLeq])
  have hunlocked : ∀ u, unlockedCnt G st' u = unlockedCnt G st u := by
    intro u
    unfold unlockedCnt
    exact Finset.sum_congr rfl (fun t _ => by rw [hUeq])
  constructor
  · exact h.notCrashed
  · exact h.cellsLen
  · -- subjItems
    intro t ht
    show (Item.release t0 :: s.items.erase (.exec t0)).filter (isSubjOf t) = stageItems t (st' t)
    rw [List.filter_cons, filter_erase _ _ _ hmem]
    by_cases hteq : t = t0
    · subst hteq
      rw [if_pos (by simp [isSubjOf]), if_pos (by simp [isSubjOf]),
          h.subjItems t ht, hrun, hst'0]
      simp [stageItems]
    · have h1 : isSubjOf t (Item.release t0) = false := by
        simp [isSubjOf]
        omega
      have h2 : isSubjOf t (Item.exec t0) = false := by
        simp [isSubjOf]
        omega
      rw [if_neg (by simp [h1]), if_neg (by simp [h2]), h.subjItems t ht,
          hst'ne t (fun he => hteq he)]
  · -- seedFilter
    show (Item.release t0 :: s.items.erase (.exec t0)).filter isPullSeed = seedItems sd
    rw [List.filter_cons, if_neg (by simp [isPullSeed]), filter_erase _ _ _ hmem,
        if_neg (by simp [isPullSeed])]
    exact h.seedFilter
  · -- itemsCover
    intro it hit
    rcases List.mem_cons.mp hit with he | hit'
    · subst he
      exact Or.inr ⟨t0, ht0, by simp [isSubjOf]⟩
    · exact h.itemsCover it (List.mem_of_mem_erase hit')
  · -- logCount
    intro t ht
    show (s.log ++ [t0]).count t = execsOf (st' t)
    rw [List.count_append]
    by_cases hteq : t = t0
    · subst hteq
      rw [h.logCount t ht, hrun, hst'0]
      simp [execsOf, List.count_cons]
    · have : List.count t [t0] = 0 := by
        rw [List.count_eq_zero]
        simp
        omega
      rw [this, h.logCount t ht, hst'ne t hteq]
      omega
  · -- logMem
    intro x hx
    rcases List.mem_append.mp hx with hx' | hx'
    · exact h.logMem x hx'
    · rw [List.mem_singleton] at hx'
      exact hx' ▸ ht0
  · -- takeCount
    intro t ht
    show s.takes.count t = takesOf (st' t)
    rw [h.takeCount t ht]
    by_cases hteq : t = t0
    · subst hteq
      rw [hrun, hst'0]
      rfl
    · rw [hst'ne t hteq]
  · exact h.takeMem
  · -- stageWF
    intro t ht
    by_cases hteq : t = t0
    · subst hteq
      rw [hst'0]
      trivial
    · rw [hst'ne t hteq]
      exact h.stageWF t ht
  · -- unlLe
    intro u hu
    rw [hlocked, hunlocked]
    exact h.unlLe u hu
  · -- wordEq
    intro u hu
    show getCell s.cells u = _
    rw [hlocked, hunlocked, hBeq]
    exact h.wordEq u hu
  · -- embUnl
    intro u hu ju t j hlk
    rcases update_eq_cases hlk with ⟨_, habs⟩ | ⟨hne, hlk'⟩
    · cases habs
    · obtain ⟨htN, hsusp, hut⟩ := h.embUnl u hu ju t j hlk'
      refine ⟨htN, ?_, hut⟩
      have htne : t ≠ t0 := by
        intro he
        rw [he, hrun] at hsusp
        cases hsusp
      rw [hst'ne t htne]
      exact hsusp
  · -- suspEx
    intro t ht j hsusp
    rcases update_eq_cases hsusp with ⟨_, habs⟩ | ⟨hne, hsusp'⟩
    · cases habs
    · obtain ⟨u, huN, ju, hlk⟩ := h.suspEx t ht j hsusp'
      have hune : u ≠ t0 := by
        intro he
        rw [he, hrun] at hlk
        cases hlk
      exact ⟨u, huN, ju, by rw [hst'ne u hune]; exact hlk⟩
  · -- suspUnique
    intro t j u u' hu hu' h1 h2
    obtain ⟨ju, h1'⟩ := h1
    obtain ⟨ju', h2'⟩ := h2
    rcases update_eq_cases h1' with ⟨_, habs⟩ | ⟨_, h1''⟩
    · cases habs
    rcases update_eq_cases h2' with ⟨_, habs⟩ | ⟨_, h2''⟩
    · cases habs
    exact h.suspUnique t j u u' hu hu' ⟨ju, h1''⟩ ⟨ju', h2''⟩
  · -- seedEmb
    intro u hu ju i hlk
    rcases update_eq_cases hlk with ⟨_, habs⟩ | ⟨_, hlk'⟩
    · cases habs
    · exact h.seedEmb u hu ju i hlk'
  · -- seedEmbEx
    intro i hsd
    obtain ⟨u, huN, ju, hlk⟩ := h.seedEmbEx i hsd
    have hune : u ≠ t0 := by
      intro he
      rw [he, hrun] at hlk
      cases hlk
    exact ⟨u, huN, ju, by rw [hst'ne u hune]; exact hlk⟩
  · -- seedUnique
    intro u u' ju ju' i i' hu hu' h1 h2
    rcases update_eq_cases h1 with ⟨_, habs⟩ | ⟨_, h1'⟩
    · cases habs
    rcases update_eq_cases h2 with ⟨_, habs⟩ | ⟨_, h2'⟩
    · cases habs
    exact h.seedUnique u u' ju ju' i i' hu hu' h1' h2'
  · -- ready
    intro u hu hidle hcnt
    rcases update_eq_cases hidle with ⟨_, habs⟩ | ⟨hne, hidle'⟩
    · cases habs
    rw [hlocked, hunlocked] at hcnt
    rcases h.ready u hu hidle' hcnt with hl | ⟨t, j, htN, htk, hentry⟩
    · exact Or.inl hl
    · have htne : t ≠ t0 := by
        intro he
        rw [he, hrun] at htk
        cases htk
      exact Or.inr ⟨t, j, htN, by rw [hst'ne t htne]; exact htk, hentry⟩

theorem inv_step_release {G : List CTask} {DEP : Nat → List Nat} (hG : GoodGraph G DEP)
    {s : RState} {st : Nat → Stage} {sd : SeedSt} (h : Inv G s st sd)
    (t0 : Nat) (hmem : Item.release t0 ∈ s.items) :
    Inv G (doStep G s (.release t0)) (Function.update st t0 (.unlocking 0)) sd := by
  have ht0 : t0 < G.length := subj_lt_of_mem h hmem rfl
      (fun t ht => by simpa [isSubjOf] using ht)
  have hrel : st t0 = .releasing :=
    stage_eq_of_release_mem (stage_of_mem_subj h ht0 hmem (by simp [isSubjOf]))
  have hstep : doStep G s (.release t0)
      = { s with cells := s.cells.set t0 (cellRelease (getCell s.cells t0)),
                 items := .pullUnl t0 0 :: s.items.erase (.release t0) } := by
    unfold doStep
    rw [h.notCrashed]
    simp [hmem]
  rw [hstep]
  set st' := Function.update st t0 (Stage.unlocking 0) with hst'
  have hst'0 : st' t0 = .unlocking 0 := Function.update_same ..
  have hst'ne : ∀ t, t ≠ t0 → st' t = st t := fun t ht => Function.update_noteq ht ..
  have hLeq : ∀ t, lockj G t (st' t) = lockj G t (st t) := by
    intro t
    by_cases ht : t = t0
    · subst ht
      rw [hst'0, hrel]
      rfl
    · rw [hst'ne t ht]
  have hUeq : ∀ t, unlj G t (st' t) = unlj G t (st t) := by
    intro t
    by_cases ht : t = t0
    · subst ht
      rw [hst'0, hrel]
      rfl
    · rw [hst'ne t ht]
  have hlocked : ∀ u, lockedCnt G st' u = lockedCnt G st u := by
    intro u
    unfold lockedCnt
    exact Finset.sum_congr rfl (fun t _ => by rw [hLeq])
  have hunlocked : ∀ u, unlockedCnt G st' u = unlockedCnt G st u := by
    intro u
    unfold unlockedCnt
    exact Finset.sum_congr rfl (fun t _ => by rw [hUeq])
  have hlen : t0 < s.cells.length := by rw [h.cellsLen]; exact ht0
  constructor
  · exact h.notCrashed
  · show (s.cells.set t0 _).length = G.length
    rw [List.length_set]
    exact h.cellsLen
  · -- subjItems
    intro t ht
    show (Item.pullUnl t0 0 :: s.items.erase (.release t0)).filter (isSubjOf t)
        = stageItems t (st' t)
    rw [List.filter_cons, filter_erase _ _ _ hmem]
    by_cases hteq : t = t0
    · subst hteq
      rw [if_pos (by simp [isSubjOf]), if_pos (by simp [isSubjOf]),
          h.subjItems t ht, hrel, hst'0]
      simp [stageItems]
    · have h1 : isSubjOf t (Item.pullUnl t0 0) = false := by
        simp [isSubjOf]
        omega
      have h2 : isSubjOf t (Item.release t0) = false := by
        simp [isSubjOf]
        omega
      rw [if_neg (by simp [h1]), if_neg (by simp [h2]), h.subjItems t ht,
          hst'ne t (fun he => hteq he)]
  · -- seedFilter
    show (Item.pullUnl t0 0 :: s.items.erase (.release t0)).filter isPullSeed = seedItems sd
    rw [List.filter_cons, if_neg (by simp [isPullSeed]), filter_erase _ _ _ hmem,
        if_neg (by simp [isPullSeed])]
    exact h.seedFilter
  · -- itemsCover
    intro it hit
    rcases List.mem_cons.mp hit with he | hit'
    · subst he
      exact Or.inr ⟨t0, ht0, by simp [isSubjOf]⟩
    · exact h.itemsCover it (List.mem_of_mem_erase hit')
  · -- logCount
    intro t ht
    show s.log.count t = execsOf (st' t)
    rw [h.logCount t ht]
    by_cases hteq : t = t0
    · subst hteq
      rw [hrel, hst'0]
      rfl
    · rw [hst'ne t hteq]
  · exact h.logMem
  · -- takeCount
    intro t ht
    show s.takes.count t = takesOf (st' t)
    rw [h.takeCount t ht]
    by_cases hteq : t = t0
    · subst hteq
      rw [hrel, hst'0]
      rfl
    · rw [hst'ne t hteq]
  · exact h.takeMem
  · -- stageWF
    intro t ht
    by_cases hteq : t = t0
    · subst hteq
      rw [hst'0]
      show (0 : Nat) ≤ _
      omega
    · rw [hst'ne t hteq]
      exact h.stageWF t ht
  · -- unlLe
    intro u hu
    rw [hlocked, hunlocked]
    exact h.unlLe u hu
  · -- wordEq
    intro u hu
    show getCell (s.cells.set t0 _) u = _
    rw [getCell_set _ _ _ _ hlen, hlocked, hunlocked]
    by_cases hueq : u = t0
    · subst hueq
      rw [if_pos rfl, hst'0]
      have hw := h.wordEq u hu
      rw [hrel] at hw
      have hcnt : (getCTask G u).initial + lockedCnt G st u - unlockedCnt G st u < 2 ^ 62 := by
        have h1 := cnt_bound G DEP hG st u hu
        have h2 : CNT_MASK = 2 ^ 62 - 1 := rfl
        omega
      rw [hw]
      show cellRelease (bitsOf Stage.releasing + _) = bitsOf (Stage.unlocking 0) + _
      show cellRelease (LOCK_BIT + _) = COMP_BIT + _
      exact cellRelease_running _ hcnt
    · rw [if_neg hueq, hst'ne u hueq]
      exact h.wordEq u hu
  · -- embUnl
    intro u hu ju t j hlk
    rcases update_eq_cases hlk with ⟨_, habs⟩ | ⟨hne, hlk'⟩
    · cases habs
    · obtain ⟨htN, hsusp, hut⟩ := h.embUnl u hu ju t j hlk'
      refine ⟨htN, ?_, hut⟩
      have htne : t ≠ t0 := by
        intro he
        rw [he, hrel] at hsusp
        cases hsusp
      rw [hst'ne t htne]
      exact hsusp
  · -- suspEx
    intro t ht j hsusp
    rcases update_eq_cases hsusp with ⟨_, habs⟩ | ⟨hne, hsusp'⟩
    · cases habs
    · obtain ⟨u, huN, ju, hlk⟩ := h.suspEx t ht j hsusp'
      have hune : u ≠ t0 := by
        intro he
        rw [he, hrel] at hlk
        cases hlk
      exact ⟨u, huN, ju, by rw [hst'ne u hune]; exact hlk⟩
  · -- suspUnique
    intro t j u u' hu hu' h1 h2
    obtain ⟨ju, h1'⟩ := h1
    obtain ⟨ju', h2'⟩ := h2
    rcases update_eq_cases h1' with ⟨_, habs⟩ | ⟨_, h1''⟩
    · cases habs
    rcases update_eq_cases h2' with ⟨_, habs⟩ | ⟨_, h2''⟩
    · cases habs
    exact h.suspUnique t j u u' hu hu' ⟨ju, h1''⟩ ⟨ju', h2''⟩
  · -- seedEmb
    intro u hu ju i hlk
    rcases update_eq_cases hlk with ⟨_, habs⟩ | ⟨_, hlk'⟩
    · cases habs
    · exact h.seedEmb u hu ju i hlk'
  · -- seedEmbEx
    intro i hsd
    obtain ⟨u, huN, ju, hlk⟩ := h.seedEmbEx i hsd
    have hune : u ≠ t0 := by
      intro he
      rw [he, hrel] at hlk
      cases hlk
    exact ⟨u, huN, ju, by rw [hst'ne u hune]; exact hlk⟩
  · -- seedUnique
    intro u u' ju ju' i i' hu hu' h1 h2
    rcases update_eq_cases h1 with ⟨_, habs⟩ | ⟨_, h1'⟩
    · cases habs
    rcases update_eq_cases h2 with ⟨_, habs⟩ | ⟨_, h2'⟩
    · cases habs
    exact h.seedUnique u u' ju ju' i i' hu hu' h1' h2'
  · -- ready
    intro u hu hidle hcnt
    rcases update_eq_cases hidle with ⟨_, habs⟩ | ⟨hne, hidle'⟩
    · cases habs
    rw [hlocked, hunlocked] at hcnt
    rcases h.ready u hu hidle' hcnt with hl | ⟨t, j, htN, htk, hentry⟩
    · exact Or.inl hl
    · have htne : t ≠ t0 := by
        intro he
        rw [he, hrel] at htk
        cases htk
      exact Or.inr ⟨t, j, htN, by rw [hst'ne t htne]; exact htk, hentry⟩

theorem bits_land_cnt (stg : Stage) (c : Nat) (hc : c < 2 ^ 62) :
    (bitsOf stg + c) &&& CNT_MASK = c := by
  rw [land_cntMask_eq_mod]
  have h2 : (2 : Nat) ^ 63 = 2 ^ 62 * 2 := by norm_num
  have hm2 : (2 ^ 62 * 2 + c) % 2 ^ 62 = c % 2 ^ 62 := Nat.mul_add_mod (2 ^ 62) 2 c
  have hm1 : (2 ^ 62 * 1 + c) % 2 ^ 62 = c % 2 ^ 62 := Nat.mul_add_mod (2 ^ 62) 1 c
  have hmc : c % 2 ^ 62 = c := Nat.mod_eq_of_lt hc
  cases stg <;> simp only [bitsOf, LOCK_BIT, COMP_BIT] <;>
    first
      | (rw [Nat.zero_add, hmc])
      | (rw [h2, hm2, hmc])
      | (rw [show (2:Nat) ^ 62 + c = 2 ^ 62 * 1 + c by ring, hm1, hmc])

theorem bits_eq_zero_iff (stg : Stage) : bitsOf stg = 0 ↔ stg = .idle := by
  cases stg <;> simp [bitsOf, LOCK_BIT, COMP_BIT]

theorem mem_unlock_ne {G : List CTask} {DEP : Nat → List Nat} (hG : GoodGraph G DEP)
    {t0 u : Nat} (ht0 : t0 < G.length) (hu : u ∈ (getCTask G t0).unlock) :
    u < G.length ∧ u ≠ t0 := by
  rw [hG.unlockEq t0 ht0] at hu
  rcases List.mem_append.mp hu with hd | hl
  · obtain ⟨h1, h2⟩ := hG.depMem t0 ht0 u hd
    exact ⟨h1, by omega⟩
  · obtain ⟨h1, h2⟩ := hG.lockMem t0 ht0 u hl
    exact ⟨h1, h2⟩

theorem inv_step_pullUnl {G : List CTask} {DEP : Nat → List Nat} (hG : GoodGraph G DEP)
    {s : RState} {st : Nat → Stage} {sd : SeedSt} (h : Inv G s st sd)
    (t0 j : Nat) (hmem : Item.pullUnl t0 j ∈ s.items) :
    ∃ st', Inv G (doStep G s (.pullUnl t0 j)) st' sd := by
  have ht0 : t0 < G.length := subj_lt_of_mem h hmem rfl
      (fun t ht => by simpa [isSubjOf] using ht)
  have hunl : st t0 = .unlocking j :=
    stage_eq_of_pullUnl_mem (stage_of_mem_subj h ht0 hmem (by simp [isSubjOf]))
  cases hentry : (getCTask G t0).unlock[j]? with
  | none =>
    -- iterator exhausted: the task is done
    refine ⟨Function.update st t0 .done, ?_⟩
    have hjfull : j = (getCTask G t0).unlock.length := by
      have h1 := h.stageWF t0 ht0
      rw [hunl] at h1
      have h2 : (getCTask G t0).unlock.length ≤ j := by
        by_contra hlt
        rw [List.getElem?_eq_getElem (by omega)] at hentry
        cases hentry
      exact Nat.le_antisymm h1 h2
    have hstep : doStep G s (.pullUnl t0 j)
        = { s with items := s.items.erase (.pullUnl t0 j) } := by
      unfold doStep
      rw [h.notCrashed]
      simp [hmem, hentry]
    rw [hstep]
    set st' := Function.update st t0 Stage.done with hst'
    have hst'0 : st' t0 = .done := Function.update_same ..
    have hst'ne : ∀ t, t ≠ t0 → st' t = st t := fun t ht => Function.update_noteq ht ..
    have hLeq : ∀ t, lockj G t (st' t) = lockj G t (st t) := by
      intro t
      by_cases ht : t = t0
      · subst ht
        rw [hst'0, hunl]
        rfl
      · rw [hst'ne t ht]
    have hUeq : ∀ t, unlj G t (st' t) = unlj G t (st t) := by
      intro t
      by_cases ht : t = t0
      · subst ht
        rw [hst'0, hunl]
        show (getCTask G t).unlock.length = j
        omega
      · rw [hst'ne t ht]
    have hBeq : ∀ t, bitsOf (st' t) = bitsOf (st t) := by
      intro t
      by_cases ht : t = t0
      · subst ht
        rw [hst'0, hunl]
        rfl
      · rw [hst'ne t ht]
    have hlocked : ∀ u, lockedCnt G st' u = lockedCnt G st u := by
      intro u
      unfold lockedCnt
      exact Finset.sum_congr rfl (fun t _ => by rw [hLeq])
    have hunlocked : ∀ u, unlockedCnt G st' u = unlockedCnt G st u := by
      intro u
      unfold unlockedCnt
      exact Finset.sum_congr rfl (fun t _ => by rw [hUeq])
    constructor
    · exact h.notCrashed
    · exact h.cellsLen
    · intro t ht
      show (s.items.erase (.pullUnl t0 j)).filter (isSubjOf t) = stageItems t (st' t)
      rw [filter_erase _ _ _ hmem]
      by_cases hteq : t = t0
      · subst hteq
        rw [if_pos (by simp [isSubjOf]), h.subjItems t ht, hunl, hst'0]
        simp [stageItems]
      · have h2 : isSubjOf t (Item.pullUnl t0 j) = false := by
          simp [isSubjOf]
          omega
        rw [if_neg (by simp [h2]), h.subjItems t ht, hst'ne t (fun he => hteq he)]
    · show (s.items.erase (.pullUnl t0 j)).filter isPullSeed = seedItems sd
      rw [filter_erase _ _ _ hmem, if_neg (by simp [isPullSeed])]
      exact h.seedFilter
    · intro it hit
      exact h.itemsCover it (List.mem_of_mem_erase hit)
    · intro t ht
      rw [h.logCount t ht]
      by_cases hteq : t = t0
      · subst hteq
        rw [hunl, hst'0]
        rfl
      · rw [hst'ne t hteq]
    · exact h.logMem
    · intro t ht
      rw [h.takeCount t ht]
      by_cases hteq : t = t0
      · subst hteq
        rw [hunl, hst'0]
        rfl
      · rw [hst'ne t hteq]
    · exact h.takeMem
    · intro t ht
      by_cases hteq : t = t0
      · subst hteq
        rw [hst'0]
        trivial
      · rw [hst'ne t hteq]
        exact h.stageWF t ht
    · intro u hu
      rw [hlocked, hunlocked]
      exact h.unlLe u hu
    · intro u hu
      show getCell s.cells u = _
      rw [hlocked, hunlocked, hBeq]
      exact h.wordEq u hu
    · intro u hu ju t j' hlk
      rcases update_eq_cases hlk with ⟨_, habs⟩ | ⟨hne, hlk'⟩
      · cases habs
      · obtain ⟨htN, hsusp, hut⟩ := h.embUnl u hu ju t j' hlk'
        refine ⟨htN, ?_, hut⟩
        have htne : t ≠ t0 := by
          intro he
          rw [he, hunl] at hsusp
          cases hsusp
        rw [hst'ne t htne]
        exact hsusp
    · intro t ht j' hsusp
      rcases update_eq_cases hsusp with ⟨_, habs⟩ | ⟨hne, hsusp'⟩
      · cases habs
      · obtain ⟨u, huN, ju, hlk⟩ := h.suspEx t ht j' hsusp'
        have hune : u ≠ t0 := by
          intro he
          rw [he, hunl] at hlk
          cases hlk
        exact ⟨u, huN, ju, by rw [hst'ne u hune]; exact hlk⟩
    · intro t j' u u' hu hu' h1 h2
      obtain ⟨ju, h1'⟩ := h1
      obtain ⟨ju', h2'⟩ := h2
      rcases update_eq_cases h1' with ⟨_, habs⟩ | ⟨_, h1''⟩
      · cases habs
      rcases update_eq_cases h2' with ⟨_, habs⟩ | ⟨_, h2''⟩
      · cases habs
      exact h.suspUnique t j' u u' hu hu' ⟨ju, h1''⟩ ⟨ju', h2''⟩
    · intro u hu ju i hlk
      rcases update_eq_cases hlk with ⟨_, habs⟩ | ⟨_, hlk'⟩
      · cases habs
      · exact h.seedEmb u hu ju i hlk'
    · intro i hsd
      obtain ⟨u, huN, ju, hlk⟩ := h.seedEmbEx i hsd
      have hune : u ≠ t0 := by
        intro he
        rw [he, hunl] at hlk
        cases hlk
      exact ⟨u, huN, ju, by rw [hst'ne u hune]; exact hlk⟩
    · intro u u' ju ju' i i' hu hu' h1 h2
      rcases update_eq_cases h1 with ⟨_, habs⟩ | ⟨_, h1'⟩
      · cases habs
      rcases update_eq_cases h2 with ⟨_, habs⟩ | ⟨_, h2'⟩
      · cases habs
      exact h.seedUnique u u' ju ju' i i' hu hu' h1' h2'
    · intro u hu hidle hcnt
      rcases update_eq_cases hidle with ⟨_, habs⟩ | ⟨hne, hidle'⟩
      · cases habs
      rw [hlocked, hunlocked] at hcnt
      rcases h.ready u hu hidle' hcnt with hl | ⟨t, j', htN, htk, hentry'⟩
      · exact Or.inl hl
      · have htne : t ≠ t0 := by
          intro he
          rw [he, hunl] at htk
          cases htk
        exact Or.inr ⟨t, j', htN, by rw [hst'ne t htne]; exact htk, hentry'⟩
  | some u =>
    have humem : u ∈ (getCTask G t0).unlock := List.getElem?_mem hentry
    obtain ⟨huN, hut0⟩ := mem_unlock_ne hG ht0 humem
    have hjlt : j < (getCTask G t0).unlock.length := lt_length_of_getElem?_some hentry
    -- the counter of u is at least 1
    have hlt := unlocked_lt G DEP hG st ht0 huN hunl hentry
    have hle := h.unlLe u huN
    have hword := h.wordEq u huN
    have hcntlt : (getCTask G u).initial + lockedCnt G st u - unlockedCnt G st u < 2 ^ 62 := by
      have h1 := cnt_bound G DEP hG st u huN
      have h2 : CNT_MASK = 2 ^ 62 - 1 := rfl
      omega
    have hnz : ¬ (getCell s.cells u &&& CNT_MASK = 0) := by
      rw [hword, bits_land_cnt _ _ hcntlt]
      omega
    have hulen : u < s.cells.length := by rw [h.cellsLen]; exact huN
    by_cases hw1 : getCell s.cells u = 1
    · -- the counter hits zero: the task moves to the take CAS on `u`
      refine ⟨Function.update st t0 (.taking j), ?_⟩
      have hstep : doStep G s (.pullUnl t0 j)
          = { s with cells := s.cells.set u (getCell s.cells u - 1),
                     items := .takeUnl t0 j :: s.items.erase (.pullUnl t0 j) } := by
        unfold doStep
        rw [h.notCrashed]
        simp [hmem, hentry, hnz, hw1]
        decide
      rw [hstep]
      set st' := Function.update st t0 (Stage.taking j) with hst'
      have hst'0 : st' t0 = .taking j := Function.update_same ..
      have hst'ne : ∀ t, t ≠ t0 → st' t = st t := fun t ht => Function.update_noteq ht ..
      have hLeq : ∀ t, lockj G t (st' t) = lockj G t (st t) := by
        intro t
        by_cases ht : t = t0
        · subst ht
          rw [hst'0, hunl]
          rfl
        · rw [hst'ne t ht]
      have hlocked : ∀ v, lockedCnt G st' v = lockedCnt G st v := by
        intro v
        unfold lockedCnt
        exact Finset.sum_congr rfl (fun t _ => by rw [hLeq])
      have hunlocked : ∀ v, unlockedCnt G st' v
          = unlockedCnt G st v + (if u = v then 1 else 0) := by
        intro v
        have h1 := unlockedCnt_update G st t0 (.taking j) ht0 v
        rw [hunl, ← hst'] at h1
        have h3 : unlj G t0 (Stage.taking j) = j + 1 := rfl
        have h4 : unlj G t0 (Stage.unlocking j) = j := rfl
        rw [h3, h4, count_take_succ (u := v) hentry] at h1
        by_cases huv : u = v
        · rw [if_pos huv] at h1 ⊢
          omega
        · rw [if_neg huv] at h1 ⊢
          omega
      constructor
      · exact h.notCrashed
      · show (s.cells.set u _).length = G.length
        rw [List.length_set]
        exact h.cellsLen
      · -- subjItems
        intro t ht
        show (Item.takeUnl t0 j :: s.items.erase (.pullUnl t0 j)).filter (isSubjOf t)
            = stageItems t (st' t)
        rw [List.filter_cons, filter_erase _ _ _ hmem]
        by_cases hteq : t = t0
        · subst hteq
          rw [if_pos (by simp [isSubjOf]), if_pos (by simp [isSubjOf]),
              h.subjItems t ht, hunl, hst'0]
          simp [stageItems]
        · have h1 : isSubjOf t (Item.takeUnl t0 j) = false := by
            simp [isSubjOf]
            omega
          have h2 : isSubjOf t (Item.pullUnl t0 j) = false := by
            simp [isSubjOf]
            omega
          rw [if_neg (by simp [h1]), if_neg (by simp [h2]), h.subjItems t ht,
              hst'ne t (fun he => hteq he)]
      · -- seedFilter
        show (Item.takeUnl t0 j :: s.items.erase (.pullUnl t0 j)).filter isPullSeed
            = seedItems sd
        rw [List.filter_cons, if_neg (by simp [isPullSeed]), filter_erase _ _ _ hmem,
            if_neg (by simp [isPullSeed])]
        exact h.seedFilter
      · -- itemsCover
        intro it hit
        rcases List.mem_cons.mp hit with he | hit'
        · subst he
          exact Or.inr ⟨t0, ht0, by simp [isSubjOf]⟩
        · exact h.itemsCover it (List.mem_of_mem_erase hit')
      · -- logCount
        intro t ht
        show s.log.count t = execsOf (st' t)
        rw [h.logCount t ht]
        by_cases hteq : t = t0
        · subst hteq
          rw [hunl, hst'0]
          rfl
        · rw [hst'ne t hteq]
      · exact h.logMem
      · -- takeCount
        intro t ht
        show s.takes.count t = takesOf (st' t)
        rw [h.takeCount t ht]
        by_cases hteq : t = t0
        · subst hteq
          rw [hunl, hst'0]
          rfl
        · rw [hst'ne t hteq]
      · exact h.takeMem
      · -- stageWF
        intro t ht
        by_cases hteq : t = t0
        · subst hteq
          rw [hst'0]
          show j < (getCTask G t).unlock.length
          exact hjlt
        · rw [hst'ne t hteq]
          exact h.stageWF t ht
      · -- unlLe
        intro v hv
        rw [hlocked, hunlocked]
        by_cases huv : u = v
        · rw [if_pos huv]
          subst huv
          omega
        · rw [if_neg huv]
          have := h.unlLe v hv
          omega
      · -- wordEq
        intro v hv
        show getCell (s.cells.set u (getCell s.cells u - 1)) v = _
        rw [getCell_set _ _ _ _ hulen, hlocked, hunlocked]
        by_cases hveq : v = u
        · subst hveq
          rw [if_pos rfl, if_pos rfl, hst'ne v hut0]
          omega
        · rw [if_neg hveq, if_neg (fun he => hveq he.symm)]
          by_cases hvt : v = t0
          · subst hvt
            rw [hst'0, h.wordEq v hv, hunl]
            have hb : bitsOf (Stage.taking j) = bitsOf (Stage.unlocking j) := rfl
            omega
          · rw [hst'ne v hvt]
            have := h.wordEq v hv
            omega
      · -- embUnl
        intro v hv jv t j' hlk
        rcases update_eq_cases hlk with ⟨_, habs⟩ | ⟨hne, hlk'⟩
        · cases habs
        · obtain ⟨htN, hsusp, hvt⟩ := h.embUnl v hv jv t j' hlk'
          refine ⟨htN, ?_, hvt⟩
          have htne : t ≠ t0 := by
            intro he
            rw [he, hunl] at hsusp
            cases hsusp
          rw [hst'ne t htne]
          exact hsusp
      · -- suspEx
        intro t ht j' hsusp
        rcases update_eq_cases hsusp with ⟨_, habs⟩ | ⟨hne, hsusp'⟩
        · cases habs
        · obtain ⟨v, hvN, jv, hlk⟩ := h.suspEx t ht j' hsusp'
          have hvne : v ≠ t0 := by
            intro he
            rw [he, hunl] at hlk
            cases hlk
          exact ⟨v, hvN, jv, by rw [hst'ne v hvne]; exact hlk⟩
      · -- suspUnique
        intro t j' v v' hv hv' h1 h2
        obtain ⟨jv, h1'⟩ := h1
        obtain ⟨jv', h2'⟩ := h2
        rcases update_eq_cases h1' with ⟨_, habs⟩ | ⟨_, h1''⟩
        · cases habs
        rcases update_eq_cases h2' with ⟨_, habs⟩ | ⟨_, h2''⟩
        · cases habs
        exact h.suspUnique t j' v v' hv hv' ⟨jv, h1''⟩ ⟨jv', h2''⟩
      · -- seedEmb
        intro v hv jv i hlk
        rcases update_eq_cases hlk with ⟨_, habs⟩ | ⟨_, hlk'⟩
        · cases habs
        · exact h.seedEmb v hv jv i hlk'
      · -- seedEmbEx
        intro i hsd
        obtain ⟨v, hvN, jv, hlk⟩ := h.seedEmbEx i hsd
        have hvne : v ≠ t0 := by
          intro he
          rw [he, hunl] at hlk
          cases hlk
        exact ⟨v, hvN, jv, by rw [hst'ne v hvne]; exact hlk⟩
      · -- seedUnique
        intro v v' jv jv' i i' hv hv' h1 h2
        rcases update_eq_cases h1 with ⟨_, habs⟩ | ⟨_, h1'⟩
        · cases habs
        rcases update_eq_cases h2 with ⟨_, habs⟩ | ⟨_, h2'⟩
        · cases habs
        exact h.seedUnique v v' jv jv' i i' hv hv' h1' h2'
      · -- ready
        intro v hv hidle hcnt
        rcases update_eq_cases hidle with ⟨_, habs⟩ | ⟨hne, hidle'⟩
        · cases habs
        rw [hlocked, hunlocked] at hcnt
        by_cases huv : u = v
        · subst huv
          exact Or.inr ⟨t0, j, ht0, hst'0, hentry⟩
        · rw [if_neg huv, Nat.add_zero] at hcnt
          rcases h.ready v hv hidle' hcnt with hl | ⟨t, j', htN, htk, hentry'⟩
          · exact Or.inl hl
          · have htne : t ≠ t0 := by
              intro he
              rw [he, hunl] at htk
              cases htk
            exact Or.inr ⟨t, j', htN, by rw [hst'ne t htne]; exact htk, hentry'⟩
    · -- the counter stays positive: the iterator advances to entry j+1
      refine ⟨Function.update st t0 (.unlocking (j + 1)), ?_⟩
      have hstep : doStep G s (.pullUnl t0 j)
          = { s with cells := s.cells.set u (getCell s.cells u - 1),
                     items := .pullUnl t0 (j + 1) :: s.items.erase (.pullUnl t0 j) } := by
        unfold doStep
        rw [h.notCrashed]
        simp [hmem, hentry, hnz, hw1]
      rw [hstep]
      set st' := Function.update st t0 (Stage.unlocking (j + 1)) with hst'
      have hst'0 : st' t0 = .unlocking (j + 1) := Function.update_same ..
      have hst'ne : ∀ t, t ≠ t0 → st' t = st t := fun t ht => Function.update_noteq ht ..
      have hLeq : ∀ t, lockj G t (st' t) = lockj G t (st t) := by
        intro t
        by_cases ht : t = t0
        · subst ht
          rw [hst'0, hunl]
          rfl
        · rw [hst'ne t ht]
      have hlocked : ∀ v, lockedCnt G st' v = lockedCnt G st v := by
        intro v
        unfold lockedCnt
        exact Finset.sum_congr rfl (fun t _ => by rw [hLeq])
      have hunlocked : ∀ v, unlockedCnt G st' v
          = unlockedCnt G st v + (if u = v then 1 else 0) := by
        intro v
        have h1 := unlockedCnt_update G st t0 (.unlocking (j + 1)) ht0 v
        rw [hunl, ← hst'] at h1
        have h3 : unlj G t0 (Stage.unlocking (j + 1)) = j + 1 := rfl
        have h4 : unlj G t0 (Stage.unlocking j) = j := rfl
        rw [h3, h4, count_take_succ (u := v) hentry] at h1
        by_cases huv : u = v
        · rw [if_pos huv] at h1 ⊢
          omega
        · rw [if_neg huv] at h1 ⊢
          omega
      constructor
      · exact h.notCrashed
      · show (s.cells.set u _).length = G.length
        rw [List.length_set]
        exact h.cellsLen
      · -- subjItems
        intro t ht
        show (Item.pullUnl t0 (j + 1) :: s.items.erase (.pullUnl t0 j)).filter (isSubjOf t)
            = stageItems t (st' t)
        rw [List.filter_cons, filter_erase _ _ _ hmem]
        by_cases hteq : t = t0
        · subst hteq
          rw [if_pos (by simp [isSubjOf]), if_pos (by simp [isSubjOf]),
              h.subjItems t ht, hunl, hst'0]
          simp [stageItems]
        · have h1 : isSubjOf t (Item.pullUnl t0 (j + 1)) = false := by
            simp [isSubjOf]
            omega
          have h2 : isSubjOf t (Item.pullUnl t0 j) = false := by
            simp [isSubjOf]
            omega
          rw [if_neg (by simp [h1]), if_neg (by simp [h2]), h.subjItems t ht,
              hst'ne t (fun he => hteq he)]
      · -- seedFilter
        show (Item.pullUnl t0 (j + 1) :: s.items.erase (.pullUnl t0 j)).filter isPullSeed
            = seedItems sd
        rw [List.filter_cons, if_neg (by simp [isPullSeed]), filter_erase _ _ _ hmem,
            if_neg (by simp [isPullSeed])]
        exact h.seedFilter
      · -- itemsCover
        intro it hit
        rcases List.mem_cons.mp hit with he | hit'
        · subst he
          exact Or.inr ⟨t0, ht0, by simp [isSubjOf]⟩
        · exact h.itemsCover it (List.mem_of_mem_erase hit')
      · -- logCount
        intro t ht
        show s.log.count t = execsOf (st' t)
        rw [h.logCount t ht]
        by_cases hteq : t = t0
        · subst hteq
          rw [hunl, hst'0]
          rfl
        · rw [hst'ne t hteq]
      · exact h.logMem
      · -- takeCount
        intro t ht
        show s.takes.count t = takesOf (st' t)
        rw [h.takeCount t ht]
        by_cases hteq : t = t0
        · subst hteq
          rw [hunl, hst'0]
          rfl
        · rw [hst'ne t hteq]
      · exact h.takeMem
      · -- stageWF
        intro t ht
        by_cases hteq : t = t0
        · subst hteq
          rw [hst'0]
          show j + 1 ≤ (getCTask G t).unlock.length
          omega
        · rw [hst'ne t hteq]
          exact h.stageWF t ht
      · -- unlLe
        intro v hv
        rw [hlocked, hunlocked]
        by_cases huv : u = v
        · rw [if_pos huv]
          subst huv
          omega
        · rw [if_neg huv]
          have := h.unlLe v hv
          omega
      · -- wordEq
        intro v hv
        show getCell (s.cells.set u (getCell s.cells u - 1)) v = _
        rw [getCell_set _ _ _ _ hulen, hlocked, hunlocked]
        by_cases hveq : v = u
        · subst hveq
          rw [if_pos rfl, if_pos rfl, hst'ne v hut0]
          omega
        · rw [if_neg hveq, if_neg (fun he => hveq he.symm)]
          by_cases hvt : v = t0
          · subst hvt
            rw [hst'0, h.wordEq v hv, hunl]
            have hb : bitsOf (Stage.unlocking (j + 1)) = bitsOf (Stage.unlocking j) := rfl
            omega
          · rw [hst'ne v hvt]
            have := h.wordEq v hv
            omega
      · -- embUnl
        intro v hv jv t j' hlk
        rcases update_eq_cases hlk with ⟨_, habs⟩ | ⟨hne, hlk'⟩
        · cases habs
        · obtain ⟨htN, hsusp, hvt⟩ := h.embUnl v hv jv t j' hlk'
          refine ⟨htN, ?_, hvt⟩
          have htne : t ≠ t0 := by
            intro he
            rw [he, hunl] at hsusp
            cases hsusp
          rw [hst'ne t htne]
          exact hsusp
      · -- suspEx
        intro t ht j' hsusp
        rcases update_eq_cases hsusp with ⟨_, habs⟩ | ⟨hne, hsusp'⟩
        · cases habs
        · obtain ⟨v, hvN, jv, hlk⟩ := h.suspEx t ht j' hsusp'
          have hvne : v ≠ t0 := by
            intro he
            rw [he, hunl] at hlk
            cases hlk
          exact ⟨v, hvN, jv, by rw [hst'ne v hvne]; exact hlk⟩
      · -- suspUnique
        intro t j' v v' hv hv' h1 h2
        obtain ⟨jv, h1'⟩ := h1
        obtain ⟨jv', h2'⟩ := h2
        rcases update_eq_cases h1' with ⟨_, habs⟩ | ⟨_, h1''⟩
        · cases habs
        rcases update_eq_cases h2' with ⟨_, habs⟩ | ⟨_, h2''⟩
        · cases habs
        exact h.suspUnique t j' v v' hv hv' ⟨jv, h1''⟩ ⟨jv', h2''⟩
      · -- seedEmb
        intro v hv jv i hlk
        rcases update_eq_cases hlk with ⟨_, habs⟩ | ⟨_, hlk'⟩
        · cases habs
        · exact h.seedEmb v hv jv i hlk'
      · -- seedEmbEx
        intro i hsd
        obtain ⟨v, hvN, jv, hlk⟩ := h.seedEmbEx i hsd
        have hvne : v ≠ t0 := by
          intro he
          rw [he, hunl] at hlk
          cases hlk
        exact ⟨v, hvN, jv, by rw [hst'ne v hvne]; exact hlk⟩
      · -- seedUnique
        intro v v' jv jv' i i' hv hv' h1 h2
        rcases update_eq_cases h1 with ⟨_, habs⟩ | ⟨_, h1'⟩
        · cases habs
        rcases update_eq_cases h2 with ⟨_, habs⟩ | ⟨_, h2'⟩
        · cases habs
        exact h.seedUnique v v' jv jv' i i' hv hv' h1' h2'
      · -- ready
        intro v hv hidle hcnt
        rcases update_eq_cases hidle with ⟨_, habs⟩ | ⟨hne, hidle'⟩
        · cases habs
        rw [hlocked, hunlocked] at hcnt
        by_cases huv : u = v
        · subst huv
          rw [if_pos rfl] at hcnt
          exfalso
          apply hw1
          rw [hword, hidle']
          have hb : bitsOf Stage.idle = 0 := rfl
          omega
        · rw [if_neg huv, Nat.add_zero] at hcnt
          rcases h.ready v hv hidle' hcnt with hl | ⟨t, j', htN, htk, hentry'⟩
          · exact Or.inl hl
          · have htne : t ≠ t0 := by
              intro he
              rw [he, hunl] at htk
              cases htk
            exact Or.inr ⟨t, j', htN, by rw [hst'ne t htne]; exact htk, hentry'⟩

/-- Preservation for a `takeUnl` step: the take CAS on the just-zeroed
dependant either succeeds (its lock phase starts, embedding `t0`'s
iterator as the continuation) or fails (the iterator advances). -/
theorem inv_step_takeUnl {G : List CTask} {DEP : Nat → List Nat} (hG : GoodGraph G DEP)
    {s : RState} {st : Nat → Stage} {sd : SeedSt} (h : Inv G s st sd)
    (t0 j : Nat) (hmem : Item.takeUnl t0 j ∈ s.items) :
    ∃ st', Inv G (doStep G s (.takeUnl t0 j)) st' sd := by
  have ht0 : t0 < G.length := subj_lt_of_mem h hmem rfl
      (fun t ht => by simpa [isSubjOf] using ht)
  have htak : st t0 = .taking j :=
    stage_eq_of_takeUnl_mem (stage_of_mem_subj h ht0 hmem (by simp [isSubjOf]))
  have hjlt : j < (getCTask G t0).unlock.length := by
    have h1 := h.stageWF t0 ht0
    rw [htak] at h1
    exact h1
  obtain ⟨u, hentry⟩ : ∃ u, (getCTask G t0).unlock[j]? = some u :=
    ⟨_, List.getElem?_eq_getElem hjlt⟩
  have humem : u ∈ (getCTask G t0).unlock := List.getElem?_mem hentry
  obtain ⟨huN, hut0⟩ := mem_unlock_ne hG ht0 humem
  have hulen : u < s.cells.length := by rw [h.cellsLen]; exact huN
  by_cases hw0 : getCell s.cells u = 0
  · -- the CAS succeeds: u starts locking, t0's iterator is embedded
    have hword := h.wordEq u huN
    have hle := h.unlLe u huN
    rw [hw0] at hword
    have hbits0 : bitsOf (st u) = 0 := by omega
    have hidleu : st u = .idle := (bits_eq_zero_iff _).mp hbits0
    have hcnt0 : unlockedCnt G st u = (getCTask G u).initial + lockedCnt G st u := by
      omega
    refine ⟨Function.update (Function.update st t0 (.suspended (j + 1))) u
      (.locking 0 (.unlK t0 (j + 1))), ?_⟩
    have hstep : doStep G s (.takeUnl t0 j)
        = { s with cells := s.cells.set u LOCK_BIT,
                   takes := s.takes ++ [u],
                   items := .lockPh u 0 (.unlK t0 (j + 1)) :: s.items.erase (.takeUnl t0 j) } := by
      unfold doStep
      rw [h.notCrashed]
      simp [hmem, hentry, hw0]
    rw [hstep]
    set st' := Function.update (Function.update st t0 (.suspended (j + 1))) u
      (.locking 0 (.unlK t0 (j + 1))) with hst'
    have hst'u : st' u = .locking 0 (.unlK t0 (j + 1)) := Function.update_same ..
    have hst't0 : st' t0 = .suspended (j + 1) := by
      rw [hst', Function.update_noteq (fun he => hut0 he.symm), Function.update_same]
    have hst'ne : ∀ t, t ≠ t0 → t ≠ u → st' t = st t := fun t ht htu => by
      rw [hst', Function.update_noteq htu, Function.update_noteq ht]
    have hLeq : ∀ t, lockj G t (st' t) = lockj G t (st t) := by
      intro t
      by_cases htu : t = u
      · subst htu
        rw [hst'u, hidleu]
        rfl
      · by_cases htt : t = t0
        · subst htt
          rw [hst't0, htak]
          rfl
        · rw [hst'ne t htt htu]
    have hUeq : ∀ t, unlj G t (st' t) = unlj G t (st t) := by
      intro t
      by_cases htu : t = u
      · subst htu
        rw [hst'u, hidleu]
        rfl
      · by_cases htt : t = t0
        · subst htt
          rw [hst't0, htak]
          rfl
        · rw [hst'ne t htt htu]
    have hlocked : ∀ v, lockedCnt G st' v = lockedCnt G st v := by
      intro v
      unfold lockedCnt
      exact Finset.sum_congr rfl (fun t _ => by rw [hLeq])
    have hunlocked : ∀ v, unlockedCnt G st' v = unlockedCnt G st v := by
      intro v
      unfold unlockedCnt
      exact Finset.sum_congr rfl (fun t _ => by rw [hUeq])
    constructor
    · exact h.notCrashed
    · show (s.cells.set u _).length = G.length
      rw [List.length_set]
      exact h.cellsLen
    · -- subjItems
      intro t ht
      show (Item.lockPh u 0 (Cont.unlK t0 (j + 1))
          :: s.items.erase (.takeUnl t0 j)).filter (isSubjOf t) = stageItems t (st' t)
      rw [List.filter_cons, filter_erase _ _ _ hmem]
      by_cases htu : t = u
      · subst htu
        rw [if_pos (by simp [isSubjOf]), if_neg (by simp [isSubjOf]; omega),
            h.subjItems t ht, hidleu, hst'u]
        simp [stageItems]
      · by_cases htt : t = t0
        · subst htt
          rw [if_neg (by simp [isSubjOf]; omega), if_pos (by simp [isSubjOf]),
              h.subjItems t ht, htak, hst't0]
          simp [stageItems]
        · have h1 : isSubjOf t (Item.lockPh u 0 (Cont.unlK t0 (j + 1))) = false := by
            simp [isSubjOf]
            omega
          have h2 : isSubjOf t (Item.takeUnl t0 j) = false := by
            simp [isSubjOf]
            omega
          rw [if_neg (by simp [h1]), if_neg (by simp [h2]), h.subjItems t ht,
              hst'ne t htt htu]
    · -- seedFilter
      show (Item.lockPh u 0 (Cont.unlK t0 (j + 1))
          :: s.items.erase (.takeUnl t0 j)).filter isPullSeed = seedItems sd
      rw [List.filter_cons, if_neg (by simp [isPullSeed]), filter_erase _ _ _ hmem,
          if_neg (by simp [isPullSeed])]
      exact h.seedFilter
    · -- itemsCover
      intro it hit
      rcases List.mem_cons.mp hit with he | hit'
      · subst he
        exact Or.inr ⟨u, huN, by simp [isSubjOf]⟩
      · exact h.itemsCover it (List.mem_of_mem_erase hit')
    · -- logCount
      intro t ht
      show s.log.count t = execsOf (st' t)
      rw [h.logCount t ht]
      by_cases htu : t = u
      · subst htu
        rw [hst'u, hidleu]
        rfl
      · by_cases htt : t = t0
        · subst htt
          rw [hst't0, htak]
          rfl
        · rw [hst'ne t htt htu]
    · exact h.logMem
    · -- takeCount
      intro t ht
      show (s.takes ++ [u]).count t = takesOf (st' t)
      rw [List.count_append, h.takeCount t ht]
      by_cases htu : t = u
      · subst htu
        rw [hst'u, hidleu]
        simp [takesOf]
      · have hc : List.count t [u] = 0 := by
          rw [List.count_eq_zero]
          simp
          omega
        rw [hc]
        by_cases htt : t = t0
        · subst htt
          rw [hst't0, htak]
          rfl
        · rw [hst'ne t htt htu]
          omega
    · -- takeMem
      intro x hx
      rcases List.mem_append.mp hx with h1 | h2
      · exact h.takeMem x h1
      · rw [List.mem_singleton] at h2
        rw [h2]
        exact huN
    · -- stageWF
      intro t ht
      by_cases htu : t = u
      · subst htu
        rw [hst'u]
        show (0 : Nat) ≤ _
        exact Nat.zero_le _
      · by_cases htt : t = t0
        · subst htt
          rw [hst't0]
          show j + 1 ≤ (getCTask G t).unlock.length
          omega
        · rw [hst'ne t htt htu]
          exact h.stageWF t ht
    · -- unlLe
      intro v hv
      rw [hlocked, hunlocked]
      exact h.unlLe v hv
    · -- wordEq
      intro v hv
      show getCell (s.cells.set u LOCK_BIT) v = _
      rw [getCell_set _ _ _ _ hulen, hlocked, hunlocked]
      by_cases hveq : v = u
      · subst hveq
        rw [if_pos rfl, hst'u]
        have hb : bitsOf (Stage.locking 0 (Cont.unlK t0 (j + 1))) = LOCK_BIT := rfl
        omega
      · rw [if_neg hveq]
        by_cases hvt : v = t0
        · subst hvt
          rw [hst't0, h.wordEq v hv, htak]
          have hb : bitsOf (Stage.suspended (j + 1)) = bitsOf (Stage.taking j) := rfl
          omega
        · rw [hst'ne v hvt hveq]
          exact h.wordEq v hv
    · -- embUnl
      intro v hv jv t j' hlk
      by_cases hvu : v = u
      · subst hvu
        rw [hst'u] at hlk
        injection hlk with h1 h2
        injection h2 with h3 h4
        subst h3
        subst h4
        exact ⟨ht0, hst't0, hut0⟩
      · have hvt0 : v ≠ t0 := by
          intro he
          rw [he, hst't0] at hlk
          cases hlk
        rw [hst'ne v hvt0 hvu] at hlk
        obtain ⟨htN, hsusp, hvt'⟩ := h.embUnl v hv jv t j' hlk
        have htt0 : t ≠ t0 := by
          intro he
          rw [he, htak] at hsusp
          cases hsusp
        have htu2 : t ≠ u := by
          intro he
          rw [he, hidleu] at hsusp
          cases hsusp
        exact ⟨htN, by rw [hst'ne t htt0 htu2]; exact hsusp, hvt'⟩
    · -- suspEx
      intro t ht j' hsusp
      by_cases htt : t = t0
      · subst htt
        rw [hst't0] at hsusp
        injection hsusp with hj
        subst hj
        exact ⟨u, huN, 0, hst'u⟩
      · have htu2 : t ≠ u := by
          intro he
          rw [he, hst'u] at hsusp
          cases hsusp
        rw [hst'ne t htt htu2] at hsusp
        obtain ⟨v, hvN, jv, hlk⟩ := h.suspEx t ht j' hsusp
        have hvt0 : v ≠ t0 := by
          intro he
          rw [he, htak] at hlk
          cases hlk
        have hvu : v ≠ u := by
          intro he
          rw [he, hidleu] at hlk
          cases hlk
        exact ⟨v, hvN, jv, by rw [hst'ne v hvt0 hvu]; exact hlk⟩
    · -- suspUnique
      intro t j' v v' hv hv' h1 h2
      obtain ⟨jv, h1'⟩ := h1
      obtain ⟨jv', h2'⟩ := h2
      by_cases hvu : v = u
      · by_cases hvu' : v' = u
        · rw [hvu, hvu']
        · exfalso
          rw [hvu, hst'u] at h1'
          injection h1' with ha hb
          injection hb with hc hd
          have hvt0' : v' ≠ t0 := by
            intro he
            rw [he, hst't0] at h2'
            cases h2'
          rw [hst'ne v' hvt0' hvu'] at h2'
          obtain ⟨_, hsusp, _⟩ := h.embUnl v' hv' jv' t j' h2'
          rw [← hc, ← hd, htak] at hsusp
          cases hsusp
      · by_cases hvu' : v' = u
        · exfalso
          rw [hvu', hst'u] at h2'
          injection h2' with ha hb
          injection hb with hc hd
          have hvt0 : v ≠ t0 := by
            intro he
            rw [he, hst't0] at h1'
            cases h1'
          rw [hst'ne v hvt0 hvu] at h1'
          obtain ⟨_, hsusp, _⟩ := h.embUnl v hv jv t j' h1'
          rw [← hc, ← hd, htak] at hsusp
          cases hsusp
        · have hvt0 : v ≠ t0 := by
            intro he
            rw [he, hst't0] at h1'
            cases h1'
          have hvt0' : v' ≠ t0 := by
            intro he
            rw [he, hst't0] at h2'
            cases h2'
          rw [hst'ne v hvt0 hvu] at h1'
          rw [hst'ne v' hvt0' hvu'] at h2'
          exact h.suspUnique t j' v v' hv hv' ⟨jv, h1'⟩ ⟨jv', h2'⟩
    · -- seedEmb
      intro v hv jv i hlk
      by_cases hvu : v = u
      · rw [hvu, hst'u] at hlk
        injection hlk with ha hb
        cases hb
      · have hvt0 : v ≠ t0 := by
          intro he
          rw [he, hst't0] at hlk
          cases hlk
        rw [hst'ne v hvt0 hvu] at hlk
        exact h.seedEmb v hv jv i hlk
    · -- seedEmbEx
      intro i hsd
      obtain ⟨v, hvN, jv, hlk⟩ := h.seedEmbEx i hsd
      have hvt0 : v ≠ t0 := by
        intro he
        rw [he, htak] at hlk
        cases hlk
      have hvu : v ≠ u := by
        intro he
        rw [he, hidleu] at hlk
        cases hlk
      exact ⟨v, hvN, jv, by rw [hst'ne v hvt0 hvu]; exact hlk⟩
    · -- seedUnique
      intro v v' jv jv' i i' hv hv' h1 h2
      have hvu : v ≠ u := by
        intro he
        rw [he, hst'u] at h1
        injection h1 with ha hb
        cases hb
      have hvu' : v' ≠ u := by
        intro he
        rw [he, hst'u] at h2
        injection h2 with ha hb
        cases hb
      have hvt0 : v ≠ t0 := by
        intro he
        rw [he, hst't0] at h1
        cases h1
      have hvt0' : v' ≠ t0 := by
        intro he
        rw [he, hst't0] at h2
        cases h2
      rw [hst'ne v hvt0 hvu] at h1
      rw [hst'ne v' hvt0' hvu'] at h2
      exact h.seedUnique v v' jv jv' i i' hv hv' h1 h2
    · -- ready
      intro v hv hidle hcnt
      have hvu : v ≠ u := by
        intro he
        rw [he, hst'u] at hidle
        cases hidle
      have hvt0 : v ≠ t0 := by
        intro he
        rw [he, hst't0] at hidle
        cases hidle
      rw [hst'ne v hvt0 hvu] at hidle
      rw [hlocked, hunlocked] at hcnt
      rcases h.ready v hv hidle hcnt with hl | ⟨t, j', htN, htk2, hentry'⟩
      · exact Or.inl hl
      · by_cases htt : t = t0
        · exfalso
          rw [htt, htak] at htk2
          injection htk2 with hj
          rw [htt, ← hj, hentry] at hentry'
          injection hentry' with he
          exact hvu he.symm
        · have htu2 : t ≠ u := by
            intro he
            rw [he, hidleu] at htk2
            cases htk2
          exact Or.inr ⟨t, j', htN, by rw [hst'ne t htt htu2]; exact htk2, hentry'⟩
  · -- the CAS fails: the iterator advances to entry j + 1
    refine ⟨Function.update st t0 (.unlocking (j + 1)), ?_⟩
    have hstep : doStep G s (.takeUnl t0 j)
        = { s with items := .pullUnl t0 (j + 1) :: s.items.erase (.takeUnl t0 j) } := by
      unfold doStep
      rw [h.notCrashed]
      simp [hmem, hentry, hw0]
    rw [hstep]
    set st' := Function.update st t0 (Stage.unlocking (j + 1)) with hst'
    have hst'0 : st' t0 = .unlocking (j + 1) := Function.update_same ..
    have hst'ne : ∀ t, t ≠ t0 → st' t = st t := fun t ht => Function.update_noteq ht ..
    have hLeq : ∀ t, lockj G t (st' t) = lockj G t (st t) := by
      intro t
      by_cases ht : t = t0
      · subst ht
        rw [hst'0, htak]
        rfl
      · rw [hst'ne t ht]
    have hUeq : ∀ t, unlj G t (st' t) = unlj G t (st t) := by
      intro t
      by_cases ht : t = t0
      · subst ht
        rw [hst'0, htak]
        rfl
      · rw [hst'ne t ht]
    have hlocked : ∀ v, lockedCnt G st' v = lockedCnt G st v := by
      intro v
      unfold lockedCnt
      exact Finset.sum_congr rfl (fun t _ => by rw [hLeq])
    have hunlocked : ∀ v, unlockedCnt G st' v = unlockedCnt G st v := by
      intro v
      unfold unlockedCnt
      exact Finset.sum_congr rfl (fun t _ => by rw [hUeq])
    constructor
    · exact h.notCrashed
    · exact h.cellsLen
    · -- subjItems
      intro t ht
      show (Item.pullUnl t0 (j + 1) :: s.items.erase (.takeUnl t0 j)).filter (isSubjOf t)
          = stageItems t (st' t)
      rw [List.filter_cons, filter_erase _ _ _ hmem]
      by_cases hteq : t = t0
      · subst hteq
        rw [if_pos (by simp [isSubjOf]), if_pos (by simp [isSubjOf]),
            h.subjItems t ht, htak, hst'0]
        simp [stageItems]
      · have h1 : isSubjOf t (Item.pullUnl t0 (j + 1)) = false := by
          simp [isSubjOf]
          omega
        have h2 : isSubjOf t (Item.takeUnl t0 j) = false := by
          simp [isSubjOf]
          omega
        rw [if_neg (by simp [h1]), if_neg (by simp [h2]), h.subjItems t ht,
            hst'ne t (fun he => hteq he)]
    · -- seedFilter
      show (Item.pullUnl t0 (j + 1) :: s.items.erase (.takeUnl t0 j)).filter isPullSeed
          = seedItems sd
      rw [List.filter_cons, if_neg (by simp [isPullSeed]), filter_erase _ _ _ hmem,
          if_neg (by simp [isPullSeed])]
      exact h.seedFilter
    · -- itemsCover
      intro it hit
      rcases List.mem_cons.mp hit with he | hit'
      · subst he
        exact Or.inr ⟨t0, ht0, by simp [isSubjOf]⟩
      · exact h.itemsCover it (List.mem_of_mem_erase hit')
    · -- logCount
      intro t ht
      show s.log.count t = execsOf (st' t)
      rw [h.logCount t ht]
      by_cases hteq : t = t0
      · subst hteq
        rw [htak, hst'0]
        rfl
      · rw [hst'ne t hteq]
    · exact h.logMem
    · -- takeCount
      intro t ht
      show s.takes.count t = takesOf (st' t)
      rw [h.takeCount t ht]
      by_cases hteq : t = t0
      · subst hteq
        rw [htak, hst'0]
        rfl
      · rw [hst'ne t hteq]
    · exact h.takeMem
    · -- stageWF
      intro t ht
      by_cases hteq : t = t0
      · subst hteq
        rw [hst'0]
        show j + 1 ≤ (getCTask G t).unlock.length
        omega
      · rw [hst'ne t hteq]
        exact h.stageWF t ht
    · -- unlLe
      intro v hv
      rw [hlocked, hunlocked]
      exact h.unlLe v hv
    · -- wordEq
      intro v hv
      show getCell s.cells v = _
      rw [hlocked, hunlocked]
      by_cases hvt : v = t0
      · subst hvt
        rw [hst'0, h.wordEq v hv, htak]
        have hb : bitsOf (Stage.unlocking (j + 1)) = bitsOf (Stage.taking j) := rfl
        omega
      · rw [hst'ne v hvt]
        exact h.wordEq v hv
    · -- embUnl
      intro v hv jv t j' hlk
      rcases update_eq_cases hlk with ⟨_, habs⟩ | ⟨hne, hlk'⟩
      · cases habs
      · obtain ⟨htN, hsusp, hvt'⟩ := h.embUnl v hv jv t j' hlk'
        refine ⟨htN, ?_, hvt'⟩
        have htne : t ≠ t0 := by
          intro he
          rw [he, htak] at hsusp
          cases hsusp
        rw [hst'ne t htne]
        exact hsusp
    · -- suspEx
      intro t ht j' hsusp
      rcases update_eq_cases hsusp with ⟨_, habs⟩ | ⟨hne, hsusp'⟩
      · cases habs
      · obtain ⟨v, hvN, jv, hlk⟩ := h.suspEx t ht j' hsusp'
        have hvne : v ≠ t0 := by
          intro he
          rw [he, htak] at hlk
          cases hlk
        exact ⟨v, hvN, jv, by rw [hst'ne v hvne]; exact hlk⟩
    · -- suspUnique
      intro t j' v v' hv hv' h1 h2
      obtain ⟨jv, h1'⟩ := h1
      obtain ⟨jv', h2'⟩ := h2
      rcases update_eq_cases h1' with ⟨_, habs⟩ | ⟨_, h1''⟩
      · cases habs
      rcases update_eq_cases h2' with ⟨_, habs⟩ | ⟨_, h2''⟩
      · cases habs
      exact h.suspUnique t j' v v' hv hv' ⟨jv, h1''⟩ ⟨jv', h2''⟩
    · -- seedEmb
      intro v hv jv i hlk
      rcases update_eq_cases hlk with ⟨_, habs⟩ | ⟨_, hlk'⟩
      · cases habs
      · exact h.seedEmb v hv jv i hlk'
    · -- seedEmbEx
      intro i hsd
      obtain ⟨v, hvN, jv, hlk⟩ := h.seedEmbEx i hsd
      have hvne : v ≠ t0 := by
        intro he
        rw [he, htak] at hlk
        cases hlk
      exact ⟨v, hvN, jv, by rw [hst'ne v hvne]; exact hlk⟩
    · -- seedUnique
      intro v v' jv jv' i i' hv hv' h1 h2
      rcases update_eq_cases h1 with ⟨_, habs⟩ | ⟨_, h1'⟩
      · cases habs
      rcases update_eq_cases h2 with ⟨_, habs⟩ | ⟨_, h2'⟩
      · cases habs
      exact h.seedUnique v v' jv jv' i i' hv hv' h1' h2'
    · -- ready
      intro v hv hidle hcnt
      rcases update_eq_cases hidle with ⟨_, habs⟩ | ⟨hne, hidle'⟩
      · cases habs
      rw [hlocked, hunlocked] at hcnt
      rcases h.ready v hv hidle' hcnt with hl | ⟨t, j', htN, htk2, hentry'⟩
      · exact Or.inl hl
      · by_cases htt : t = t0
        · exfalso
          rw [htt, htak] at htk2
          injection htk2 with hj
          rw [htt, ← hj, hentry] at hentry'
          injection hentry' with he
          apply hw0
          rw [he, h.wordEq v hv, hidle']
          have hb : bitsOf Stage.idle = 0 := rfl
          omega
        · exact Or.inr ⟨t, j', htN, by rw [hst'ne t htt]; exact htk2, hentry'⟩

/-- Preservation for a `lockPh` step: entry `j` of the lock list gets a
`lock()` increment (never panicking, by the size bound), or — when the
list is exhausted — `join` forks the execute branch and releases the
suspended continuation. -/
theorem inv_step_lockPh {G : List CTask} {DEP : Nat → List Nat} (hG : GoodGraph G DEP)
    {s : RState} {st : Nat → Stage} {sd : SeedSt} (h : Inv G s st sd)
    (t0 j : Nat) (k : Cont) (hmem : Item.lockPh t0 j k ∈ s.items) :
    ∃ st' sd', Inv G (doStep G s (.lockPh t0 j k)) st' sd' := by
  have ht0 : t0 < G.length := subj_lt_of_mem h hmem rfl
      (fun t ht => by simpa [isSubjOf] using ht)
  have hlock : st t0 = .locking j k :=
    stage_eq_of_lockPh_mem (stage_of_mem_subj h ht0 hmem (by simp [isSubjOf]))
  cases hentry : (getCTask G t0).lock[j]? with
  | some u =>
    -- lock(): increment u's counter, advance to entry j + 1
    obtain ⟨huN, hut0⟩ := hG.lockMem t0 ht0 u (List.getElem?_mem hentry)
    have hjlt : j < (getCTask G t0).lock.length := lt_length_of_getElem?_some hentry
    have hulen : u < s.cells.length := by rw [h.cellsLen]; exact huN
    have hword := h.wordEq u huN
    have hle := h.unlLe u huN
    have hcb := cnt_bound G DEP hG st u huN
    have hCM : CNT_MASK = 2 ^ 62 - 1 := rfl
    have hbcases : bitsOf (st u) = 0 ∨ bitsOf (st u) = LOCK_BIT ∨ bitsOf (st u) = COMP_BIT := by
      cases hsu : st u <;> simp [bitsOf]
    have hLK : LOCK_BIT = 2 ^ 63 := rfl
    have hCP : COMP_BIT = 2 ^ 62 := rfl
    have hWD : WORD = 2 ^ 64 := rfl
    have hmod : (getCell s.cells u + 1) % WORD = getCell s.cells u + 1 := by
      apply Nat.mod_eq_of_lt
      rcases hbcases with hb | hb | hb <;> omega
    have hnC : ¬ getCell s.cells u + 1 = COMP_BIT := by
      rcases hbcases with hb | hb | hb <;> omega
    refine ⟨Function.update st t0 (.locking (j + 1) k), sd, ?_⟩
    have hstep : doStep G s (.lockPh t0 j k)
        = { s with cells := s.cells.set u (getCell s.cells u + 1),
                   items := .lockPh t0 (j + 1) k :: s.items.erase (.lockPh t0 j k) } := by
      unfold doStep
      rw [h.notCrashed]
      simp [hmem, hentry, hnC, hmod]
    rw [hstep]
    set st' := Function.update st t0 (Stage.locking (j + 1) k) with hst'
    have hst'0 : st' t0 = .locking (j + 1) k := Function.update_same ..
    have hst'ne : ∀ t, t ≠ t0 → st' t = st t := fun t ht => Function.update_noteq ht ..
    have hconv : ∀ v jv c, st' v = .locking jv c → ∃ jw, st v = .locking jw c := by
      intro v jv c hlk
      rcases update_eq_cases hlk with ⟨hveq, hke⟩ | ⟨hne, hlk'⟩
      · injection hke with h1 h2
        exact ⟨j, by rw [hveq, hlock, h2]⟩
      · exact ⟨jv, hlk'⟩
    have hconv' : ∀ v jw c, st v = .locking jw c → ∃ jv, st' v = .locking jv c := by
      intro v jw c hlk
      by_cases hvt : v = t0
      · rw [hvt, hlock] at hlk
        injection hlk with h1 h2
        exact ⟨j + 1, by rw [hvt, hst'0, h2]⟩
      · exact ⟨jw, by rw [hst'ne v hvt]; exact hlk⟩
    have hUeq : ∀ t, unlj G t (st' t) = unlj G t (st t) := by
      intro t
      by_cases ht : t = t0
      · subst ht
        rw [hst'0, hlock]
        rfl
      · rw [hst'ne t ht]
    have hunlocked : ∀ v, unlockedCnt G st' v = unlockedCnt G st v := by
      intro v
      unfold unlockedCnt
      exact Finset.sum_congr rfl (fun t _ => by rw [hUeq])
    have hlocked : ∀ v, lockedCnt G st' v
        = lockedCnt G st v + (if u = v then 1 else 0) := by
      intro v
      have h1 := lockedCnt_update G st t0 (.locking (j + 1) k) ht0 v
      rw [hlock, ← hst'] at h1
      have h3 : lockj G t0 (Stage.locking (j + 1) k) = j + 1 := rfl
      have h4 : lockj G t0 (Stage.locking j k) = j := rfl
      rw [h3, h4, count_take_succ (u := v) hentry] at h1
      by_cases huv : u = v
      · rw [if_pos huv] at h1 ⊢
        omega
      · rw [if_neg huv] at h1 ⊢
        omega
    constructor
    · exact h.notCrashed
    · show (s.cells.set u _).length = G.length
      rw [List.length_set]
      exact h.cellsLen
    · -- subjItems
      intro t ht
      show (Item.lockPh t0 (j + 1) k :: s.items.erase (.lockPh t0 j k)).filter (isSubjOf t)
          = stageItems t (st' t)
      rw [List.filter_cons, filter_erase _ _ _ hmem]
      by_cases hteq : t = t0
      · subst hteq
        rw [if_pos (by simp [isSubjOf]), if_pos (by simp [isSubjOf]),
            h.subjItems t ht, hlock, hst'0]
        simp [stageItems]
      · have h1 : isSubjOf t (Item.lockPh t0 (j + 1) k) = false := by
          simp [isSubjOf]
          omega
        have h2 : isSubjOf t (Item.lockPh t0 j k) = false := by
          simp [isSubjOf]
          omega
        rw [if_neg (by simp [h1]), if_neg (by simp [h2]), h.subjItems t ht,
            hst'ne t (fun he => hteq he)]
    · -- seedFilter
      show (Item.lockPh t0 (j + 1) k :: s.items.erase (.lockPh t0 j k)).filter isPullSeed
          = seedItems sd
      rw [List.filter_cons, if_neg (by simp [isPullSeed]), filter_erase _ _ _ hmem,
          if_neg (by simp [isPullSeed])]
      exact h.seedFilter
    · -- itemsCover
      intro it hit
      rcases List.mem_cons.mp hit with he | hit'
      · subst he
        exact Or.inr ⟨t0, ht0, by simp [isSubjOf]⟩
      · exact h.itemsCover it (List.mem_of_mem_erase hit')
    · -- logCount
      intro t ht
      show s.log.count t = execsOf (st' t)
      rw [h.logCount t ht]
      by_cases hteq : t = t0
      · subst hteq
        rw [hlock, hst'0]
        rfl
      · rw [hst'ne t hteq]
    · exact h.logMem
    · -- takeCount
      intro t ht
      show s.takes.count t = takesOf (st' t)
      rw [h.takeCount t ht]
      by_cases hteq : t = t0
      · subst hteq
        rw [hlock, hst'0]
        rfl
      · rw [hst'ne t hteq]
    · exact h.takeMem
    · -- stageWF
      intro t ht
      by_cases hteq : t = t0
      · subst hteq
        rw [hst'0]
        show j + 1 ≤ (getCTask G t).lock.length
        omega
      · rw [hst'ne t hteq]
        exact h.stageWF t ht
    · -- unlLe
      intro v hv
      rw [hlocked, hunlocked]
      have := h.unlLe v hv
      by_cases huv : u = v
      · rw [if_pos huv]
        omega
      · rw [if_neg huv]
        omega
    · -- wordEq
      intro v hv
      show getCell (s.cells.set u (getCell s.cells u + 1)) v = _
      rw [getCell_set _ _ _ _ hulen, hlocked, hunlocked]
      by_cases hveq : v = u
      · subst hveq
        rw [if_pos rfl, if_pos rfl, hst'ne v hut0]
        omega
      · rw [if_neg hveq, if_neg (fun he => hveq he.symm)]
        by_cases hvt : v = t0
        · subst hvt
          rw [hst'0, h.wordEq v hv, hlock]
          have hb : bitsOf (Stage.locking (j + 1) k) = bitsOf (Stage.locking j k) := rfl
          omega
        · rw [hst'ne v hvt]
          have := h.wordEq v hv
          omega
    · -- embUnl
      intro v hv jv t j' hlk
      obtain ⟨jw, hlk'⟩ := hconv v jv (.unlK t j') hlk
      obtain ⟨htN, hsusp, hvt'⟩ := h.embUnl v hv jw t j' hlk'
      have htne : t ≠ t0 := by
        intro he
        rw [he, hlock] at hsusp
        cases hsusp
      exact ⟨htN, by rw [hst'ne t htne]; exact hsusp, hvt'⟩
    · -- suspEx
      intro t ht j' hsusp
      have htne : t ≠ t0 := by
        intro he
        rw [he, hst'0] at hsusp
        cases hsusp
      rw [hst'ne t htne] at hsusp
      obtain ⟨v, hvN, jv, hlk⟩ := h.suspEx t ht j' hsusp
      obtain ⟨jv', hlk'⟩ := hconv' v jv _ hlk
      exact ⟨v, hvN, jv', hlk'⟩
    · -- suspUnique
      intro t j' v v' hv hv' h1 h2
      obtain ⟨jv, h1'⟩ := h1
      obtain ⟨jv', h2'⟩ := h2
      obtain ⟨jw, h1''⟩ := hconv v jv _ h1'
      obtain ⟨jw', h2''⟩ := hconv v' jv' _ h2'
      exact h.suspUnique t j' v v' hv hv' ⟨jw, h1''⟩ ⟨jw', h2''⟩
    · -- seedEmb
      intro v hv jv i hlk
      obtain ⟨jw, hlk'⟩ := hconv v jv (.seedK i) hlk
      exact h.seedEmb v hv jw i hlk'
    · -- seedEmbEx
      intro i hsd
      obtain ⟨v, hvN, jv, hlk⟩ := h.seedEmbEx i hsd
      obtain ⟨jv', hlk'⟩ := hconv' v jv _ hlk
      exact ⟨v, hvN, jv', hlk'⟩
    · -- seedUnique
      intro v v' jv jv' i i' hv hv' h1 h2
      obtain ⟨jw, h1'⟩ := hconv v jv _ h1
      obtain ⟨jw', h2'⟩ := hconv v' jv' _ h2
      exact h.seedUnique v v' jw jw' i i' hv hv' h1' h2'
    · -- ready
      intro v hv hidle hcnt
      rcases update_eq_cases hidle with ⟨_, habs⟩ | ⟨hne, hidle'⟩
      · cases habs
      rw [hlocked, hunlocked] at hcnt
      by_cases huv : u = v
      · exfalso
        rw [if_pos huv] at hcnt
        have := h.unlLe v hv
        omega
      · rw [if_neg huv, Nat.add_zero] at hcnt
        rcases h.ready v hv hidle' hcnt with hl | ⟨t, j', htN, htk2, hentry'⟩
        · exact Or.inl hl
        · have htne : t ≠ t0 := by
            intro he
            rw [he, hlock] at htk2
            cases htk2
          exact Or.inr ⟨t, j', htN, by rw [hst'ne t htne]; exact htk2, hentry'⟩
  | none =>
    -- lock list exhausted: join forks exec and resumes the continuation
    have hjfull : j = (getCTask G t0).lock.length := by
      have h1 := h.stageWF t0 ht0
      rw [hlock] at h1
      have h2 : (getCTask G t0).lock.length ≤ j := by
        by_contra hlt2
        rw [List.getElem?_eq_getElem (by omega)] at hentry
        cases hentry
      exact Nat.le_antisymm h1 h2
    have hstep : doStep G s (.lockPh t0 j k)
        = { s with items := .exec t0 :: contItem k :: s.items.erase (.lockPh t0 j k) } := by
      unfold doStep
      rw [h.notCrashed]
      simp [hmem, hentry]
    rw [hstep]
    cases k with
    | seedK i =>
      have hsd : sd = .emb i := h.seedEmb t0 ht0 j i hlock
      refine ⟨Function.update st t0 .running, .free i, ?_⟩
      set st' := Function.update st t0 Stage.running with hst'
      have hst'0 : st' t0 = .running := Function.update_same ..
      have hst'ne : ∀ t, t ≠ t0 → st' t = st t := fun t ht => Function.update_noteq ht ..
      have hLeq : ∀ t, (getCTask G t).lock.take (lockj G t (st' t))
          = (getCTask G t).lock.take (lockj G t (st t)) := by
        intro t
        by_cases ht : t = t0
        · subst ht
          rw [hst'0, hlock]
          show (getCTask G t).lock.take (getCTask G t).lock.length
              = (getCTask G t).lock.take j
          rw [hjfull]
        · rw [hst'ne t ht]
      have hUeq : ∀ t, unlj G t (st' t) = unlj G t (st t) := by
        intro t
        by_cases ht : t = t0
        · subst ht
          rw [hst'0, hlock]
          rfl
        · rw [hst'ne t ht]
      have hlocked : ∀ v, lockedCnt G st' v = lockedCnt G st v := by
        intro v
        unfold lockedCnt
        exact Finset.sum_congr rfl (fun t _ => by rw [hLeq])
      have hunlocked : ∀ v, unlockedCnt G st' v = unlockedCnt G st v := by
        intro v
        unfold unlockedCnt
        exact Finset.sum_congr rfl (fun t _ => by rw [hUeq])
      constructor
      · exact h.notCrashed
      · exact h.cellsLen
      · -- subjItems
        intro t ht
        show (Item.exec t0 :: Item.pullSeed i
            :: s.items.erase (.lockPh t0 j (.seedK i))).filter (isSubjOf t)
            = stageItems t (st' t)
        rw [List.filter_cons, List.filter_cons, filter_erase _ _ _ hmem]
        by_cases hteq : t = t0
        · subst hteq
          rw [if_pos (by simp [isSubjOf]), if_neg (by simp [isSubjOf]),
              if_pos (by simp [isSubjOf]), h.subjItems t ht, hlock, hst'0]
          simp [stageItems]
        · have h1 : isSubjOf t (Item.exec t0) = false := by
            simp [isSubjOf]
            omega
          have h3 : isSubjOf t (Item.lockPh t0 j (Cont.seedK i)) = false := by
            simp [isSubjOf]
            omega
          rw [if_neg (by simp [h1]), if_neg (by simp [isSubjOf]), if_neg (by simp [h3]),
              h.subjItems t ht, hst'ne t (fun he => hteq he)]
      · -- seedFilter
        show (Item.exec t0 :: Item.pullSeed i
            :: s.items.erase (.lockPh t0 j (.seedK i))).filter isPullSeed
            = seedItems (SeedSt.free i)
        rw [List.filter_cons, if_neg (by simp [isPullSeed]), List.filter_cons,
            if_pos (by simp [isPullSeed]), filter_erase _ _ _ hmem,
            if_neg (by simp [isPullSeed]), h.seedFilter, hsd]
        rfl
      · -- itemsCover
        intro it hit
        rcases List.mem_cons.mp hit with he | hit2
        · subst he
          exact Or.inr ⟨t0, ht0, by simp [isSubjOf]⟩
        rcases List.mem_cons.mp hit2 with he | hit3
        · subst he
          exact Or.inl (by simp [contItem, isPullSeed])
        · exact h.itemsCover it (List.mem_of_mem_erase hit3)
      · -- logCount
        intro t ht
        show s.log.count t = execsOf (st' t)
        rw [h.logCount t ht]
        by_cases hteq : t = t0
        · subst hteq
          rw [hlock, hst'0]
          rfl
        · rw [hst'ne t hteq]
      · exact h.logMem
      · -- takeCount
        intro t ht
        show s.takes.count t = takesOf (st' t)
        rw [h.takeCount t ht]
        by_cases hteq : t = t0
        · subst hteq
          rw [hlock, hst'0]
          rfl
        · rw [hst'ne t hteq]
      · exact h.takeMem
      · -- stageWF
        intro t ht
        by_cases hteq : t = t0
        · subst hteq
          rw [hst'0]
          trivial
        · rw [hst'ne t hteq]
          exact h.stageWF t ht
      · -- unlLe
        intro v hv
        rw [hlocked, hunlocked]
        exact h.unlLe v hv
      · -- wordEq
        intro v hv
        show getCell s.cells v = _
        rw [hlocked, hunlocked]
        by_cases hvt : v = t0
        · subst hvt
          rw [hst'0, h.wordEq v hv, hlock]
          have hb : bitsOf Stage.running = bitsOf (Stage.locking j (Cont.seedK i)) := rfl
          omega
        · rw [hst'ne v hvt]
          exact h.wordEq v hv
      · -- embUnl
        intro v hv jv t j' hlk
        have hvt0 : v ≠ t0 := by
          intro he
          rw [he, hst'0] at hlk
          cases hlk
        rw [hst'ne v hvt0] at hlk
        obtain ⟨htN, hsusp, hvt'⟩ := h.embUnl v hv jv t j' hlk
        have htne : t ≠ t0 := by
          intro he
          rw [he, hlock] at hsusp
          cases hsusp
        exact ⟨htN, by rw [hst'ne t htne]; exact hsusp, hvt'⟩
      · -- suspEx
        intro t ht j' hsusp
        have htne : t ≠ t0 := by
          intro he
          rw [he, hst'0] at hsusp
          cases hsusp
        rw [hst'ne t htne] at hsusp
        obtain ⟨v, hvN, jv, hlk⟩ := h.suspEx t ht j' hsusp
        have hvt0 : v ≠ t0 := by
          intro he
          rw [he, hlock] at hlk
          injection hlk with h1 h2
          cases h2
        exact ⟨v, hvN, jv, by rw [hst'ne v hvt0]; exact hlk⟩
      · -- suspUnique
        intro t j' v v' hv hv' h1 h2
        obtain ⟨jv, h1'⟩ := h1
        obtain ⟨jv', h2'⟩ := h2
        have hvt0 : v ≠ t0 := by
          intro he
          rw [he, hst'0] at h1'
          cases h1'
        have hvt0' : v' ≠ t0 := by
          intro he
          rw [he, hst'0] at h2'
          cases h2'
        rw [hst'ne v hvt0] at h1'
        rw [hst'ne v' hvt0'] at h2'
        exact h.suspUnique t j' v v' hv hv' ⟨jv, h1'⟩ ⟨jv', h2'⟩
      · -- seedEmb
        intro v hv jv i' hlk
        have hvt0 : v ≠ t0 := by
          intro he
          rw [he, hst'0] at hlk
          cases hlk
        rw [hst'ne v hvt0] at hlk
        exact absurd (h.seedUnique v t0 jv j i' i hv ht0 hlk hlock) hvt0
      · -- seedEmbEx
        intro i' hsd'
        cases hsd'
      · -- seedUnique
        intro v v' jv jv' i1 i2 hv hv' h1 h2
        have hvt0 : v ≠ t0 := by
          intro he
          rw [he, hst'0] at h1
          cases h1
        have hvt0' : v' ≠ t0 := by
          intro he
          rw [he, hst'0] at h2
          cases h2
        rw [hst'ne v hvt0] at h1
        rw [hst'ne v' hvt0'] at h2
        exact h.seedUnique v v' jv jv' i1 i2 hv hv' h1 h2
      · -- ready
        intro v hv hidle hcnt
        rcases update_eq_cases hidle with ⟨_, habs⟩ | ⟨hne, hidle'⟩
        · cases habs
        rw [hlocked, hunlocked] at hcnt
        rcases h.ready v hv hidle' hcnt with ⟨i2, hi2, hcase⟩ | ⟨t, j', htN, htk2, hentry'⟩
        · rcases hcase with hfree | hemb
          · rw [hsd] at hfree
            cases hfree
          · rw [hsd] at hemb
            injection hemb with hi
            exact Or.inl ⟨i, by omega, Or.inl rfl⟩
        · have htne : t ≠ t0 := by
            intro he
            rw [he, hlock] at htk2
            cases htk2
          exact Or.inr ⟨t, j', htN, by rw [hst'ne t htne]; exact htk2, hentry'⟩
    | unlK t1 j1 =>
      obtain ⟨ht1N, hsusp1, hne1⟩ := h.embUnl t0 ht0 j t1 j1 hlock
      have hwf1 := h.stageWF t1 ht1N
      rw [hsusp1] at hwf1
      refine ⟨Function.update (Function.update st t0 .running) t1 (.unlocking j1), sd, ?_⟩
      set st' := Function.update (Function.update st t0 Stage.running) t1
        (Stage.unlocking j1) with hst'
      have hst't1 : st' t1 = .unlocking j1 := Function.update_same ..
      have hst'0 : st' t0 = .running := by
        rw [hst', Function.update_noteq hne1, Function.update_same]
      have hst'ne : ∀ t, t ≠ t0 → t ≠ t1 → st' t = st t := fun t ht ht1 => by
        rw [hst', Function.update_noteq ht1, Function.update_noteq ht]
      have hLeq : ∀ t, (getCTask G t).lock.take (lockj G t (st' t))
          = (getCTask G t).lock.take (lockj G t (st t)) := by
        intro t
        by_cases ht : t = t0
        · subst ht
          rw [hst'0, hlock]
          show (getCTask G t).lock.take (getCTask G t).lock.length
              = (getCTask G t).lock.take j
          rw [hjfull]
        · by_cases ht1 : t = t1
          · subst ht1
            rw [hst't1, hsusp1]
            rfl
          · rw [hst'ne t ht ht1]
      have hUeq : ∀ t, unlj G t (st' t) = unlj G t (st t) := by
        intro t
        by_cases ht : t = t0
        · subst ht
          rw [hst'0, hlock]
          rfl
        · by_cases ht1 : t = t1
          · subst ht1
            rw [hst't1, hsusp1]
            rfl
          · rw [hst'ne t ht ht1]
      have hlocked : ∀ v, lockedCnt G st' v = lockedCnt G st v := by
        intro v
        unfold lockedCnt
        exact Finset.sum_congr rfl (fun t _ => by rw [hLeq])
      have hunlocked : ∀ v, unlockedCnt G st' v = unlockedCnt G st v := by
        intro v
        unfold unlockedCnt
        exact Finset.sum_congr rfl (fun t _ => by rw [hUeq])
      constructor
      · exact h.notCrashed
      · exact h.cellsLen
      · -- subjItems
        intro t ht
        show (Item.exec t0 :: Item.pullUnl t1 j1
            :: s.items.erase (.lockPh t0 j (.unlK t1 j1))).filter (isSubjOf t)
            = stageItems t (st' t)
        rw [List.filter_cons, List.filter_cons, filter_erase _ _ _ hmem]
        by_cases hteq : t = t0
        · subst hteq
          rw [if_pos (by simp [isSubjOf]), if_neg (by simp [isSubjOf]; omega),
              if_pos (by simp [isSubjOf]), h.subjItems t ht, hlock, hst'0]
          simp [stageItems]
        · by_cases hteq1 : t = t1
          · subst hteq1
            rw [if_neg (by simp [isSubjOf]; omega), if_pos (by simp [isSubjOf]),
                if_neg (by simp [isSubjOf]; omega), h.subjItems t ht, hsusp1, hst't1]
            simp [stageItems]
          · have h1 : isSubjOf t (Item.exec t0) = false := by
              simp [isSubjOf]
              omega
            have h2 : isSubjOf t (Item.pullUnl t1 j1) = false := by
              simp [isSubjOf]
              omega
            have h3 : isSubjOf t (Item.lockPh t0 j (Cont.unlK t1 j1)) = false := by
              simp [isSubjOf]
              omega
            rw [if_neg (by simp [h1]), if_neg (by simp [h2]), if_neg (by simp [h3]),
                h.subjItems t ht, hst'ne t (fun he => hteq he) (fun he => hteq1 he)]
      · -- seedFilter
        show (Item.exec t0 :: Item.pullUnl t1 j1
            :: s.items.erase (.lockPh t0 j (.unlK t1 j1))).filter isPullSeed
            = seedItems sd
        rw [List.filter_cons, if_neg (by simp [isPullSeed]), List.filter_cons,
            if_neg (by simp [isPullSeed]), filter_erase _ _ _ hmem,
            if_neg (by simp [isPullSeed])]
        exact h.seedFilter
      · -- itemsCover
        intro it hit
        rcases List.mem_cons.mp hit with he | hit2
        · subst he
          exact Or.inr ⟨t0, ht0, by simp [isSubjOf]⟩
        rcases List.mem_cons.mp hit2 with he | hit3
        · subst he
          exact Or.inr ⟨t1, ht1N, by simp [contItem, isSubjOf]⟩
        · exact h.itemsCover it (List.mem_of_mem_erase hit3)
      · -- logCount
        intro t ht
        show s.log.count t = execsOf (st' t)
        rw [h.logCount t ht]
        by_cases hteq : t = t0
        · subst hteq
          rw [hlock, hst'0]
          rfl
        · by_cases hteq1 : t = t1
          · subst hteq1
            rw [hsusp1, hst't1]
            rfl
          · rw [hst'ne t hteq hteq1]
      · exact h.logMem
      · -- takeCount
        intro t ht
        show s.takes.count t = takesOf (st' t)
        rw [h.takeCount t ht]
        by_cases hteq : t = t0
        · subst hteq
          rw [hlock, hst'0]
          rfl
        · by_cases hteq1 : t = t1
          · subst hteq1
            rw [hsusp1, hst't1]
            rfl
          · rw [hst'ne t hteq hteq1]
      · exact h.takeMem
      · -- stageWF
        intro t ht
        by_cases hteq : t = t0
        · subst hteq
          rw [hst'0]
          trivial
        · by_cases hteq1 : t = t1
          · subst hteq1
            rw [hst't1]
            exact hwf1
          · rw [hst'ne t hteq hteq1]
            exact h.stageWF t ht
      · -- unlLe
        intro v hv
        rw [hlocked, hunlocked]
        exact h.unlLe v hv
      · -- wordEq
        intro v hv
        show getCell s.cells v = _
        rw [hlocked, hunlocked]
        by_cases hvt : v = t0
        · subst hvt
          rw [hst'0, h.wordEq v hv, hlock]
          have hb : bitsOf Stage.running = bitsOf (Stage.locking j (Cont.unlK t1 j1)) := rfl
          omega
        · by_cases hvt1 : v = t1
          · subst hvt1
            rw [hst't1, h.wordEq v hv, hsusp1]
            have hb : bitsOf (Stage.unlocking j1) = bitsOf (Stage.suspended j1) := rfl
            omega
          · rw [hst'ne v hvt hvt1]
            exact h.wordEq v hv
      · -- embUnl
        intro v hv jv t j' hlk
        have hvt0 : v ≠ t0 := by
          intro he
          rw [he, hst'0] at hlk
          cases hlk
        have hvt1 : v ≠ t1 := by
          intro he
          rw [he, hst't1] at hlk
          cases hlk
        rw [hst'ne v hvt0 hvt1] at hlk
        obtain ⟨htN, hsusp, hvt'⟩ := h.embUnl v hv jv t j' hlk
        have htne0 : t ≠ t0 := by
          intro he
          rw [he, hlock] at hsusp
          cases hsusp
        have htne1 : t ≠ t1 := by
          intro he
          rw [he, hsusp1] at hsusp
          injection hsusp with hj
          rw [← he, hj] at hlock
          exact hvt0 (h.suspUnique t j' v t0 hv ht0 ⟨jv, hlk⟩ ⟨j, hlock⟩)
        exact ⟨htN, by rw [hst'ne t htne0 htne1]; exact hsusp, hvt'⟩
      · -- suspEx
        intro t ht j' hsusp
        have htne0 : t ≠ t0 := by
          intro he
          rw [he, hst'0] at hsusp
          cases hsusp
        have htne1 : t ≠ t1 := by
          intro he
          rw [he, hst't1] at hsusp
          cases hsusp
        rw [hst'ne t htne0 htne1] at hsusp
        obtain ⟨v, hvN, jv, hlk⟩ := h.suspEx t ht j' hsusp
        have hvt0 : v ≠ t0 := by
          intro he
          rw [he, hlock] at hlk
          injection hlk with h1 h2
          injection h2 with h3 h4
          exact htne1 h3.symm
        have hvt1 : v ≠ t1 := by
          intro he
          rw [he, hsusp1] at hlk
          cases hlk
        exact ⟨v, hvN, jv, by rw [hst'ne v hvt0 hvt1]; exact hlk⟩
      · -- suspUnique
        intro t j' v v' hv hv' h1 h2
        obtain ⟨jv, h1'⟩ := h1
        obtain ⟨jv', h2'⟩ := h2
        have hvt0 : v ≠ t0 := by
          intro he
          rw [he, hst'0] at h1'
          cases h1'
        have hvt1 : v ≠ t1 := by
          intro he
          rw [he, hst't1] at h1'
          cases h1'
        have hvt0' : v' ≠ t0 := by
          intro he
          rw [he, hst'0] at h2'
          cases h2'
        have hvt1' : v' ≠ t1 := by
          intro he
          rw [he, hst't1] at h2'
          cases h2'
        rw [hst'ne v hvt0 hvt1] at h1'
        rw [hst'ne v' hvt0' hvt1'] at h2'
        exact h.suspUnique t j' v v' hv hv' ⟨jv, h1'⟩ ⟨jv', h2'⟩
      · -- seedEmb
        intro v hv jv i hlk
        have hvt0 : v ≠ t0 := by
          intro he
          rw [he, hst'0] at hlk
          cases hlk
        have hvt1 : v ≠ t1 := by
          intro he
          rw [he, hst't1] at hlk
          cases hlk
        rw [hst'ne v hvt0 hvt1] at hlk
        exact h.seedEmb v hv jv i hlk
      · -- seedEmbEx
        intro i hsd2
        obtain ⟨v, hvN, jv, hlk⟩ := h.seedEmbEx i hsd2
        have hvt0 : v ≠ t0 := by
          intro he
          rw [he, hlock] at hlk
          injection hlk with h1 h2
          cases h2
        have hvt1 : v ≠ t1 := by
          intro he
          rw [he, hsusp1] at hlk
          cases hlk
        exact ⟨v, hvN, jv, by rw [hst'ne v hvt0 hvt1]; exact hlk⟩
      · -- seedUnique
        intro v v' jv jv' i1 i2 hv hv' h1 h2
        have hvt0 : v ≠ t0 := by
          intro he
          rw [he, hst'0] at h1
          cases h1
        have hvt1 : v ≠ t1 := by
          intro he
          rw [he, hst't1] at h1
          cases h1
        have hvt0' : v' ≠ t0 := by
          intro he
          rw [he, hst'0] at h2
          cases h2
        have hvt1' : v' ≠ t1 := by
          intro he
          rw [he, hst't1] at h2
          cases h2
        rw [hst'ne v hvt0 hvt1] at h1
        rw [hst'ne v' hvt0' hvt1'] at h2
        exact h.seedUnique v v' jv jv' i1 i2 hv hv' h1 h2
      · -- ready
        intro v hv hidle hcnt
        have hvt0 : v ≠ t0 := by
          intro he
          rw [he, hst'0] at hidle
          cases hidle
        have hvt1 : v ≠ t1 := by
          intro he
          rw [he, hst't1] at hidle
          cases hidle
        rw [hst'ne v hvt0 hvt1] at hidle
        rw [hlocked, hunlocked] at hcnt
        rcases h.ready v hv hidle hcnt with hl | ⟨t, j', htN, htk2, hentry'⟩
        · exact Or.inl hl
        · have htne0 : t ≠ t0 := by
            intro he
            rw [he, hlock] at htk2
            cases htk2
          have htne1 : t ≠ t1 := by
            intro he
            rw [he, hsusp1] at htk2
            cases htk2
          exact Or.inr ⟨t, j', htN, by rw [hst'ne t htne0 htne1]; exact htk2, hentry'⟩

/-- Preservation for a `pullSeed` step: the seed iterator dies past the
end, takes an unstarted task (opening its lock phase and embedding the
advanced cursor), or skips a non-zero cell and advances. -/
theorem inv_step_pullSeed {G : List CTask} {DEP : Nat → List Nat} (hG : GoodGraph G DEP)
    {s : RState} {st : Nat → Stage} {sd : SeedSt} (h : Inv G s st sd)
    (i : Nat) (hmem : Item.pullSeed i ∈ s.items) :
    ∃ st' sd', Inv G (doStep G s (.pullSeed i)) st' sd' := by
  have hsd : sd = .free i := seed_of_mem h hmem
  by_cases hiN : i < G.length
  · by_cases hw0 : getCell s.cells i = 0
    · -- the CAS succeeds: task i starts its lock phase
      have hilen : i < s.cells.length := by rw [h.cellsLen]; exact hiN
      have hword := h.wordEq i hiN
      have hle := h.unlLe i hiN
      rw [hw0] at hword
      have hbits0 : bitsOf (st i) = 0 := by omega
      have hidlei : st i = .idle := (bits_eq_zero_iff _).mp hbits0
      have hcnt0 : unlockedCnt G st i = (getCTask G i).initial + lockedCnt G st i := by
        omega
      refine ⟨Function.update st i (.locking 0 (.seedK (i + 1))), .emb (i + 1), ?_⟩
      have hstep : doStep G s (.pullSeed i)
          = { s with cells := s.cells.set i LOCK_BIT,
                     takes := s.takes ++ [i],
                     items := .lockPh i 0 (.seedK (i + 1))
                       :: s.items.erase (.pullSeed i) } := by
        unfold doStep
        rw [h.notCrashed]
        simp [hmem, hiN, hw0]
      rw [hstep]
      set st' := Function.update st i (Stage.locking 0 (Cont.seedK (i + 1))) with hst'
      have hst'i : st' i = .locking 0 (.seedK (i + 1)) := Function.update_same ..
      have hst'ne : ∀ t, t ≠ i → st' t = st t := fun t ht => Function.update_noteq ht ..
      have hLeq : ∀ t, lockj G t (st' t) = lockj G t (st t) := by
        intro t
        by_cases ht : t = i
        · subst ht
          rw [hst'i, hidlei]
          rfl
        · rw [hst'ne t ht]
      have hUeq : ∀ t, unlj G t (st' t) = unlj G t (st t) := by
        intro t
        by_cases ht : t = i
        · subst ht
          rw [hst'i, hidlei]
          rfl
        · rw [hst'ne t ht]
      have hlocked : ∀ v, lockedCnt G st' v = lockedCnt G st v := by
        intro v
        unfold lockedCnt
        exact Finset.sum_congr rfl (fun t _ => by rw [hLeq])
      have hunlocked : ∀ v, unlockedCnt G st' v = unlockedCnt G st v := by
        intro v
        unfold unlockedCnt
        exact Finset.sum_congr rfl (fun t _ => by rw [hUeq])
      constructor
      · exact h.notCrashed
      · show (s.cells.set i _).length = G.length
        rw [List.length_set]
        exact h.cellsLen
      · -- subjItems
        intro t ht
        show (Item.lockPh i 0 (Cont.seedK (i + 1))
            :: s.items.erase (.pullSeed i)).filter (isSubjOf t) = stageItems t (st' t)
        rw [List.filter_cons, filter_erase _ _ _ hmem]
        by_cases hti : t = i
        · subst hti
          rw [if_pos (by simp [isSubjOf]), if_neg (by simp [isSubjOf]),
              h.subjItems t ht, hidlei, hst'i]
          simp [stageItems]
        · have h1 : isSubjOf t (Item.lockPh i 0 (Cont.seedK (i + 1))) = false := by
            simp [isSubjOf]
            omega
          rw [if_neg (by simp [h1]), if_neg (by simp [isSubjOf]),
              h.subjItems t ht, hst'ne t (fun he => hti he)]
      · -- seedFilter
        show (Item.lockPh i 0 (Cont.seedK (i + 1))
            :: s.items.erase (.pullSeed i)).filter isPullSeed = seedItems (SeedSt.emb (i + 1))
        rw [List.filter_cons, if_neg (by simp [isPullSeed]), filter_erase _ _ _ hmem,
            if_pos (by simp [isPullSeed]), h.seedFilter, hsd]
        simp [seedItems]
      · -- itemsCover
        intro it hit
        rcases List.mem_cons.mp hit with he | hit'
        · subst he
          exact Or.inr ⟨i, hiN, by simp [isSubjOf]⟩
        · exact h.itemsCover it (List.mem_of_mem_erase hit')
      · -- logCount
        intro t ht
        show s.log.count t = execsOf (st' t)
        rw [h.logCount t ht]
        by_cases hti : t = i
        · subst hti
          rw [hidlei, hst'i]
          rfl
        · rw [hst'ne t hti]
      · exact h.logMem
      · -- takeCount
        intro t ht
        show (s.takes ++ [i]).count t = takesOf (st' t)
        rw [List.count_append, h.takeCount t ht]
        by_cases hti : t = i
        · subst hti
          rw [hst'i, hidlei]
          simp [takesOf]
        · have hc : List.count t [i] = 0 := by
            rw [List.count_eq_zero]
            simp
            omega
          rw [hc, hst'ne t hti]
          omega
      · -- takeMem
        intro x hx
        rcases List.mem_append.mp hx with h1 | h2
        · exact h.takeMem x h1
        · rw [List.mem_singleton] at h2
          rw [h2]
          exact hiN
      · -- stageWF
        intro t ht
        by_cases hti : t = i
        · subst hti
          rw [hst'i]
          show (0 : Nat) ≤ _
          exact Nat.zero_le _
        · rw [hst'ne t hti]
          exact h.stageWF t ht
      · -- unlLe
        intro v hv
        rw [hlocked, hunlocked]
        exact h.unlLe v hv
      · -- wordEq
        intro v hv
        show getCell (s.cells.set i LOCK_BIT) v = _
        rw [getCell_set _ _ _ _ hilen, hlocked, hunlocked]
        by_cases hvi : v = i
        · subst hvi
          rw [if_pos rfl, hst'i]
          have hb : bitsOf (Stage.locking 0 (Cont.seedK (v + 1))) = LOCK_BIT := rfl
          omega
        · rw [if_neg hvi, hst'ne v hvi]
          exact h.wordEq v hv
      · -- embUnl
        intro v hv jv t j' hlk
        by_cases hvi : v = i
        · rw [hvi, hst'i] at hlk
          injection hlk with h1 h2
          cases h2
        · rw [hst'ne v hvi] at hlk
          obtain ⟨htN, hsusp, hvt'⟩ := h.embUnl v hv jv t j' hlk
          have hti : t ≠ i := by
            intro he
            rw [he, hidlei] at hsusp
            cases hsusp
          exact ⟨htN, by rw [hst'ne t hti]; exact hsusp, hvt'⟩
      · -- suspEx
        intro t ht j' hsusp
        have hti : t ≠ i := by
          intro he
          rw [he, hst'i] at hsusp
          cases hsusp
        rw [hst'ne t hti] at hsusp
        obtain ⟨v, hvN, jv, hlk⟩ := h.suspEx t ht j' hsusp
        have hvi : v ≠ i := by
          intro he
          rw [he, hidlei] at hlk
          cases hlk
        exact ⟨v, hvN, jv, by rw [hst'ne v hvi]; exact hlk⟩
      · -- suspUnique
        intro t j' v v' hv hv' h1 h2
        obtain ⟨jv, h1'⟩ := h1
        obtain ⟨jv', h2'⟩ := h2
        have hvi : v ≠ i := by
          intro he
          rw [he, hst'i] at h1'
          injection h1' with ha hb
          cases hb
        have hvi' : v' ≠ i := by
          intro he
          rw [he, hst'i] at h2'
          injection h2' with ha hb
          cases hb
        rw [hst'ne v hvi] at h1'
        rw [hst'ne v' hvi'] at h2'
        exact h.suspUnique t j' v v' hv hv' ⟨jv, h1'⟩ ⟨jv', h2'⟩
      · -- seedEmb
        intro v hv jv i' hlk
        by_cases hvi : v = i
        · rw [hvi, hst'i] at hlk
          injection hlk with h1 h2
          injection h2 with h3
          rw [h3]
        · rw [hst'ne v hvi] at hlk
          have := h.seedEmb v hv jv i' hlk
          rw [hsd] at this
          cases this
      · -- seedEmbEx
        intro i' hemb
        injection hemb with hi'
        exact ⟨i, hiN, 0, by rw [hst'i, hi']⟩
      · -- seedUnique
        intro v v' jv jv' i1 i2 hv hv' h1 h2
        by_cases hvi : v = i
        · by_cases hvi' : v' = i
          · rw [hvi, hvi']
          · exfalso
            rw [hst'ne v' hvi'] at h2
            have := h.seedEmb v' hv' jv' i2 h2
            rw [hsd] at this
            cases this
        · exfalso
          rw [hst'ne v hvi] at h1
          have := h.seedEmb v hv jv i1 h1
          rw [hsd] at this
          cases this
      · -- ready
        intro v hv hidle hcnt
        rcases update_eq_cases hidle with ⟨_, habs⟩ | ⟨hne, hidle'⟩
        · cases habs
        rw [hlocked, hunlocked] at hcnt
        rcases h.ready v hv hidle' hcnt with ⟨i2, hi2, hcase⟩ | ⟨t, j', htN, htk2, hentry'⟩
        · have hi2i : i2 = i := by
            rcases hcase with hfree | hemb
            · rw [hsd] at hfree
              injection hfree with he
              omega
            · rw [hsd] at hemb
              cases hemb
          exact Or.inl ⟨i + 1, by omega, Or.inr rfl⟩
        · have hti : t ≠ i := by
            intro he
            rw [he, hidlei] at htk2
            cases htk2
          exact Or.inr ⟨t, j', htN, by rw [hst'ne t hti]; exact htk2, hentry'⟩
    · -- the cell is non-zero: the seed iterator skips task i
      refine ⟨st, .free (i + 1), ?_⟩
      have hstep : doStep G s (.pullSeed i)
          = { s with items := .pullSeed (i + 1) :: s.items.erase (.pullSeed i) } := by
        unfold doStep
        rw [h.notCrashed]
        simp [hmem, hiN, hw0]
      rw [hstep]
      constructor
      · exact h.notCrashed
      · exact h.cellsLen
      · -- subjItems
        intro t ht
        show (Item.pullSeed (i + 1) :: s.items.erase (.pullSeed i)).filter (isSubjOf t)
            = stageItems t (st t)
        rw [List.filter_cons, if_neg (by simp [isSubjOf]), filter_erase _ _ _ hmem,
            if_neg (by simp [isSubjOf])]
        exact h.subjItems t ht
      · -- seedFilter
        show (Item.pullSeed (i + 1) :: s.items.erase (.pullSeed i)).filter isPullSeed
            = seedItems (SeedSt.free (i + 1))
        rw [List.filter_cons, if_pos (by simp [isPullSeed]), filter_erase _ _ _ hmem,
            if_pos (by simp [isPullSeed]), h.seedFilter, hsd]
        simp [seedItems]
      · -- itemsCover
        intro it hit
        rcases List.mem_cons.mp hit with he | hit'
        · subst he
          exact Or.inl (by simp [isPullSeed])
        · exact h.itemsCover it (List.mem_of_mem_erase hit')
      · exact h.logCount
      · exact h.logMem
      · exact h.takeCount
      · exact h.takeMem
      · exact h.stageWF
      · exact h.unlLe
      · exact h.wordEq
      · exact h.embUnl
      · exact h.suspEx
      · exact h.suspUnique
      · -- seedEmb
        intro v hv jv i' hlk
        have := h.seedEmb v hv jv i' hlk
        rw [hsd] at this
        cases this
      · -- seedEmbEx
        intro i' hemb
        cases hemb
      · exact h.seedUnique
      · -- ready
        intro v hv hidle hcnt
        rcases h.ready v hv hidle hcnt with ⟨i2, hi2, hcase⟩ | hresp
        · have hi2i : i2 = i := by
            rcases hcase with hfree | hemb
            · rw [hsd] at hfree
              injection hfree with he
              omega
            · rw [hsd] at hemb
              cases hemb
          have hvi : v ≠ i := by
            intro he
            apply hw0
            rw [← he, h.wordEq v hv, hidle]
            have hb : bitsOf Stage.idle = 0 := rfl
            omega
          exact Or.inl ⟨i + 1, by omega, Or.inl rfl⟩
        · exact Or.inr hresp
  · -- the iterator ran past the end: it dies
    refine ⟨st, .dead, ?_⟩
    have hstep : doStep G s (.pullSeed i)
        = { s with items := s.items.erase (.pullSeed i) } := by
      unfold doStep
      rw [h.notCrashed]
      simp [hmem, hiN]
    rw [hstep]
    constructor
    · exact h.notCrashed
    · exact h.cellsLen
    · -- subjItems
      intro t ht
      show (s.items.erase (.pullSeed i)).filter (isSubjOf t) = stageItems t (st t)
      rw [filter_erase _ _ _ hmem, if_neg (by simp [isSubjOf])]
      exact h.subjItems t ht
    · -- seedFilter
      show (s.items.erase (.pullSeed i)).filter isPullSeed = seedItems SeedSt.dead
      rw [filter_erase _ _ _ hmem, if_pos (by simp [isPullSeed]), h.seedFilter, hsd]
      simp [seedItems]
    · -- itemsCover
      intro it hit
      exact h.itemsCover it (List.mem_of_mem_erase hit)
    · exact h.logCount
    · exact h.logMem
    · exact h.takeCount
    · exact h.takeMem
    · exact h.stageWF
    · exact h.unlLe
    · exact h.wordEq
    · exact h.embUnl
    · exact h.suspEx
    · exact h.suspUnique
    · -- seedEmb
      intro v hv jv i' hlk
      have := h.seedEmb v hv jv i' hlk
      rw [hsd] at this
      cases this
    · -- seedEmbEx
      intro i' hemb
      cases hemb
    · exact h.seedUnique
    · -- ready
      intro v hv hidle hcnt
      rcases h.ready v hv hidle hcnt with ⟨i2, hi2, hcase⟩ | hresp
      · exfalso
        have hi2i : i2 = i := by
          rcases hcase with hfree | hemb
          · rw [hsd] at hfree
            injection hfree with he
            omega
          · rw [hsd] at hemb
            cases hemb
        omega
      · exact Or.inr hresp

/-- Every scheduler pick preserves the invariant (no-op picks and the
crashed state included). -/
theorem inv_step {G : List CTask} {DEP : Nat → List Nat} (hG : GoodGraph G DEP)
    {s : RState} {st : Nat → Stage} {sd : SeedSt} (h : Inv G s st sd) (it : Item) :
    ∃ st' sd', Inv G (doStep G s it) st' sd' := by
  by_cases hmem : it ∈ s.items
  · cases it with
    | pullSeed i => exact inv_step_pullSeed hG h i hmem
    | lockPh t j k => exact inv_step_lockPh hG h t j k hmem
    | exec t => exact ⟨_, sd, inv_step_exec hG h t hmem⟩
    | release t => exact ⟨_, sd, inv_step_release hG h t hmem⟩
    | pullUnl t j =>
      obtain ⟨st', hi⟩ := inv_step_pullUnl hG h t j hmem
      exact ⟨st', sd, hi⟩
    | takeUnl t j =>
      obtain ⟨st', hi⟩ := inv_step_takeUnl hG h t j hmem
      exact ⟨st', sd, hi⟩
  · have hid : doStep G s it = s := by
      unfold doStep
      rw [h.notCrashed]
      simp [hmem]
    rw [hid]
    exact ⟨st, sd, h⟩

/-- The invariant is preserved along any schedule. -/
theorem inv_run {G : List CTask} {DEP : Nat → List Nat} (hG : GoodGraph G DEP) :
    ∀ (sched : List Item) (s : RState) (st : Nat → Stage) (sd : SeedSt),
      Inv G s st sd → ∃ st' sd', Inv G (runSched G s sched) st' sd' := by
  intro sched
  induction sched with
  | nil =>
    intro s st sd h
    exact ⟨st, sd, h⟩
  | cons it its ih =>
    intro s st sd h
    obtain ⟨st', sd', h'⟩ := inv_step hG h it
    exact ih _ st' sd' h'

theorem lockedCnt_idle (G : List CTask) (u : Nat) :
    lockedCnt G (fun _ => Stage.idle) u = 0 :=
  Finset.sum_eq_zero (fun t _ => rfl)

theorem unlockedCnt_idle (G : List CTask) (u : Nat) :
    unlockedCnt G (fun _ => Stage.idle) u = 0 :=
  Finset.sum_eq_zero (fun t _ => rfl)

/-- The invariant holds at the start of `run`, on cells reset to the
compiled initial counters. -/
theorem inv_init {G : List CTask} {DEP : Nat → List Nat} (hG : GoodGraph G DEP) :
    Inv G (startState (G.map (fun c => c.initial))) (fun _ => .idle) (.free 0) := by
  constructor
  · rfl
  · show (G.map (fun c => c.initial)).length = G.length
    rw [List.length_map]
  · intro t ht
    rfl
  · rfl
  · intro it hit
    rw [show (startState (G.map (fun c => c.initial))).items = [Item.pullSeed 0] from rfl,
        List.mem_singleton] at hit
    rw [hit]
    exact Or.inl rfl
  · intro t ht
    rfl
  · intro x hx
    cases hx
  · intro t ht
    rfl
  · intro x hx
    cases hx
  · intro t ht
    trivial
  · intro u hu
    rw [lockedCnt_idle, unlockedCnt_idle]
    exact Nat.zero_le _
  · intro u hu
    rw [lockedCnt_idle, unlockedCnt_idle]
    show getCell (G.map (fun c => c.initial)) u = 0 + ((getCTask G u).initial + 0 - 0)
    unfold getCell getCTask
    rw [List.getElem?_map, List.getElem?_eq_getElem hu]
    simp
  · intro u hu ju t j hlk
    cases hlk
  · intro t ht j hsusp
    cases hsusp
  · intro t j v v' hv hv' h1 h2
    obtain ⟨jv, h1'⟩ := h1
    cases h1'
  · intro u hu ju i hlk
    cases hlk
  · intro i hemb
    cases hemb
  · intro v v' jv jv' i i' hv hv' h1 h2
    cases h1
  · intro u hu hidle hcnt
    exact Or.inl ⟨0, Nat.zero_le _, Or.inl rfl⟩

/-- When every task is idle or done, and no idle task's explicit
dependency list mentions `u`, the counter of `u` is back at zero. -/
theorem mixed_counts {G : List CTask} {DEP : Nat → List Nat} (hG : GoodGraph G DEP)
    (st : Nat → Stage) (u : Nat) (hu : u < G.length)
    (hstage : ∀ t, t < G.length → st t = .idle ∨ st t = .done)
    (hidle : ∀ t, t < G.length → st t = .idle → (DEP t).count u = 0) :
    unlockedCnt G st u = (getCTask G u).initial + lockedCnt G st u := by
  have hterm : ∀ t ∈ Finset.range G.length,
      ((getCTask G t).unlock.take (unlj G t (st t))).count u
        = (DEP t).count u + ((getCTask G t).lock.take (lockj G t (st t))).count u := by
    intro t htr
    have htN := Finset.mem_range.mp htr
    rcases hstage t htN with h1 | h1
    · rw [h1, hidle t htN h1]
      rfl
    · rw [h1]
      show ((getCTask G t).unlock.take (getCTask G t).unlock.length).count u
          = (DEP t).count u
            + ((getCTask G t).lock.take (getCTask G t).lock.length).count u
      rw [List.take_length, List.take_length, hG.unlockEq t htN, List.count_append]
  unfold unlockedCnt lockedCnt
  rw [Finset.sum_congr rfl hterm, Finset.sum_add_distrib, ← hG.initialEq u hu]

/-- Once the pool drains without a panic, every task has reached the
`done` stage: the suspended/locking bookkeeping excludes stuck shapes,
and the least unstarted task would contradict the `ready` field. -/
theorem finished_all_done {G : List CTask} {DEP : Nat → List Nat} (hG : GoodGraph G DEP)
    {s : RState} {st : Nat → Stage} {sd : SeedSt} (h : Inv G s st sd)
    (hfin : s.items = []) : ∀ t, t < G.length → st t = .done := by
  have hstage0 : ∀ t, t < G.length → stageItems t (st t) = [] := by
    intro t ht
    rw [← h.subjItems t ht, hfin]
    rfl
  have hnolock : ∀ t, t < G.length → ∀ jv c, st t ≠ .locking jv c := by
    intro t ht jv c he
    have h0 := hstage0 t ht
    rw [he] at h0
    cases h0
  have hstage : ∀ t, t < G.length → st t = .idle ∨ st t = .done := by
    intro t ht
    cases hs : st t with
    | idle => exact Or.inl rfl
    | done => exact Or.inr rfl
    | locking j c => exact absurd hs (hnolock t ht j c)
    | suspended j =>
      exfalso
      obtain ⟨v, hvN, jv, hlk⟩ := h.suspEx t ht j hs
      exact hnolock v hvN jv _ hlk
    | running =>
      exfalso
      have h0 := hstage0 t ht
      rw [hs] at h0
      cases h0
    | releasing =>
      exfalso
      have h0 := hstage0 t ht
      rw [hs] at h0
      cases h0
    | unlocking j =>
      exfalso
      have h0 := hstage0 t ht
      rw [hs] at h0
      cases h0
    | taking j =>
      exfalso
      have h0 := hstage0 t ht
      rw [hs] at h0
      cases h0
  have hsd : sd = .dead := by
    cases hq : sd with
    | free i =>
      exfalso
      have h0 := h.seedFilter
      rw [hfin, List.filter_nil, hq] at h0
      cases h0
    | emb i =>
      exfalso
      obtain ⟨v, hvN, jv, hlk⟩ := h.seedEmbEx i hq
      exact hnolock v hvN jv _ hlk
    | dead => rfl
  intro u
  induction u using Nat.strong_induction_on with
  | _ u ih =>
    intro huN
    rcases hstage u huN with hidle | hdone
    · exfalso
      have hcfg : unlockedCnt G st u = (getCTask G u).initial + lockedCnt G st u := by
        apply mixed_counts hG st u huN hstage
        intro t htN h1
        rw [List.count_eq_zero]
        intro hmem2
        have hlt := (hG.depMem t htN u hmem2).2
        have hdn := ih t hlt htN
        rw [hdn] at h1
        cases h1
      rcases h.ready u huN hidle hcfg with ⟨i2, hi2, hcase⟩ | ⟨t, j', htN, htk, he2⟩
      · rcases hcase with hf | hf
        · rw [hsd] at hf
          cases hf
        · rw [hsd] at hf
          cases hf
      · rcases hstage t htN with h1 | h1
        · rw [h1] at htk
          cases htk
        · rw [h1] at htk
          cases htk
    · exact hdone

/-- `Context::new` succeeds, producing the initial counters, exactly on
an all-Completed cell list of the right length. -/
theorem resetAll_of_comp {G : List CTask} {ws : List Nat}
    (hlen : ws.length = G.length)
    (hcomp : ∀ u, u < G.length → getCell ws u = COMP_BIT) :
    resetAll G ws = some (G.map (fun c => c.initial)) := by
  induction G generalizing ws with
  | nil =>
    cases ws with
    | nil => rfl
    | cons w ws' => cases hlen
  | cons g G' ih =>
    cases ws with
    | nil => cases hlen
    | cons w ws' =>
      have hw : w = COMP_BIT := by
        have h0 := hcomp 0 (by simp)
        simpa [getCell] using h0
      have hrest : resetAll G' ws' = some (G'.map (fun c => c.initial)) := by
        apply ih
        · simpa using hlen
        · intro u hu
          have h0 := hcomp (u + 1) (by simp; omega)
          simpa [getCell] using h0
      have hr : cellReset COMP_BIT g.initial = some g.initial := by
        unfold cellReset
        rw [if_pos rfl]
      show (match cellReset w g.initial, resetAll G' ws' with
            | some w', some ws2 => some (w' :: ws2)
            | _, _ => none)
          = some ((g :: G').map (fun c => c.initial))
      rw [hw, hr, hrest]
      rfl

theorem freshCells_len (G : List CTask) : (freshCells G).length = G.length := by
  simp [freshCells]

theorem freshCells_get (G : List CTask) (u : Nat) (hu : u < G.length) :
    (G.map (fun _ => cellNew))[u]? = some cellNew := by
  rw [List.getElem?_map, List.getElem?_eq_getElem hu]
  rfl

theorem freshCells_comp (G : List CTask) :
    ∀ u, u < G.length → getCell (freshCells G) u = COMP_BIT := by
  intro u hu
  unfold getCell freshCells
  rw [freshCells_get G u hu]
  rfl

/-- Claim C3: in every completed run of a built executor — any
work-stealing interleaving that drains the pool without a panic — the
closure of every task is invoked exactly once, and each task's cell
passes through its state machine exactly once: exactly one successful
take CAS (Counting to Running) and a final word in the Completed state. -/
theorem closures_exactly_once (decls : List DeclTask) (hwf : WFdeps decls)
    (hsz : SmallDecls decls) (sched : List Item)
    (hfin : finished (runSched (buildTasks decls)
      (startState ((buildTasks decls).map (fun c => c.initial))) sched)) :
    ∀ t, t < (buildTasks decls).length →
      (runSched (buildTasks decls)
          (startState ((buildTasks decls).map (fun c => c.initial))) sched).log.count t = 1
      ∧ (runSched (buildTasks decls)
          (startState ((buildTasks decls).map (fun c => c.initial))) sched).takes.count t = 1
      ∧ getCell (runSched (buildTasks decls)
          (startState ((buildTasks decls).map (fun c => c.initial))) sched).cells t
        = COMP_BIT := by
  have hG := buildTasks_goodGraph decls hwf hsz
  obtain ⟨st', sd', h'⟩ := inv_run hG sched _ _ _ (inv_init hG)
  have hall := finished_all_done hG h' hfin.1
  intro t ht
  have hcnt := mixed_counts hG st' t ht (fun v hv => Or.inr (hall v hv))
    (fun v hv hidle => by rw [hall v hv] at hidle; cases hidle)
  refine ⟨?_, ?_, ?_⟩
  · rw [h'.logCount t ht, hall t ht]
    rfl
  · rw [h'.takeCount t ht, hall t ht]
    rfl
  · rw [h'.wordEq t ht, hall t ht]
    show COMP_BIT + ((getCTask (buildTasks decls) t).initial
        + lockedCnt (buildTasks decls) st' t - unlockedCnt (buildTasks decls) st' t)
      = COMP_BIT
    omega

/-- The C3 theorem applied to a two-task chain and a complete
interleaving, evaluated on task 0. -/
theorem closures_exactly_once_witness :
    (runSched (buildTasks [⟨[], [], []⟩, ⟨[], [], [0]⟩])
        (startState ((buildTasks [⟨[], [], []⟩, ⟨[], [], [0]⟩]).map (fun c => c.initial)))
        [.pullSeed 0, .lockPh 0 0 (.seedK 1), .exec 0, .release 0, .pullSeed 1,
         .pullSeed 2, .pullUnl 0 0, .takeUnl 0 0, .lockPh 1 0 (.unlK 0 1), .exec 1,
         .release 1, .pullUnl 1 0, .pullUnl 0 1]).log.count 0 = 1
    ∧ (runSched (buildTasks [⟨[], [], []⟩, ⟨[], [], [0]⟩])
        (startState ((buildTasks [⟨[], [], []⟩, ⟨[], [], [0]⟩]).map (fun c => c.initial)))
        [.pullSeed 0, .lockPh 0 0 (.seedK 1), .exec 0, .release 0, .pullSeed 1,
         .pullSeed 2, .pullUnl 0 0, .takeUnl 0 0, .lockPh 1 0 (.unlK 0 1), .exec 1,
         .release 1, .pullUnl 1 0, .pullUnl 0 1]).takes.count 0 = 1
    ∧ getCell (runSched (buildTasks [⟨[], [], []⟩, ⟨[], [], [0]⟩])
        (startState ((buildTasks [⟨[], [], []⟩, ⟨[], [], [0]⟩]).map (fun c => c.initial)))
        [.pullSeed 0, .lockPh 0 0 (.seedK 1), .exec 0, .release 0, .pullSeed 1,
         .pullSeed 2, .pullUnl 0 0, .takeUnl 0 0, .lockPh 1 0 (.unlK 0 1), .exec 1,
         .release 1, .pullUnl 1 0, .pullUnl 0 1]).cells 0 = COMP_BIT :=
  closures_exactly_once [⟨[], [], []⟩, ⟨[], [], [0]⟩] (wfDeps_of_b (by decide))
    ⟨by decide, by decide⟩
    [.pullSeed 0, .lockPh 0 0 (.seedK 1), .exec 0, .release 0, .pullSeed 1,
     .pullSeed 2, .pullUnl 0 0, .takeUnl 0 0, .lockPh 1 0 (.unlK 0 1), .exec 1,
     .release 1, .pullUnl 1 0, .pullUnl 0 1]
    ⟨by decide, by decide⟩ 0 (by decide)

/-- Claim C9: every cell of a freshly built executor is Completed, so
the `Context::new` reset to the initial counters succeeds; and every
completed run restores the all-Completed predicate, so the reset
succeeds again and the executor may be rerun with the same guarantees. -/
theorem completed_restored_between_runs (decls : List DeclTask) (hwf : WFdeps decls)
    (hsz : SmallDecls decls) (sched : List Item)
    (hfin : finished (runSched (buildTasks decls)
      (startState ((buildTasks decls).map (fun c => c.initial))) sched)) :
    resetAll (buildTasks decls) (freshCells (buildTasks decls))
        = some ((buildTasks decls).map (fun c => c.initial))
    ∧ (∀ u, u < (buildTasks decls).length →
        getCell (runSched (buildTasks decls)
          (startState ((buildTasks decls).map (fun c => c.initial))) sched).cells u
          = COMP_BIT)
    ∧ resetAll (buildTasks decls)
        (runSched (buildTasks decls)
          (startState ((buildTasks decls).map (fun c => c.initial))) sched).cells
        = some ((buildTasks decls).map (fun c => c.initial)) := by
  have hG := buildTasks_goodGraph decls hwf hsz
  obtain ⟨st', sd', h'⟩ := inv_run hG sched _ _ _ (inv_init hG)
  have hall := finished_all_done hG h' hfin.1
  have hcomp : ∀ u, u < (buildTasks decls).length →
      getCell (runSched (buildTasks decls)
        (startState ((buildTasks decls).map (fun c => c.initial))) sched).cells u
        = COMP_BIT := by
    intro u hu
    have hcnt := mixed_counts hG st' u hu (fun v hv => Or.inr (hall v hv))
      (fun v hv hidle => by rw [hall v hv] at hidle; cases hidle)
    rw [h'.wordEq u hu, hall u hu]
    show COMP_BIT + ((getCTask (buildTasks decls) u).initial
        + lockedCnt (buildTasks decls) st' u - unlockedCnt (buildTasks decls) st' u)
      = COMP_BIT
    omega
  exact ⟨resetAll_of_comp (freshCells_len _) (freshCells_comp _), hcomp,
    resetAll_of_comp h'.cellsLen hcomp⟩

/-- The C9 theorem applied to the same two-task chain and complete
interleaving: the reset succeeds after build and again after the run. -/
theorem completed_restored_between_runs_witness :
    resetAll (buildTasks [⟨[], [], []⟩, ⟨[], [], [0]⟩])
        (freshCells (buildTasks [⟨[], [], []⟩, ⟨[], [], [0]⟩]))
      = some ((buildTasks [⟨[], [], []⟩, ⟨[], [], [0]⟩]).map (fun c => c.initial))
    ∧ resetAll (buildTasks [⟨[], [], []⟩, ⟨[], [], [0]⟩])
        (runSched (buildTasks [⟨[], [], []⟩, ⟨[], [], [0]⟩])
          (startState ((buildTasks [⟨[], [], []⟩, ⟨[], [], [0]⟩]).map (fun c => c.initial)))
          [.pullSeed 0, .lockPh 0 0 (.seedK 1), .exec 0, .release 0, .pullSeed 1,
           .pullSeed 2, .pullUnl 0 0, .takeUnl 0 0, .lockPh 1 0 (.unlK 0 1), .exec 1,
           .release 1, .pullUnl 1 0, .pullUnl 0 1]).cells
      = some ((buildTasks [⟨[], [], []⟩, ⟨[], [], [0]⟩]).map (fun c => c.initial)) :=
  ⟨(completed_restored_between_runs [⟨[], [], []⟩, ⟨[], [], [0]⟩] (wfDeps_of_b (by decide))
      ⟨by decide, by decide⟩
      [.pullSeed 0, .lockPh 0 0 (.seedK 1), .exec 0, .release 0, .pullSeed 1,
       .pullSeed 2, .pullUnl 0 0, .takeUnl 0 0, .lockPh 1 0 (.unlK 0 1), .exec 1,
       .release 1, .pullUnl 1 0, .pullUnl 0 1] ⟨by decide, by decide⟩).1,
   (completed_restored_between_runs [⟨[], [], []⟩, ⟨[], [], [0]⟩] (wfDeps_of_b (by decide))
      ⟨by decide, by decide⟩
      [.pullSeed 0, .lockPh 0 0 (.seedK 1), .exec 0, .release 0, .pullSeed 1,
       .pullSeed 2, .pullUnl 0 0, .takeUnl 0 0, .lockPh 1 0 (.unlK 0 1), .exec 1,
       .release 1, .pullUnl 1 0, .pullUnl 0 1] ⟨by decide, by decide⟩).2.2⟩

end Calcite
